import Mathlib

/-!
Verification of the go-json-parser repository (src/main.go, src/format.go).

The Go source is shallowly embedded: bytes are `Nat` (0..255), the input
buffer is a `List Nat`, the scanner (`reader` in main.go) is the structure
`Rdr`, the recursive-descent parser functions return `Except PErr (α × Rdr)`,
and the three renderers are pure functions from the element tree to a byte
list.  General recursion of the mutually recursive grammar functions is
expressed with an explicit fuel parameter (initial fuel `3*|input| + 8`,
which is shown ample for the runs the theorems mention); scanner-level loops
(whitespace, digits, string scanning) recurse on the number of unread bytes.
-/

namespace GoJson

/-- ASCII bytes of a Lean string literal (used to state expected outputs). -/
def asciiL (s : String) : List Nat := s.toList.map (fun c => c.toNat)

/-- Go slice `l[a:b]`. -/
def sub (l : List Nat) (a b : Nat) : List Nat := (l.drop a).take (b - a)

/-- Go `utf8.DecodeRune` on the front of a byte list: returns the decoded
code point and the number of bytes consumed; malformed input (bad lead
byte, bad continuation byte, overlong form, surrogate, out of range, or
truncated sequence) yields (RuneError = 0xFFFD, 1) (0 consumed on empty
input).  Continuation bytes are 0x80-0xBF, further restricted on the
second byte exactly as by Go's acceptance table (0xE0/0xED/0xF0/0xF4). -/
def decodeRune : List Nat → Nat × Nat
  | [] => (65533, 0)
  | b0 :: rest =>
    if b0 < 128 then (b0, 1)
    else if 194 ≤ b0 ∧ b0 ≤ 223 then
      match rest with
      | b1 :: _ =>
        if 128 ≤ b1 ∧ b1 ≤ 191 then ((b0 - 192) * 64 + (b1 - 128), 2) else (65533, 1)
      | [] => (65533, 1)
    else if 224 ≤ b0 ∧ b0 ≤ 239 then
      match rest with
      | b1 :: b2 :: _ =>
        if (if b0 = 224 then 160 ≤ b1 ∧ b1 ≤ 191
            else if b0 = 237 then 128 ≤ b1 ∧ b1 ≤ 159
            else 128 ≤ b1 ∧ b1 ≤ 191) ∧ (128 ≤ b2 ∧ b2 ≤ 191) then
          ((b0 - 224) * 4096 + (b1 - 128) * 64 + (b2 - 128), 3)
        else (65533, 1)
      | _ => (65533, 1)
    else if 240 ≤ b0 ∧ b0 ≤ 244 then
      match rest with
      | b1 :: b2 :: b3 :: _ =>
        if (if b0 = 240 then 144 ≤ b1 ∧ b1 ≤ 191
            else if b0 = 244 then 128 ≤ b1 ∧ b1 ≤ 143
            else 128 ≤ b1 ∧ b1 ≤ 191) ∧ (128 ≤ b2 ∧ b2 ≤ 191) ∧ (128 ≤ b3 ∧ b3 ≤ 191) then
          ((b0 - 240) * 262144 + (b1 - 128) * 4096 + (b2 - 128) * 64 + (b3 - 128), 4)
        else (65533, 1)
      | _ => (65533, 1)
    else (65533, 1)

/-- The scanner: `reader` of main.go (byte buffer, 1-based line, column,
byte offset). -/
structure Rdr where
  s : List Nat
  line : Nat
  col : Nat
  off : Nat
deriving Repr, DecidableEq

/-- `reader.isEOF`: offset has reached the buffer length. -/
def Rdr.isEOF (r : Rdr) : Bool := r.s.length ≤ r.off

/-- `reader.peek`: next Unicode scalar and its byte width, without
advancing.  ASCII bytes are taken directly; bytes ≥ 128 go through
`decodeRune` with Go's fallback of treating a 1-byte decode failure as the
raw byte itself.  At end of input: (0, 0). -/
def Rdr.peek (r : Rdr) : Nat × Nat :=
  if r.isEOF then (0, 0)
  else
    let b := r.s.getD r.off 0
    if b < 128 then (b, 1)
    else
      let d := decodeRune (r.s.drop r.off)
      if d.1 = 65533 ∧ d.2 = 1 then (b, 1) else d

/-- `reader.read`: peek, then advance by the returned width, updating
line/column (newline resets column and bumps line).  At end of input the
reader is returned unchanged. -/
def Rdr.read (r : Rdr) : Nat × Rdr :=
  let v := r.peek.1
  let sz := r.peek.2
  if r.isEOF then (v, r)
  else if v = 10 then (v, ⟨r.s, r.line + 1, 0, r.off + sz⟩)
  else (v, ⟨r.s, r.line, r.col + 1, r.off + sz⟩)

/-- Whitespace per `isWhitespace` (space, tab, LF, CR). -/
def isWsB (b : Nat) : Bool := b = 32 || b = 9 || b = 10 || b = 13

/-- The loop body of `parser.eatWhitespace`, with a structural bound on
the number of iterations (each iteration consumes at least one byte, so
the bound `remaining bytes + 1` used below is never reached). -/
def eatWsF : Nat → Rdr → Rdr
  | 0, p => p
  | n + 1, p =>
    if p.isEOF = false ∧ isWsB (p.peek).1 = true then eatWsF n ((p.read).2)
    else p

/-- `parser.eatWhitespace`. -/
def eatWs (p : Rdr) : Rdr := eatWsF (p.s.length - p.off + 1) p

def isDigitB (b : Nat) : Bool := 48 ≤ b && b ≤ 57

def isNaturalB (b : Nat) : Bool := 49 ≤ b && b ≤ 57

def isHexB (b : Nat) : Bool := isDigitB b || (97 ≤ b && b ≤ 102) || (65 ≤ b && b ≤ 70)

/-- Error description carried by a syntax error (the `fmt.Errorf` payloads
of main.go, plus a distinguished marker for fuel exhaustion of the
embedding, which no actual run of the theorems reaches). -/
inductive Msg where
  | unexpectedToken : Nat → Msg
  | expected : String → Nat → Msg
  | expectedChar : Nat → Nat → Msg
  | plain : String → Msg
  | fuel : Msg
deriving Repr, DecidableEq

/-- A syntax error: scanner line and column at the failure point plus the
description (`parser.syntaxError`). -/
structure PErr where
  line : Nat
  col : Nat
  msg : Msg
deriving Repr, DecidableEq

def perr (p : Rdr) (m : Msg) : PErr := ⟨p.line, p.col, m⟩

/-- A genuine syntax error of the source program (not fuel exhaustion of
the embedding). -/
def IsSynErr (e : PErr) : Prop := e.msg ≠ Msg.fuel

/-- The element tree: `jsonElement` of main.go as a closed tagged union
(object members are key/value pairs in source order; string and number
payloads are raw bytes / exact consumed text). -/
inductive Elem where
  | object : List (List Nat × Elem) → Elem
  | array : List Elem → Elem
  | string : List Nat → Elem
  | number : List Nat → Elem
  | boolean : Bool → Elem
  | null : Elem
deriving Repr

/-- The four-hex-digit loop inside `parseRawString`'s `\u` case; `u` is the
escape character used in the error message (Go reports the `u` itself). -/
def readHexN : Nat → Rdr → Nat → Except PErr Rdr
  | 0, p, _ => .ok p
  | n + 1, p, u =>
    let t := p.read
    if isHexB t.1 then readHexN n t.2 u
    else .error (perr t.2 (.expected "hexadecimal digit" u))

/-- The scanning loop of `parseRawString`: reads until an unescaped `"`
(success) or end of input (also success, mirroring the source), validating
escape sequences and rejecting unescaped control characters.  The
structural bound (first argument) counts loop iterations; each iteration
consumes at least one byte, so the bound `remaining bytes + 1` used by
`parseRawString` is never exhausted (the fuel error is unreachable). -/
def rawStrLoopF : Nat → Rdr → Bool → Except PErr Rdr
  | 0, p, _ => .error (perr p .fuel)
  | n + 1, p, esc =>
    if p.isEOF = true then .ok p
    else
      let r := (p.read).1
      let p1 := (p.read).2
      if esc = false ∧ r = 34 then .ok p1
      else if esc = false ∧ r ≤ 31 then
        .error (perr p1 (.plain "unescaped special caharacter"))
      else if esc = true then
        if r = 34 ∨ r = 92 ∨ r = 47 ∨ r = 98 ∨ r = 102 ∨ r = 110 ∨ r = 114 ∨ r = 116 then
          rawStrLoopF n p1 false
        else if r = 117 then
          match readHexN 4 p1 r with
          | .error e => .error e
          | .ok p2 => rawStrLoopF n p2 false
        else .error (perr p1 (.plain "invalid escape character"))
      else
        rawStrLoopF n p1 (decide (r = 92))

/-- `parser.parseRawString`: empty string via the peeked quote, otherwise
the scanning loop; afterwards an error only when no byte at all was
consumed, else the slice `s[start : offset-1]`. -/
def parseRawString (p : Rdr) : Except PErr (List Nat × Rdr) :=
  if (p.peek).1 = 34 then .ok ([], (p.read).2)
  else
    let start := p.off
    match rawStrLoopF (p.s.length - p.off + 1) p false with
    | .error e => .error e
    | .ok p2 =>
      if start = p2.off then .error (perr p2 (.plain "expected quote but eof"))
      else .ok (sub p2.s start (p2.off - 1), p2)

/-- `parser.parseString`. -/
def parseString (p : Rdr) : Except PErr (Elem × Rdr) :=
  match parseRawString p with
  | .error e => .error e
  | .ok (raw, p2) => .ok (.string raw, p2)

/-- The digit-consuming loop shared by integer/fraction/exponent parts,
with the same structural iteration bound as `eatWsF`. -/
def digitLoopF : Nat → Rdr → List Nat → List Nat × Rdr
  | 0, p, acc => (acc, p)
  | n + 1, p, acc =>
    if p.isEOF = false ∧ isDigitB (p.peek).1 = true then
      digitLoopF n ((p.read).2) (acc ++ [(p.read).1])
    else (acc, p)

/-- The digit-consuming loop at its never-exhausted bound. -/
def digitLoop (p : Rdr) (acc : List Nat) : List Nat × Rdr :=
  digitLoopF (p.s.length - p.off + 1) p acc

/-- `parser.parseInteger` (the builder is threaded as the `acc` list;
`start` was already appended by `parseNumber`). -/
def parseInteger (start : Nat) (acc : List Nat) (p : Rdr) :
    Except PErr (List Nat × Rdr) :=
  if start = 45 then
    let t := p.read
    if t.1 = 48 then .ok (acc ++ [t.1], t.2)
    else if isNaturalB t.1 then
      let d := digitLoop t.2 []
      .ok (acc ++ [t.1] ++ d.1, d.2)
    else .error (perr t.2 (.expected "digit '1-9'" t.1))
  else if start ≠ 48 then
    let d := digitLoop p []
    .ok (acc ++ d.1, d.2)
  else .ok (acc, p)

/-- `parser.parseFraction`. -/
def parseFraction (acc : List Nat) (p : Rdr) : Except PErr (List Nat × Rdr) :=
  if (p.peek).1 = 46 then
    let p1 := (p.read).2
    let d := digitLoop p1 []
    if d.1 = [] then .error (perr d.2 (.plain "expected digit after fraction"))
    else .ok (acc ++ [46] ++ d.1, d.2)
  else .ok (acc, p)

/-- `parser.parseExponent`. -/
def parseExponent (acc : List Nat) (p : Rdr) : Except PErr (List Nat × Rdr) :=
  let r := (p.peek).1
  if r = 101 ∨ r = 69 then
    let p1 := (p.read).2
    let r2 := (p1.peek).1
    let acc1 := acc ++ [r]
    if r2 = 43 ∨ r2 = 45 then
      let p2 := (p1.read).2
      let d := digitLoop p2 []
      if d.1 = [] then .error (perr d.2 (.plain "expected digit after exponent"))
      else .ok (acc1 ++ [r2] ++ d.1, d.2)
    else
      let d := digitLoop p1 []
      if d.1 = [] then .error (perr d.2 (.plain "expected digit after exponent"))
      else .ok (acc1 ++ d.1, d.2)
  else .ok (acc, p)

/-- `parser.parseNumber` (`start` is the rune already consumed by
`parseValue`). -/
def parseNumber (start : Nat) (p : Rdr) : Except PErr (Elem × Rdr) :=
  match parseInteger start [start] p with
  | .error e => .error e
  | .ok (a1, p1) =>
    match parseFraction a1 p1 with
    | .error e => .error e
    | .ok (a2, p2) =>
      match parseExponent a2 p2 with
      | .error e => .error e
      | .ok (a3, p3) => .ok (.number a3, p3)

/-- `parser.match`: character-by-character literal match; on success
returns (true, 0, 0), on failure the expected and found runes. -/
def matchLit (p : Rdr) : List Nat → Bool × Nat × Nat × Rdr
  | [] => (true, 0, 0, p)
  | c :: cs =>
    let t := p.read
    if t.1 = c then matchLit t.2 cs
    else (false, c, t.1, t.2)

/-- `parser.parseBool` (only ever called with start = 't' or 'f'; the Go
`default: panic` branch is unreachable from `parseValue`). -/
def parseBool (start : Nat) (p : Rdr) : Except PErr (Elem × Rdr) :=
  if start = 116 then
    match matchLit p [114, 117, 101] with
    | (true, _, _, p1) => .ok (.boolean true, p1)
    | (false, ex, got, p1) => .error (perr p1 (.expectedChar ex got))
  else
    match matchLit p [97, 108, 115, 101] with
    | (true, _, _, p1) => .ok (.boolean false, p1)
    | (false, ex, got, p1) => .error (perr p1 (.expectedChar ex got))

/-- `parser.parseNull`. -/
def parseNull (p : Rdr) : Except PErr (Elem × Rdr) :=
  match matchLit p [117, 108, 108] with
  | (true, _, _, p1) => .ok (.null, p1)
  | (false, ex, got, p1) => .error (perr p1 (.expectedChar ex got))

mutual

/-- `parser.parseValue`: dispatch on the consumed leading rune. -/
def parseValue : Nat → Rdr → Except PErr (Elem × Rdr)
  | 0, p => .error (perr p .fuel)
  | fuel + 1, p =>
    let t := p.read
    if t.1 = 123 then parseObject fuel t.2
    else if t.1 = 91 then parseArray fuel t.2
    else if t.1 = 34 then parseString t.2
    else if t.1 = 45 ∨ (48 ≤ t.1 ∧ t.1 ≤ 57) then parseNumber t.1 t.2
    else if t.1 = 116 ∨ t.1 = 102 then parseBool t.1 t.2
    else if t.1 = 110 then parseNull t.2
    else .error (perr t.2 (.unexpectedToken t.1))

/-- `parser.parseObject` after the `{` has been consumed. -/
def parseObject : Nat → Rdr → Except PErr (Elem × Rdr)
  | 0, p => .error (perr p .fuel)
  | fuel + 1, p =>
    let p1 := eatWs p
    match parseObjLoop fuel p1 [] with
    | .error e => .error e
    | .ok (ms, p2) =>
      let t := p2.read
      if t.1 = 125 then .ok (.object ms, t.2)
      else .error (perr t.2 (.expected "\x7d" t.1))

/-- The member loop of `parseObject`: exits at EOF or a peeked `}`; from
the second member on it requires a comma first; a missing member is an
error unless the list is still empty. -/
def parseObjLoop : Nat → Rdr → List (List Nat × Elem) →
    Except PErr (List (List Nat × Elem) × Rdr)
  | 0, p, _ => .error (perr p .fuel)
  | fuel + 1, p, members =>
    if p.isEOF = true then .ok (members, p)
    else if (p.peek).1 = 125 then .ok (members, p)
    else
      match (if members.isEmpty then .ok p
             else
               let t := p.read
               if t.1 = 44 then .ok (eatWs t.2)
               else .error (perr t.2 (.expected "," t.1)) : Except PErr Rdr) with
      | .error e => .error e
      | .ok p2 =>
        match parseMember fuel p2 with
        | .error e => .error e
        | .ok (none, p3) =>
          if members.isEmpty then .ok (members, p3)
          else .error (perr p3 (.plain "expected object member"))
        | .ok (some m, p3) => parseObjLoop fuel p3 (members ++ [m])

/-- `parser.parseMember`: returns none when no key quote is peeked. -/
def parseMember : Nat → Rdr → Except PErr (Option (List Nat × Elem) × Rdr)
  | 0, p => .error (perr p .fuel)
  | fuel + 1, p =>
    if (p.peek).1 ≠ 34 then .ok (none, p)
    else
      let p1 := (p.read).2
      match parseRawString p1 with
      | .error e => .error e
      | .ok (key, p2) =>
        let p3 := eatWs p2
        let t := p3.read
        if t.1 ≠ 58 then .error (perr t.2 (.expected ":" t.1))
        else
          let p5 := eatWs t.2
          match parseValue fuel p5 with
          | .error e => .error e
          | .ok (v, p6) => .ok (some (key, v), eatWs p6)

/-- `parser.parseArray` after the `[` has been consumed. -/
def parseArray : Nat → Rdr → Except PErr (Elem × Rdr)
  | 0, p => .error (perr p .fuel)
  | fuel + 1, p =>
    let p1 := eatWs p
    match parseArrLoop fuel p1 [] with
    | .error e => .error e
    | .ok (es, p2) =>
      let p3 := eatWs p2
      let t := p3.read
      if t.1 = 93 then .ok (.array es, t.2)
      else .error (perr t.2 (.expected "]" t.1))

/-- The element loop of `parseArray`. -/
def parseArrLoop : Nat → Rdr → List Elem → Except PErr (List Elem × Rdr)
  | 0, p, _ => .error (perr p .fuel)
  | fuel + 1, p, els =>
    if p.isEOF = true then .ok (els, p)
    else if (p.peek).1 = 93 then .ok (els, p)
    else
      match (if els.isEmpty then .ok p
             else
               let t := p.read
               if t.1 = 44 then .ok (eatWs t.2)
               else .error (perr t.2 (.expected "," t.1)) : Except PErr Rdr) with
      | .error e => .error e
      | .ok p2 =>
        match parseValue fuel p2 with
        | .error e => .error e
        | .ok (el, p3) => parseArrLoop fuel (eatWs p3) (els ++ [el])

end

/-- `parser.parseRoot`: whitespace, one value, whitespace, end of input. -/
def parseRoot (fuel : Nat) (p : Rdr) : Except PErr (Elem × Rdr) :=
  let p1 := eatWs p
  match parseValue fuel p1 with
  | .error e => .error e
  | .ok (root, p2) =>
    let p3 := eatWs p2
    if p3.isEOF = true then .ok (root, p3)
    else
      let t := p3.read
      .error (perr t.2 (.expected "eof" t.1))

/-- Initial fuel for a buffer of n bytes (ample; see the run lemmas). -/
def initFuel (n : Nat) : Nat := 3 * n + 8

/-- `newParser`: line 1, column 0, offset 0. -/
def mkRdr (x : List Nat) : Rdr := ⟨x, 1, 0, 0⟩

/-- `parser.parse` on a loaded byte buffer, also exposing the scanner's
final state. -/
def parseFull (x : List Nat) : Except PErr (Elem × Rdr) :=
  parseRoot (initFuel x.length) (mkRdr x)

/-- `parser.parse`, element only. -/
def parse (x : List Nat) : Except PErr Elem :=
  (parseFull x).map (fun q => q.1)

/-! ## Renderers (format.go) -/

/-- `strings.Repeat(" ", n)`. -/
def spaces (n : Nat) : List Nat := List.replicate n 32

/-- `elementKind.String` of a node. -/
def kindName : Elem → List Nat
  | .object _ => asciiL "object"
  | .array _ => asciiL "array"
  | .string _ => asciiL "string"
  | .number _ => asciiL "number"
  | .boolean _ => asciiL "boolean"
  | .null => asciiL "null"

mutual

/-- The `walk` closure of `astToString`: emits the node and returns the
output together with the mutated `indent` counter.  `indent` is increased
for object and array nodes, but only object nodes decrease it again at the
end, exactly as in the source.  The scalar branches print via
`fmt.Sprintf`: `%v` for booleans, `%s` otherwise — for the Null node the
payload is Go's nil interface, which `%s` renders as `%!s(<nil>)`.
(The Go `indent` is an `int`; it never becomes negative, because nodes
never decrease it below its entry value, so `Nat` subtraction is exact.) -/
def astWalk : Elem → Nat → List Nat × Nat
  | e, ind =>
    let isCt : Bool := match e with
      | .object _ => true
      | .array _ => true
      | _ => false
    let head := spaces ind ++ kindName e ++ [58]
    let ind1 := if isCt then ind + 1 else ind
    let head2 := if isCt then head ++ [10] else head
    let bo : List Nat × Nat :=
      match e with
      | .object ms => astPairs ms ind1
      | .array es => astElems es ind1
      | .string b => (b, ind1)
      | .number t => (t, ind1)
      | .boolean b => (asciiL (if b then "true" else "false"), ind1)
      | .null => (asciiL "%!s(<nil>)", ind1)
    let deco : Bool := match e with
      | .object _ => true
      | _ => false
    (head2 ++ bo.1 ++ [10], if deco then bo.2 - 1 else bo.2)

/-- The `[]*pair` branch of the walk: "key"/"value" lines then the value
at one extra indent level (decreased again after the value). -/
def astPairs : List (List Nat × Elem) → Nat → List Nat × Nat
  | [], ind => ([], ind)
  | (k, v) :: ms, ind =>
    let l1 := spaces ind ++ asciiL "key:" ++ k ++ [10]
    let l2 := spaces ind ++ asciiL "value: " ++ [10]
    let s1 := astWalk v (ind + 1)
    let s2 := astPairs ms (s1.2 - 1)
    (l1 ++ l2 ++ s1.1 ++ s2.1, s2.2)

/-- The `[]*jsonElement` branch of the walk. -/
def astElems : List Elem → Nat → List Nat × Nat
  | [], ind => ([], ind)
  | e :: es, ind =>
    let s1 := astWalk e ind
    let s2 := astElems es s1.2
    (s1.1 ++ s2.1, s2.2)

end

/-- `astToString` of format.go. -/
def astToString (e : Elem) : List Nat := (astWalk e 0).1

mutual

/-- The `walk` closure of `minify`. -/
def minifyE : Elem → List Nat
  | .object ms => 123 :: minifyMs ms ++ [125]
  | .array es => 91 :: minifyEs es ++ [93]
  | .string b => 34 :: b ++ [34]
  | .number t => t
  | .boolean b => asciiL (if b then "true" else "false")
  | .null => asciiL "null"

/-- Object members in `minify`: re-quoted key, colon, value, comma on all
but the last member. -/
def minifyMs : List (List Nat × Elem) → List Nat
  | [] => []
  | [(k, v)] => 34 :: k ++ [34, 58] ++ minifyE v
  | (k, v) :: ms => 34 :: k ++ [34, 58] ++ minifyE v ++ [44] ++ minifyMs ms

/-- Array elements in `minify`: comma on all but the last element. -/
def minifyEs : List Elem → List Nat
  | [] => []
  | [e] => minifyE e
  | e :: es => minifyE e ++ [44] ++ minifyEs es

end

/-- `minify` of format.go. -/
def minify (e : Elem) : List Nat := minifyE e

/-- State of the `pretty` walk: output built so far, nesting level, and
the `ignoreLvl` flag that replaces one indentation prefix by a single
space (used right after an object key's colon). -/
structure PSt where
  out : List Nat
  lvl : Nat
  ignore : Bool

/-- The `write` closure of `pretty`. -/
def pwrite (indent : Nat) (st : PSt) (s : List Nat) : PSt :=
  if st.ignore then ⟨st.out ++ [32] ++ s, st.lvl, false⟩
  else ⟨st.out ++ spaces (st.lvl * indent) ++ s, st.lvl, false⟩

mutual

/-- The `walk` closure of `pretty`.  Empty containers close on the same
line; non-empty ones open the bracket, newline, raise the level, emit one
child per line (comma on all but the last), lower the level and close at
the original indent.  (Go's `lvl` is an `int` that never goes negative:
it is only decremented right after the matching increment.) -/
def pwalk (indent : Nat) : Elem → PSt → PSt
  | .array es, st =>
    let st1 := pwrite indent st [91]
    if es.isEmpty then ⟨st1.out ++ [93], st1.lvl, st1.ignore⟩
    else
      let st2 : PSt := ⟨st1.out ++ [10], st1.lvl + 1, st1.ignore⟩
      let st3 := pElems indent es st2
      let st4 : PSt := ⟨st3.out, st3.lvl - 1, st3.ignore⟩
      pwrite indent st4 [93]
  | .object ms, st =>
    let st1 := pwrite indent st [123]
    if ms.isEmpty then ⟨st1.out ++ [125], st1.lvl, st1.ignore⟩
    else
      let st2 : PSt := ⟨st1.out ++ [10], st1.lvl + 1, st1.ignore⟩
      let st3 := pPairs indent ms st2
      let st4 : PSt := ⟨st3.out, st3.lvl - 1, st3.ignore⟩
      pwrite indent st4 [125]
  | .string b, st =>
    let st1 := pwrite indent st [34]
    ⟨st1.out ++ b ++ [34], st1.lvl, st1.ignore⟩
  | .number t, st => pwrite indent st t
  | .boolean b, st => pwrite indent st (asciiL (if b then "true" else "false"))
  | .null, st => pwrite indent st (asciiL "null")

/-- Array elements in `pretty`: each on its own line, comma on all but
the last. -/
def pElems (indent : Nat) : List Elem → PSt → PSt
  | [], st => st
  | [e], st =>
    let s1 := pwalk indent e st
    ⟨s1.out ++ [10], s1.lvl, s1.ignore⟩
  | e :: es, st =>
    let s1 := pwalk indent e st
    pElems indent es ⟨s1.out ++ [44, 10], s1.lvl, s1.ignore⟩

/-- Object members in `pretty`: indented quoted key, colon, then the value
with `ignoreLvl` set so it continues on the same line. -/
def pPairs (indent : Nat) : List (List Nat × Elem) → PSt → PSt
  | [], st => st
  | [(k, v)], st =>
    let s1 := pwrite indent st [34]
    let s2 : PSt := ⟨s1.out ++ k ++ [34, 58], s1.lvl, true⟩
    let s3 := pwalk indent v s2
    ⟨s3.out ++ [10], s3.lvl, s3.ignore⟩
  | (k, v) :: ms, st =>
    let s1 := pwrite indent st [34]
    let s2 : PSt := ⟨s1.out ++ k ++ [34, 58], s1.lvl, true⟩
    let s3 := pwalk indent v s2
    pPairs indent ms ⟨s3.out ++ [44, 10], s3.lvl, s3.ignore⟩

end

/-- `pretty` of format.go. -/
def pretty (e : Elem) (indent : Nat) : List Nat :=
  (pwalk indent e ⟨[], 0, false⟩).out

/-! ## The input still to be read, and single-step scanner lemmas -/

/-- The unread suffix of the buffer. -/
def Rdr.rem (p : Rdr) : List Nat := p.s.drop p.off

/-! ## The RFC 8259 grammar over byte lists, indexed by the denoted tree

Whitespace is attached to the structural tokens exactly as in the RFC's
ABNF (`ws = *( %x20 / %x09 / %x0A / %x0D )`).  String bodies are taken at
the byte level: any byte that is not a control byte (0-31), `"` or `\` is
an (RFC `unescaped`) character byte — this includes all bytes ≥ 128, so
every UTF-8 string of the RFC grammar is covered. -/

/-- RFC 8259 insignificant whitespace. -/
def WsL (l : List Nat) : Prop := ∀ b ∈ l, isWsB b = true

/-- The next byte (if any) is not whitespace: delimits a `ws` run. -/
def WsStop (rest : List Nat) : Prop :=
  ∀ b, rest.head? = some b → isWsB b = false

/-- The next byte (if any) cannot extend a number literal (not a digit,
not `.`, `e` or `E`). -/
def NumStop (rest : List Nat) : Prop :=
  ∀ b, rest.head? = some b → isDigitB b = false ∧ b ≠ 46 ∧ b ≠ 101 ∧ b ≠ 69

/-- The next byte (if any) is not a digit. -/
def DigStop (rest : List Nat) : Prop :=
  ∀ b, rest.head? = some b → isDigitB b = false

/-- RFC 8259 string body between the quotes (bytes): unescaped character
bytes, two-character escapes, and `\uXXXX` escapes. -/
inductive Body : List Nat → Prop where
  | nil : Body []
  | chr : ∀ {c t}, 32 ≤ c → c ≠ 34 → c ≠ 92 → Body t → Body (c :: t)
  | esc : ∀ {c t}, (c = 34 ∨ c = 92 ∨ c = 47 ∨ c = 98 ∨ c = 102 ∨
      c = 110 ∨ c = 114 ∨ c = 116) → Body t → Body (92 :: c :: t)
  | uesc : ∀ {h1 h2 h3 h4 t}, isHexB h1 = true → isHexB h2 = true →
      isHexB h3 = true → isHexB h4 = true → Body t →
      Body (92 :: 117 :: h1 :: h2 :: h3 :: h4 :: t)

def DigitsL (l : List Nat) : Prop := ∀ b ∈ l, isDigitB b = true

/-- RFC 8259 `int`: a single `0`, or a nonzero digit followed by digits. -/
def IntPartP (i : List Nat) : Prop :=
  i = [48] ∨ ∃ d ds, i = d :: ds ∧ isNaturalB d = true ∧ DigitsL ds

/-- RFC 8259 `[ frac ]`: empty, or `.` then one or more digits. -/
def FracPartP (f : List Nat) : Prop :=
  f = [] ∨ ∃ ds, f = 46 :: ds ∧ ds ≠ [] ∧ DigitsL ds

/-- RFC 8259 `[ exp ]`: empty, or `e`/`E`, an optional sign, then one or
more digits. -/
def ExpPartP (g : List Nat) : Prop :=
  g = [] ∨ ∃ ec sg ds, (ec = 101 ∨ ec = 69) ∧ (sg = [] ∨ sg = [43] ∨ sg = [45]) ∧
    ds ≠ [] ∧ DigitsL ds ∧ g = ec :: (sg ++ ds)

/-- RFC 8259 `number`: optional minus, int, optional frac, optional exp. -/
def NumTxt (w : List Nat) : Prop :=
  ∃ sgn i f g, (sgn = [] ∨ sgn = [45]) ∧ IntPartP i ∧ FracPartP f ∧
    ExpPartP g ∧ w = sgn ++ i ++ f ++ g

mutual

/-- `JVal e w`: the byte list `w` derives the RFC 8259 `value` grammar and
denotes the element tree `e` that this parser builds for it (raw string
bytes, exact number text, members in source order). -/
inductive JVal : Elem → List Nat → Prop where
  | jnull : JVal .null [110, 117, 108, 108]
  | jtrue : JVal (.boolean true) [116, 114, 117, 101]
  | jfalse : JVal (.boolean false) [102, 97, 108, 115, 101]
  | jnum : ∀ {w}, NumTxt w → JVal (.number w) w
  | jstr : ∀ {b}, Body b → JVal (.string b) (34 :: (b ++ [34]))
  | jarrNil : ∀ {ws}, WsL ws → JVal (.array []) (91 :: (ws ++ [93]))
  | jarr : ∀ {es w ws0 ws1}, WsL ws0 → JEls es w → WsL ws1 →
      JVal (.array es) (91 :: (ws0 ++ w ++ ws1 ++ [93]))
  | jobjNil : ∀ {ws}, WsL ws → JVal (.object []) (123 :: (ws ++ [125]))
  | jobj : ∀ {ms w ws0 ws1}, WsL ws0 → JMems ms w → WsL ws1 →
      JVal (.object ms) (123 :: (ws0 ++ w ++ ws1 ++ [125]))

/-- Comma-separated array element list (with the RFC's `value-separator`
whitespace around each comma). -/
inductive JEls : List Elem → List Nat → Prop where
  | one : ∀ {e w}, JVal e w → JEls [e] w
  | cons : ∀ {e w ws1 ws2 es t}, JVal e w → WsL ws1 → WsL ws2 → JEls es t →
      JEls (e :: es) (w ++ ws1 ++ [44] ++ ws2 ++ t)

/-- Comma-separated object member list: quoted key, `name-separator`,
value, members in source order (duplicate keys unrestricted). -/
inductive JMems : List (List Nat × Elem) → List Nat → Prop where
  | one : ∀ {k ws1 ws2 v w}, Body k → WsL ws1 → WsL ws2 → JVal v w →
      JMems [(k, v)] (34 :: (k ++ [34] ++ ws1 ++ [58] ++ ws2 ++ w))
  | cons : ∀ {k ws1 ws2 v w ws3 ws4 ms t}, Body k → WsL ws1 → WsL ws2 →
      JVal v w → WsL ws3 → WsL ws4 → JMems ms t →
      JMems ((k, v) :: ms)
        (34 :: (k ++ [34] ++ ws1 ++ [58] ++ ws2 ++ w ++ ws3 ++ [44] ++ ws4 ++ t))

end

/-- A byte list is syntactically valid JSON text (RFC 8259
`JSON-text = ws value ws`). -/
def ValidJson (x : List Nat) : Prop :=
  ∃ ws1 w ws2 e, WsL ws1 ∧ WsL ws2 ∧ JVal e w ∧ x = ws1 ++ w ++ ws2

/-! ## Run predicates for the mutual completeness induction -/

/-- `parseValue` accepts the text `w` denoting `e`, from any state and with
any suffix that cannot extend a number literal. -/
def RunV (e : Elem) (w : List Nat) : Prop :=
  ∀ fuel (p : Rdr) rest, p.rem = w ++ rest → NumStop rest → 3 * w.length < fuel →
    ∃ l c, parseValue fuel p = .ok (e, ⟨p.s, l, c, p.off + w.length⟩)

/-- Traversal of the array-element loop over a comma-continued element
list text `t` (the loop has already collected `prev ≠ []`). -/
def RunEb (es : List Elem) (t : List Nat) : Prop :=
  ∀ fuel (p : Rdr) ws2 wsE rest prev, WsL ws2 → WsL wsE → WsStop rest →
    NumStop (wsE ++ rest) → prev ≠ [] →
    p.rem = 44 :: (ws2 ++ (t ++ (wsE ++ rest))) → 3 * t.length + 1 < fuel →
    ∃ l c, parseArrLoop fuel p prev =
      parseArrLoop (fuel - es.length)
        ⟨p.s, l, c, p.off + (1 + ws2.length + (t.length + wsE.length))⟩
        (prev ++ es) ∧
      es.length ≤ t.length ∧ 1 ≤ es.length

/-- Traversal of the array-element loop over an element list text `t`
starting with an empty collection. -/
def RunEa (es : List Elem) (t : List Nat) : Prop :=
  ∀ fuel (p : Rdr) wsE rest, WsL wsE → WsStop rest → NumStop (wsE ++ rest) →
    p.rem = t ++ (wsE ++ rest) → 3 * t.length + 1 < fuel →
    ∃ l c, parseArrLoop fuel p [] =
      parseArrLoop (fuel - es.length)
        ⟨p.s, l, c, p.off + (t.length + wsE.length)⟩ es ∧
      es.length ≤ t.length ∧ 1 ≤ es.length

/-- Traversal of the object-member loop over a comma-continued member
list text `t` (the loop has already collected `prev ≠ []`). -/
def RunMb (ms : List (List Nat × Elem)) (t : List Nat) : Prop :=
  ∀ fuel (p : Rdr) ws2 wsE rest prev, WsL ws2 → WsL wsE → WsStop rest →
    NumStop (wsE ++ rest) → prev ≠ [] →
    p.rem = 44 :: (ws2 ++ (t ++ (wsE ++ rest))) → 3 * t.length + 1 < fuel →
    ∃ l c, parseObjLoop fuel p prev =
      parseObjLoop (fuel - ms.length)
        ⟨p.s, l, c, p.off + (1 + ws2.length + (t.length + wsE.length))⟩
        (prev ++ ms) ∧
      ms.length ≤ t.length ∧ 1 ≤ ms.length

/-- Traversal of the object-member loop over a member list text `t`
starting with an empty collection. -/
def RunMa (ms : List (List Nat × Elem)) (t : List Nat) : Prop :=
  ∀ fuel (p : Rdr) wsE rest, WsL wsE → WsStop rest → NumStop (wsE ++ rest) →
    p.rem = t ++ (wsE ++ rest) → 3 * t.length + 1 < fuel →
    ∃ l c, parseObjLoop fuel p [] =
      parseObjLoop (fuel - ms.length)
        ⟨p.s, l, c, p.off + (t.length + wsE.length)⟩ ms ∧
      ms.length ≤ t.length ∧ 1 ≤ ms.length

/-- Combined characterization of `decodeRune` on a non-empty list: the
width is positive, a high first byte decodes to a scalar ≥ 128, and every
byte covered beyond the first is a UTF-8 continuation byte. -/
theorem decodeRune_spec (b0 : Nat) (rest : List Nat) :
    1 ≤ (decodeRune (b0 :: rest)).2 ∧
    (128 ≤ b0 → 128 ≤ (decodeRune (b0 :: rest)).1) ∧
    (∀ i, 1 ≤ i → i < (decodeRune (b0 :: rest)).2 →
      128 ≤ (b0 :: rest).getD i 0 ∧ (b0 :: rest).getD i 0 ≤ 191) := by
  by_cases hA : b0 < 128
  · simp only [decodeRune]
    rw [if_pos hA]
    exact ⟨by omega, by omega, by intro i h1 h2; simp at h2; omega⟩
  · by_cases hB : 194 ≤ b0 ∧ b0 ≤ 223
    · match rest with
      | [] =>
        simp only [decodeRune]
        rw [if_neg hA, if_pos hB]
        exact ⟨by omega, by intro; omega, by intro i h1 h2; simp at h2; omega⟩
      | b1 :: rtl =>
        by_cases hC : 128 ≤ b1 ∧ b1 ≤ 191
        · simp only [decodeRune]
          rw [if_neg hA, if_pos hB, if_pos hC]
          refine ⟨by omega, by intro; simp only; omega, ?_⟩
          intro i h1 h2
          simp only at h2
          have : i = 1 := by omega
          subst this
          simpa using hC
        · simp only [decodeRune]
          rw [if_neg hA, if_pos hB, if_neg hC]
          exact ⟨by omega, by intro; omega, by intro i h1 h2; simp at h2; omega⟩
    · by_cases hD : 224 ≤ b0 ∧ b0 ≤ 239
      · match rest with
        | [] =>
          simp only [decodeRune]
          rw [if_neg hA, if_neg hB, if_pos hD]
          exact ⟨by omega, by intro; omega, by intro i h1 h2; simp at h2; omega⟩
        | [b1] =>
          simp only [decodeRune]
          rw [if_neg hA, if_neg hB, if_pos hD]
          exact ⟨by omega, by intro; omega, by intro i h1 h2; simp at h2; omega⟩
        | b1 :: b2 :: rtl =>
          by_cases hC : (if b0 = 224 then 160 ≤ b1 ∧ b1 ≤ 191
              else if b0 = 237 then 128 ≤ b1 ∧ b1 ≤ 159
              else 128 ≤ b1 ∧ b1 ≤ 191) ∧ (128 ≤ b2 ∧ b2 ≤ 191)
          · simp only [decodeRune]
            rw [if_neg hA, if_neg hB, if_pos hD, if_pos hC]
            obtain ⟨hC1, hC2⟩ := hC
            have hb1 : 128 ≤ b1 ∧ b1 ≤ 191 := by split_ifs at hC1 <;> omega
            refine ⟨by omega, ?_, ?_⟩
            · intro
              simp only
              split_ifs at hC1 <;> omega
            · intro i h1 h2
              simp only at h2
              have : i = 1 ∨ i = 2 := by omega
              rcases this with rfl | rfl
              · simpa using hb1
              · simpa using hC2
          · simp only [decodeRune]
            rw [if_neg hA, if_neg hB, if_pos hD, if_neg hC]
            exact ⟨by omega, by intro; omega, by intro i h1 h2; simp at h2; omega⟩
      · by_cases hE : 240 ≤ b0 ∧ b0 ≤ 244
        · match rest with
          | [] =>
            simp only [decodeRune]
            rw [if_neg hA, if_neg hB, if_neg hD, if_pos hE]
            exact ⟨by omega, by intro; omega, by intro i h1 h2; simp at h2; omega⟩
          | [b1] =>
            simp only [decodeRune]
            rw [if_neg hA, if_neg hB, if_neg hD, if_pos hE]
            exact ⟨by omega, by intro; omega, by intro i h1 h2; simp at h2; omega⟩
          | [b1, b2] =>
            simp only [decodeRune]
            rw [if_neg hA, if_neg hB, if_neg hD, if_pos hE]
            exact ⟨by omega, by intro; omega, by intro i h1 h2; simp at h2; omega⟩
          | b1 :: b2 :: b3 :: rtl =>
            by_cases hC : (if b0 = 240 then 144 ≤ b1 ∧ b1 ≤ 191
                else if b0 = 244 then 128 ≤ b1 ∧ b1 ≤ 143
                else 128 ≤ b1 ∧ b1 ≤ 191) ∧ (128 ≤ b2 ∧ b2 ≤ 191) ∧ (128 ≤ b3 ∧ b3 ≤ 191)
            · simp only [decodeRune]
              rw [if_neg hA, if_neg hB, if_neg hD, if_pos hE, if_pos hC]
              obtain ⟨hC1, hC2, hC3⟩ := hC
              have hb1 : 128 ≤ b1 ∧ b1 ≤ 191 := by split_ifs at hC1 <;> omega
              refine ⟨by omega, ?_, ?_⟩
              · intro
                simp only
                split_ifs at hC1 <;> omega
              · intro i h1 h2
                simp only at h2
                have : i = 1 ∨ i = 2 ∨ i = 3 := by omega
                rcases this with rfl | rfl | rfl
                · simpa using hb1
                · simpa using hC2
                · simpa using hC3
            · simp only [decodeRune]
              rw [if_neg hA, if_neg hB, if_neg hD, if_pos hE, if_neg hC]
              exact ⟨by omega, by intro; omega, by intro i h1 h2; simp at h2; omega⟩
        · simp only [decodeRune]
          rw [if_neg hA, if_neg hB, if_neg hD, if_neg hE]
          exact ⟨by omega, by intro; omega, by intro i h1 h2; simp at h2; omega⟩

theorem decodeRune_pos (l : List Nat) (h : l ≠ []) : 1 ≤ (decodeRune l).2 := by
  match l with
  | [] => exact absurd rfl h
  | b0 :: rest => exact (decodeRune_spec b0 rest).1

theorem peek_sz_pos (r : Rdr) (h : r.isEOF = false) : 1 ≤ r.peek.2 := by
  unfold Rdr.peek
  simp only [h, Bool.false_eq_true, if_false]
  split
  · simp
  · split
    · simp
    · apply decodeRune_pos
      intro hnil
      have : r.s.length ≤ r.off := by
        have := List.drop_eq_nil_iff.mp hnil
        omega
      simp [Rdr.isEOF, this] at h

theorem read_advances (r : Rdr) (h : r.isEOF = false) :
    ((r.read).2).s = r.s ∧ r.off < ((r.read).2).off := by
  have hsz := peek_sz_pos r h
  unfold Rdr.read
  simp only [h, Bool.false_eq_true, if_false]
  split <;> simp <;> omega

theorem read_off_lt (r : Rdr) (h : r.isEOF = false) :
    ((r.read).2).s.length - ((r.read).2).off < r.s.length - r.off := by
  obtain ⟨hs, ho⟩ := read_advances r h
  have : r.off < r.s.length := by
    by_contra hc
    simp [Rdr.isEOF] at h
    omega
  rw [hs]
  omega

theorem readHexN_mono (n : Nat) (p : Rdr) (u : Nat) (p2 : Rdr)
    (h : readHexN n p u = .ok p2) : p2.s = p.s ∧ p.off ≤ p2.off := by
  induction n generalizing p with
  | zero =>
    simp only [readHexN] at h
    cases h
    exact ⟨rfl, Nat.le_refl _⟩
  | succ n ih =>
    simp only [readHexN] at h
    split at h
    · rcases hE : p.isEOF with _ | _
      · obtain ⟨hs, ho⟩ := read_advances p hE
        obtain ⟨hs2, ho2⟩ := ih _ h
        exact ⟨by rw [hs2, hs], by omega⟩
      · have : (p.read).2 = p := by
          unfold Rdr.read
          simp [hE]
        rw [this] at h
        obtain ⟨hs2, ho2⟩ := ih _ h
        exact ⟨hs2, ho2⟩
    · cases h

theorem rem_mk (s : List Nat) (l c o : Nat) : (Rdr.mk s l c o).rem = s.drop o := rfl

theorem isEOF_of_rem_nil {p : Rdr} (h : p.rem = []) : p.isEOF = true := by
  have := List.drop_eq_nil_iff.mp h
  simp [Rdr.isEOF]
  omega

theorem not_eof_of_rem_cons {p : Rdr} {b : Nat} {t : List Nat}
    (h : p.rem = b :: t) : p.isEOF = false := by
  by_contra hc
  have hc' : p.isEOF = true := by revert hc; cases p.isEOF <;> simp
  have : p.s.length ≤ p.off := by simpa [Rdr.isEOF] using hc'
  have : p.rem = [] := by simp [Rdr.rem, List.drop_eq_nil_iff]; omega
  rw [h] at this
  cases this

theorem off_lt_of_rem_cons {p : Rdr} {b : Nat} {t : List Nat}
    (h : p.rem = b :: t) : p.off < p.s.length := by
  have := not_eof_of_rem_cons h
  simp [Rdr.isEOF] at this
  omega

theorem rem_length (p : Rdr) : p.rem.length = p.s.length - p.off := by
  simp [Rdr.rem]

theorem getD_of_rem {p : Rdr} {b : Nat} {t : List Nat}
    (h : p.rem = b :: t) : p.s.getD p.off 0 = b := by
  have h0 : (p.s.drop p.off).getD 0 0 = b := by
    have hd : p.s.drop p.off = b :: t := h
    rw [hd]
    rfl
  rw [← h0]
  simp [List.getD_eq_getElem?_getD, List.getElem?_drop]

theorem rem_advance {p : Rdr} {w rest : List Nat} (h : p.rem = w ++ rest)
    (l c : Nat) : (Rdr.mk p.s l c (p.off + w.length)).rem = rest := by
  have : (Rdr.mk p.s l c (p.off + w.length)).rem = (p.s.drop p.off).drop w.length := by
    simp [Rdr.rem]
  rw [this]
  have : p.s.drop p.off = w ++ rest := h
  rw [this, List.drop_left]

/-- ASCII (< 128) head byte: `peek` returns it with width 1. -/
theorem peek_lo {p : Rdr} {b : Nat} {t : List Nat}
    (h : p.rem = b :: t) (hb : b < 128) : p.peek = (b, 1) := by
  have hE := not_eof_of_rem_cons h
  have hg := getD_of_rem h
  unfold Rdr.peek
  simp only [hE, Bool.false_eq_true, if_false, hg]
  simp [hb]

theorem decodeRune_fst_ge {b0 : Nat} {rest : List Nat} (hb : 128 ≤ b0) :
    128 ≤ (decodeRune (b0 :: rest)).1 :=
  (decodeRune_spec b0 rest).2.1 hb

theorem decodeRune_cont {l : List Nat} :
    ∀ i, 1 ≤ i → i < (decodeRune l).2 → 128 ≤ l.getD i 0 ∧ l.getD i 0 ≤ 191 := by
  intro i h1 h2
  match l with
  | [] => simp [decodeRune] at h2
  | b0 :: rest => exact (decodeRune_spec b0 rest).2.2 i h1 h2

/-- Head byte ≥ 128: `peek` yields a scalar ≥ 128, positive width, and
every further byte it covers is a UTF-8 continuation byte. -/
theorem peek_hi {p : Rdr} {b : Nat} {t : List Nat}
    (h : p.rem = b :: t) (hb : 128 ≤ b) :
    128 ≤ (p.peek).1 ∧ 1 ≤ (p.peek).2 ∧
      (∀ i, 1 ≤ i → i < (p.peek).2 → 128 ≤ p.rem.getD i 0 ∧ p.rem.getD i 0 ≤ 191) := by
  have hE := not_eof_of_rem_cons h
  have hg := getD_of_rem h
  have hdrop : p.s.drop p.off = b :: t := h
  unfold Rdr.peek
  simp only [hE, Bool.false_eq_true, if_false, hg, hdrop]
  have : ¬ b < 128 := by omega
  simp only [this, if_false]
  split
  · refine ⟨by omega, by omega, ?_⟩
    intro i hi1 hi2
    simp only at hi2
    omega
  · refine ⟨decodeRune_fst_ge hb, decodeRune_pos _ (by simp), ?_⟩
    intro i hi1 hi2
    have := decodeRune_cont (l := b :: t) i hi1 hi2
    simpa [Rdr.rem, hdrop] using this

/-- A non-EOF `read` returns the peeked scalar and advances the offset by
the peeked width (line and column update depending on the scalar). -/
theorem read_step {p : Rdr} (h : p.isEOF = false) :
    (p.read).1 = (p.peek).1 ∧
      ∃ l c, (p.read).2 = ⟨p.s, l, c, p.off + (p.peek).2⟩ := by
  unfold Rdr.read
  simp only [h, Bool.false_eq_true, if_false]
  split
  · exact ⟨rfl, _, _, rfl⟩
  · exact ⟨rfl, _, _, rfl⟩

theorem read_eof {p : Rdr} (h : p.isEOF = true) : p.read = (0, p) := by
  have hpk : p.peek = (0, 0) := by unfold Rdr.peek; simp [h]
  unfold Rdr.read
  simp [h, hpk]

/-- ASCII step: reading a head byte < 128 consumes exactly that byte. -/
theorem read_lo {p : Rdr} {b : Nat} {t : List Nat}
    (h : p.rem = b :: t) (hb : b < 128) :
    (p.read).1 = b ∧ ∃ l c, (p.read).2 = ⟨p.s, l, c, p.off + 1⟩ := by
  have hE := not_eof_of_rem_cons h
  have hpk := peek_lo h hb
  obtain ⟨h1, l, c, h2⟩ := read_step hE
  rw [hpk] at h1 h2
  exact ⟨h1, l, c, h2⟩

/-! ## Byte-class facts and runs of the scanner-level loops -/

theorem isWsB_lt {v : Nat} (h : isWsB v = true) : v < 128 := by
  simp [isWsB] at h
  omega

theorem isDigitB_lt {v : Nat} (h : isDigitB v = true) : v < 128 := by
  simp [isDigitB] at h
  omega

theorem isHexB_lt {v : Nat} (h : isHexB v = true) : v < 128 := by
  simp [isHexB, isDigitB] at h
  omega

/-- A byte class contained in ASCII is decided by looking at the head
byte, even through UTF-8 decoding of `peek`. -/
theorem peek_class_false {p : Rdr} {c : Nat} {t : List Nat} {f : Nat → Bool}
    (hf : ∀ v, f v = true → v < 128) (h : p.rem = c :: t) (hc : f c = false) :
    f (p.peek).1 = false := by
  by_cases hlt : c < 128
  · rw [peek_lo h hlt]
    exact hc
  · have := (peek_hi h (by omega)).1
    cases hpk : f (p.peek).1
    · rfl
    · have := hf _ hpk
      omega

theorem eatWsF_run : ∀ (n : Nat) {ws rest : List Nat} {p : Rdr}, WsL ws →
    WsStop rest → p.rem = ws ++ rest → ws.length < n →
    ∃ l c, eatWsF n p = ⟨p.s, l, c, p.off + ws.length⟩ := by
  intro n
  induction n with
  | zero => intro ws rest p _ _ _ hlen; omega
  | succ n ih =>
    intro ws rest p hws hstop hrem hlen
    match ws with
    | [] =>
      have hrem' : p.rem = rest := by simpa using hrem
      have hcond : ¬ (p.isEOF = false ∧ isWsB (p.peek).1 = true) := by
        match rest with
        | [] =>
          have := isEOF_of_rem_nil hrem'
          simp [this]
        | c :: t =>
          have hc : isWsB c = false := hstop c rfl
          have := peek_class_false (fun v => isWsB_lt) hrem' hc
          simp [this]
      refine ⟨p.line, p.col, ?_⟩
      simp only [eatWsF, if_neg hcond]
      cases p
      simp
    | wb :: ws' =>
      have hwb : isWsB wb = true := hws wb (by simp)
      have hlt : wb < 128 := isWsB_lt hwb
      have hrem2 : p.rem = wb :: (ws' ++ rest) := by simpa using hrem
      have hE := not_eof_of_rem_cons hrem2
      have hpk := peek_lo hrem2 hlt
      have hcond : p.isEOF = false ∧ isWsB (p.peek).1 = true := by
        rw [hpk]
        exact ⟨hE, hwb⟩
      obtain ⟨_, l1, c1, hread⟩ := read_lo hrem2 hlt
      have hrem3 : ((p.read).2).rem = ws' ++ rest := by
        rw [hread]
        exact rem_advance (w := [wb]) (by simpa using hrem2) l1 c1
      obtain ⟨l2, c2, hrec⟩ := ih (p := (p.read).2) (fun b hb => hws b (by simp [hb])) hstop hrem3 (by
        simp at hlen ⊢
        omega)
      refine ⟨l2, c2, ?_⟩
      simp only [eatWsF, if_pos hcond]
      rw [hrec, hread]
      have : p.off + 1 + ws'.length = p.off + (wb :: ws').length := by
        simp
        omega
      simp only
      rw [this]

theorem eatWs_run {ws rest : List Nat} {p : Rdr} (hws : WsL ws)
    (hstop : WsStop rest) (hrem : p.rem = ws ++ rest) :
    ∃ l c, eatWs p = ⟨p.s, l, c, p.off + ws.length⟩ := by
  apply eatWsF_run _ hws hstop hrem
  have := rem_length p
  rw [hrem] at this
  simp at this
  omega

theorem digitLoopF_run : ∀ (n : Nat) {ds rest : List Nat} {p : Rdr}
    {acc : List Nat}, DigitsL ds → DigStop rest → p.rem = ds ++ rest →
    ds.length < n →
    ∃ l c, digitLoopF n p acc = (acc ++ ds, ⟨p.s, l, c, p.off + ds.length⟩) := by
  intro n
  induction n with
  | zero => intro ds rest p acc _ _ _ hlen; omega
  | succ n ih =>
    intro ds rest p acc hds hstop hrem hlen
    match ds with
    | [] =>
      have hrem' : p.rem = rest := by simpa using hrem
      have hcond : ¬ (p.isEOF = false ∧ isDigitB (p.peek).1 = true) := by
        match rest with
        | [] =>
          have := isEOF_of_rem_nil hrem'
          simp [this]
        | c :: t =>
          have hc : isDigitB c = false := hstop c rfl
          have := peek_class_false (fun v => isDigitB_lt) hrem' hc
          simp [this]
      refine ⟨p.line, p.col, ?_⟩
      simp only [digitLoopF, if_neg hcond]
      cases p
      simp
    | db :: ds' =>
      have hdb : isDigitB db = true := hds db (by simp)
      have hlt : db < 128 := isDigitB_lt hdb
      have hrem2 : p.rem = db :: (ds' ++ rest) := by simpa using hrem
      have hE := not_eof_of_rem_cons hrem2
      have hpk := peek_lo hrem2 hlt
      have hcond : p.isEOF = false ∧ isDigitB (p.peek).1 = true := by
        rw [hpk]
        exact ⟨hE, hdb⟩
      obtain ⟨hv, l1, c1, hread⟩ := read_lo hrem2 hlt
      have hrem3 : ((p.read).2).rem = ds' ++ rest := by
        rw [hread]
        exact rem_advance (w := [db]) (by simpa using hrem2) l1 c1
      obtain ⟨l2, c2, hrec⟩ := @ih ds' rest ((p.read).2) (acc ++ [(p.read).1])
        (fun b hb => hds b (by simp [hb])) hstop hrem3 (by simp at hlen ⊢; omega)
      refine ⟨l2, c2, ?_⟩
      simp only [digitLoopF, if_pos hcond]
      rw [hrec, hread, hv]
      have h1 : p.off + 1 + ds'.length = p.off + (db :: ds').length := by
        simp
        omega
      have h2 : acc ++ [db] ++ ds' = acc ++ db :: ds' := by simp
      simp only
      rw [h1, h2]

theorem digitLoop_run {ds rest : List Nat} {p : Rdr} {acc : List Nat}
    (hds : DigitsL ds) (hstop : DigStop rest) (hrem : p.rem = ds ++ rest) :
    ∃ l c, digitLoop p acc = (acc ++ ds, ⟨p.s, l, c, p.off + ds.length⟩) := by
  apply digitLoopF_run _ hds hstop hrem
  have := rem_length p
  rw [hrem] at this
  simp at this
  omega

theorem sub_rem {p : Rdr} {w rest : List Nat} (h : p.rem = w ++ rest) :
    sub p.s p.off (p.off + w.length) = w := by
  unfold sub
  have hd : p.s.drop p.off = w ++ rest := h
  rw [hd]
  have he : p.off + w.length - p.off = w.length := by omega
  rw [he]
  exact List.take_left w rest

theorem sub_append {s : List Nat} {a b c : Nat} (h1 : a ≤ b) (h2 : b ≤ c) :
    sub s a b ++ sub s b c = sub s a c := by
  unfold sub
  have hb : s.drop b = (s.drop a).drop (b - a) := by
    rw [List.drop_drop]
    congr 1
    omega
  rw [hb]
  have hc : c - a = (b - a) + (c - b) := by omega
  rw [hc, List.take_add]

theorem matchLit_run : ∀ (lit : List Nat) {p : Rdr} {rest : List Nat},
    (∀ b ∈ lit, b < 128) → p.rem = lit ++ rest →
    ∃ l c, matchLit p lit = (true, 0, 0, ⟨p.s, l, c, p.off + lit.length⟩) := by
  intro lit
  induction lit with
  | nil =>
    intro p rest _ _
    refine ⟨p.line, p.col, ?_⟩
    simp only [matchLit]
    cases p
    simp
  | cons cb cs ih =>
    intro p rest hlo hrem
    have hlt : cb < 128 := hlo cb (by simp)
    have hrem2 : p.rem = cb :: (cs ++ rest) := by simpa using hrem
    obtain ⟨hv, l1, c1, hread⟩ := read_lo hrem2 hlt
    have hrem3 : ((p.read).2).rem = cs ++ rest := by
      rw [hread]
      exact rem_advance (w := [cb]) (by simpa using hrem2) l1 c1
    obtain ⟨l2, c2, hrec⟩ := ih (fun b hb => hlo b (by simp [hb])) hrem3
    refine ⟨l2, c2, ?_⟩
    simp only [matchLit, hv, if_pos rfl]
    rw [hrec, hread]
    have : p.off + 1 + cs.length = p.off + (cb :: cs).length := by simp; omega
    simp only
    rw [this]
    simp

theorem getD_append_lt {l1 l2 : List Nat} {i d : Nat} (h : i < l1.length) :
    (l1 ++ l2).getD i d = l1.getD i d := by
  simp [List.getD_eq_getElem?_getD, List.getElem?_append, h]

theorem getD_append_len {l1 l2 : List Nat} {d : Nat} :
    (l1 ++ l2).getD l1.length d = l2.getD 0 d := by
  simp [List.getD_eq_getElem?_getD, List.getElem?_append_right (Nat.le_refl _)]

theorem drop_cons_getD {l : List Nat} {j : Nat} (h : j < l.length) :
    l.drop j = l.getD j 0 :: l.drop (j + 1) := by
  rw [List.drop_eq_getElem_cons h]
  congr 1
  simp [List.getD_eq_getElem?_getD, List.getElem?_eq_getElem h]

theorem readHexN_run : ∀ (hx : List Nat) {p : Rdr} {rest : List Nat} {u : Nat},
    (∀ b ∈ hx, isHexB b = true) → p.rem = hx ++ rest →
    ∃ l c, readHexN hx.length p u = .ok ⟨p.s, l, c, p.off + hx.length⟩ := by
  intro hx
  induction hx with
  | nil =>
    intro p rest u _ _
    refine ⟨p.line, p.col, ?_⟩
    simp only [List.length_nil, readHexN]
    cases p
    simp
  | cons hb hs ih =>
    intro p rest u hhex hrem
    have hxb : isHexB hb = true := hhex hb (by simp)
    have hlt : hb < 128 := isHexB_lt hxb
    have hrem2 : p.rem = hb :: (hs ++ rest) := by simpa using hrem
    obtain ⟨hv, l1, c1, hread⟩ := read_lo hrem2 hlt
    have hrem3 : ((p.read).2).rem = hs ++ rest := by
      rw [hread]
      exact rem_advance (w := [hb]) (by simpa using hrem2) l1 c1
    obtain ⟨l2, c2, hrec⟩ := ih (fun b h2 => hhex b (by simp [h2])) hrem3
    refine ⟨l2, c2, ?_⟩
    simp only [List.length_cons, readHexN, hv, hxb, if_pos]
    rw [hrec, hread]
    have : p.off + 1 + hs.length = p.off + (hb :: hs).length := by simp; omega
    simp only
    rw [this]
    simp

/-! ## Completeness of the raw-string scanner on grammar string bodies -/

theorem rawStrLoopF_close {n : Nat} {p : Rdr} (hE : p.isEOF = false)
    (h34 : (p.read).1 = 34) :
    rawStrLoopF (n + 1) p false = .ok (p.read).2 := by
  simp only [rawStrLoopF, hE, Bool.false_eq_true, if_false, h34]
  simp

theorem rawStrLoopF_plain {n : Nat} {p : Rdr} (hE : p.isEOF = false)
    (h34 : (p.read).1 ≠ 34) (h31 : ¬ (p.read).1 ≤ 31) :
    rawStrLoopF (n + 1) p false =
      rawStrLoopF n (p.read).2 (decide ((p.read).1 = 92)) := by
  simp only [rawStrLoopF, hE, Bool.false_eq_true, if_false, h34, h31]
  simp

theorem rawStrLoopF_esc {n : Nat} {p : Rdr} (hE : p.isEOF = false)
    (hin : (p.read).1 = 34 ∨ (p.read).1 = 92 ∨ (p.read).1 = 47 ∨
      (p.read).1 = 98 ∨ (p.read).1 = 102 ∨ (p.read).1 = 110 ∨
      (p.read).1 = 114 ∨ (p.read).1 = 116) :
    rawStrLoopF (n + 1) p true = rawStrLoopF n (p.read).2 false := by
  simp only [rawStrLoopF, hE, Bool.false_eq_true, if_false]
  have hne : ¬ (true = false ∧ (p.read).1 = 34) := by simp
  have hne2 : ¬ (true = false ∧ (p.read).1 ≤ 31) := by simp
  rw [if_neg hne, if_neg hne2, if_pos trivial, if_pos hin]

theorem rawStrLoopF_u {n : Nat} {p : Rdr} {p2 : Rdr} (hE : p.isEOF = false)
    (hu : (p.read).1 = 117)
    (hhex : readHexN 4 (p.read).2 ((p.read).1) = .ok p2) :
    rawStrLoopF (n + 1) p true = rawStrLoopF n p2 false := by
  simp only [rawStrLoopF, hE, Bool.false_eq_true, if_false]
  have hne : ¬ (true = false ∧ (p.read).1 = 34) := by simp
  have hne2 : ¬ (true = false ∧ (p.read).1 ≤ 31) := by simp
  have hnin : ¬ ((p.read).1 = 34 ∨ (p.read).1 = 92 ∨ (p.read).1 = 47 ∨
      (p.read).1 = 98 ∨ (p.read).1 = 102 ∨ (p.read).1 = 110 ∨
      (p.read).1 = 114 ∨ (p.read).1 = 116) := by omega
  rw [if_neg hne, if_neg hne2, if_pos trivial, if_neg hnin, if_pos hu]
  rw [hhex]

theorem Body_tail {x : Nat} {t : List Nat} (h : Body (x :: t)) (hx : x ≠ 92) :
    Body t := by
  cases h with
  | chr _ _ _ hbt => exact hbt
  | esc hc hbt => exact absurd rfl hx
  | uesc h1 h2 h3 h4 hbt => exact absurd rfl hx

theorem Body_head_ne {b : List Nat} (h : Body b) :
    ∀ x t, b = x :: t → x ≠ 34 := by
  intro x t hb
  cases h with
  | nil => cases hb
  | chr hge h34 h92 hbt =>
    cases hb
    exact h34
  | esc hc hbt =>
    cases hb
    omega
  | uesc h1 h2 h3 h4 hbt =>
    cases hb
    omega

/-- Scanning a grammar-valid body terminated by an unescaped quote: the
loop consumes exactly the body and the quote and succeeds. -/
theorem rawStrLoopF_run : ∀ (n : Nat) {b rest : List Nat} {p : Rdr}, Body b →
    b.length < n → p.rem = b ++ 34 :: rest →
    ∃ l c, rawStrLoopF n p false = .ok ⟨p.s, l, c, p.off + (b.length + 1)⟩ := by
  intro n
  induction n using Nat.strong_induction_on with
  | _ n ih =>
    intro b rest p hb hlen hrem
    match n, hlen with
    | n + 1, hlen =>
      cases hb with
      | nil =>
        have hrem2 : p.rem = 34 :: rest := by simpa using hrem
        obtain ⟨hv, l, c, hread⟩ := read_lo hrem2 (by omega)
        refine ⟨l, c, ?_⟩
        rw [rawStrLoopF_close (not_eof_of_rem_cons hrem2) hv, hread]
        simp
      | @chr cb tb hge h34 h92 hbt =>
        by_cases hlt : cb < 128
        · have hrem2 : p.rem = cb :: (tb ++ 34 :: rest) := by simpa using hrem
          have hE := not_eof_of_rem_cons hrem2
          obtain ⟨hv, l1, c1, hread⟩ := read_lo hrem2 hlt
          have hrem3 : ((p.read).2).rem = tb ++ 34 :: rest := by
            rw [hread]
            exact rem_advance (w := [cb]) (by simpa using hrem2) l1 c1
          obtain ⟨l2, c2, hrec⟩ := ih n (by omega) hbt (by simp at hlen ⊢; omega) hrem3
          refine ⟨l2, c2, ?_⟩
          rw [rawStrLoopF_plain hE (by omega) (by omega), hv]
          have hd92 : decide (cb = 92) = false := by simp [h92]
          rw [hd92, hrec, hread]
          simp only
          have : p.off + 1 + (tb.length + 1) = p.off + ((cb :: tb).length + 1) := by
            simp
            omega
          rw [this]
        · -- multi-byte character: one read covers several body bytes
          have hge128 : 128 ≤ cb := by omega
          have hrem2 : p.rem = cb :: (tb ++ 34 :: rest) := by simpa using hrem
          have hE := not_eof_of_rem_cons hrem2
          obtain ⟨hv1, hsz1, hcont⟩ := peek_hi hrem2 hge128
          set sz := (p.peek).2 with hszdef
          set bfull := cb :: tb with hbfull
          have hblen : 1 ≤ bfull.length := by simp [hbfull]
          have hbody : Body bfull := Body.chr hge h34 h92 hbt
          have hremfull : p.rem = bfull ++ 34 :: rest := by simpa using hrem
          -- the width cannot reach past the body: the terminating quote is
          -- not a continuation byte
          have hszle : sz ≤ bfull.length := by
            by_contra hc
            have hi : 1 ≤ bfull.length ∧ bfull.length < sz := by omega
            have := (hcont bfull.length hi.1 hi.2).1
            rw [hremfull, getD_append_len] at this
            simp at this
          -- all skipped bytes are continuation bytes, hence body bytes ≠ 92
          have hdrop : ∀ j, j ≤ sz → Body (bfull.drop j) := by
            intro j
            induction j with
            | zero => intro _; simpa using hbody
            | succ j ihj =>
              intro hj
              have hjlt : j < bfull.length := by omega
              have hbj := ihj (by omega)
              rw [drop_cons_getD hjlt] at hbj
              refine Body_tail hbj ?_
              match j with
              | 0 =>
                have : bfull.getD 0 0 = cb := by simp [hbfull]
                rw [this]
                omega
              | j + 1 =>
                have := (hcont (j + 1) (by omega) (by omega)).1
                rw [hremfull, getD_append_lt hjlt] at this
                omega
          obtain ⟨hvv, l1, c1, hread⟩ := read_step hE
          have hrem3 : ((p.read).2).rem = bfull.drop sz ++ 34 :: rest := by
            rw [hread]
            have h1 : (Rdr.mk p.s l1 c1 (p.off + sz)).rem = p.rem.drop sz := by
              simp [Rdr.rem, List.drop_drop]
            rw [h1, hremfull, List.drop_append_of_le_length hszle]
          have hlt2 : (bfull.drop sz).length < n := by
            simp at hlen ⊢
            omega
          obtain ⟨l2, c2, hrec⟩ := ih n (by omega) (hdrop sz (Nat.le_refl _)) hlt2 hrem3
          refine ⟨l2, c2, ?_⟩
          have hv34 : (p.read).1 ≠ 34 := by rw [hvv]; omega
          have hv31 : ¬ (p.read).1 ≤ 31 := by rw [hvv]; omega
          rw [rawStrLoopF_plain hE hv34 hv31, hvv]
          have h92d : decide ((p.peek).1 = 92) = false := by
            simp only [decide_eq_false_iff_not]
            omega
          rw [h92d, hrec, hread]
          simp only
          have : p.off + sz + ((bfull.drop sz).length + 1) =
              p.off + (bfull.length + 1) := by
            simp
            omega
          rw [this]
      | @esc cb tb hc hbt =>
        -- b = 92 :: cb :: tb ; two reads then recurse
        have hrem2 : p.rem = 92 :: (cb :: (tb ++ 34 :: rest)) := by simpa using hrem
        have hE := not_eof_of_rem_cons hrem2
        obtain ⟨hv, l1, c1, hread⟩ := read_lo hrem2 (by omega)
        have hrem3 : ((p.read).2).rem = cb :: (tb ++ 34 :: rest) := by
          rw [hread]
          exact rem_advance (w := [92]) (by simpa using hrem2) l1 c1
        have hn1 : 1 ≤ n := by simp at hlen; omega
        match n, hlen, hn1 with
        | n + 1, hlen, _ =>
          have hE2 := not_eof_of_rem_cons hrem3
          have hclt : cb < 128 := by omega
          obtain ⟨hv2, l2, c2, hread2⟩ := read_lo hrem3 hclt
          have hrem4 : (((p.read).2).read).2.rem = tb ++ 34 :: rest := by
            rw [hread2]
            exact rem_advance (p := (p.read).2) (w := [cb]) (by simpa using hrem3) l2 c2
          obtain ⟨l3, c3, hrec⟩ := ih n (by omega) hbt (by simp at hlen ⊢; omega) hrem4
          refine ⟨l3, c3, ?_⟩
          rw [rawStrLoopF_plain hE (by omega) (by omega), hv]
          have : decide ((92 : Nat) = 92) = true := by simp
          rw [this]
          have hin : ((p.read).2.read).1 = 34 ∨ ((p.read).2.read).1 = 92 ∨
              ((p.read).2.read).1 = 47 ∨ ((p.read).2.read).1 = 98 ∨
              ((p.read).2.read).1 = 102 ∨ ((p.read).2.read).1 = 110 ∨
              ((p.read).2.read).1 = 114 ∨ ((p.read).2.read).1 = 116 := by
            rw [hv2]
            omega
          rw [rawStrLoopF_esc hE2 hin, hrec, hread2, hread]
          simp only
          have : p.off + 1 + 1 + (tb.length + 1) =
              p.off + ((92 :: cb :: tb).length + 1) := by
            simp
            omega
          rw [this]
      | @uesc h1 h2 h3 h4 tb hx1 hx2 hx3 hx4 hbt =>
        have hrem2 : p.rem = 92 :: (117 :: h1 :: h2 :: h3 :: h4 :: (tb ++ 34 :: rest)) := by
          simpa using hrem
        have hE := not_eof_of_rem_cons hrem2
        obtain ⟨hv, l1, c1, hread⟩ := read_lo hrem2 (by omega)
        have hrem3 : ((p.read).2).rem = 117 :: (h1 :: h2 :: h3 :: h4 :: (tb ++ 34 :: rest)) := by
          rw [hread]
          exact rem_advance (w := [92]) (by simpa using hrem2) l1 c1
        have hn1 : 1 ≤ n := by simp at hlen; omega
        match n, hlen, hn1 with
        | n + 1, hlen, _ =>
          have hE2 := not_eof_of_rem_cons hrem3
          obtain ⟨hv2, l2, c2, hread2⟩ := read_lo hrem3 (by omega)
          have hrem4 : (((p.read).2).read).2.rem = [h1, h2, h3, h4] ++ (tb ++ 34 :: rest) := by
            rw [hread2]
            exact rem_advance (p := (p.read).2) (w := [117]) (by simpa using hrem3) l2 c2
          obtain ⟨l3, c3, hhex⟩ := readHexN_run (u := (((p.read).2).read).1)
            [h1, h2, h3, h4]
            (fun x hx => by
              simp at hx
              rcases hx with rfl | rfl | rfl | rfl
              · exact hx1
              · exact hx2
              · exact hx3
              · exact hx4) hrem4
          have hhex4 : readHexN 4 (((p.read).2).read).2 ((((p.read).2).read).1) =
              .ok ⟨p.s, l3, c3, p.off + 6⟩ := by
            have hlen4 : ([h1, h2, h3, h4] : List Nat).length = 4 := by simp
            rw [hlen4] at hhex
            rw [hread2, hread] at hhex
            simp only at hhex
            rw [hread2, hread]
            simp only
            rw [hhex]
          have hrem5 : (Rdr.mk p.s l3 c3 (p.off + 6)).rem = tb ++ 34 :: rest := by
            have : (92 :: 117 :: h1 :: h2 :: h3 :: h4 :: (tb ++ 34 :: rest)) =
                ([92, 117, h1, h2, h3, h4] : List Nat) ++ (tb ++ 34 :: rest) := by simp
            rw [this] at hrem2
            exact rem_advance (w := [92, 117, h1, h2, h3, h4]) hrem2 l3 c3
          obtain ⟨l4, c4, hrec⟩ := ih n (by omega) hbt (by simp at hlen ⊢; omega) hrem5
          refine ⟨l4, c4, ?_⟩
          rw [rawStrLoopF_plain hE (by omega) (by omega), hv]
          have : decide ((92 : Nat) = 92) = true := by simp
          rw [this]
          rw [rawStrLoopF_u hE2 hv2 hhex4, hrec]
          simp only
          have : p.off + 6 + (tb.length + 1) =
              p.off + ((92 :: 117 :: h1 :: h2 :: h3 :: h4 :: tb).length + 1) := by
            simp
            omega
          rw [this]

/-- `peek` at end of input. -/
theorem peek_eof {p : Rdr} (h : p.isEOF = true) : p.peek = (0, 0) := by
  unfold Rdr.peek
  simp [h]

/-- A nonzero ASCII byte that the head of the unread input is not, is also
not what `peek` returns (decoding cannot produce it, and end of input
yields the NUL scalar). -/
theorem peek_ne {p : Rdr} {k : Nat} (hk : k < 128) (hk0 : k ≠ 0)
    (h : ∀ b, p.rem.head? = some b → b ≠ k) : (p.peek).1 ≠ k := by
  cases hrem : p.rem with
  | nil =>
    rw [peek_eof (isEOF_of_rem_nil hrem)]
    simpa using fun he => hk0 he.symm
  | cons b t =>
    by_cases hlt : b < 128
    · rw [peek_lo hrem hlt]
      exact h b (by rw [hrem]; rfl)
    · have := (peek_hi hrem (by omega)).1
      omega

/-- Completeness of `parseRawString` on a grammar-valid string body that
is closed by a quote: it returns exactly the body bytes and consumes the
body plus the closing quote (the opening quote was consumed by the
caller). -/
theorem parseRawString_run {b rest : List Nat} {p : Rdr} (hb : Body b)
    (hrem : p.rem = b ++ 34 :: rest) :
    ∃ l c, parseRawString p = .ok (b, ⟨p.s, l, c, p.off + (b.length + 1)⟩) := by
  match b, hb with
  | [], _ =>
    have hrem2 : p.rem = 34 :: rest := by simpa using hrem
    obtain ⟨hv, l, c, hread⟩ := read_lo hrem2 (by omega)
    refine ⟨l, c, ?_⟩
    unfold parseRawString
    rw [peek_lo hrem2 (by omega)]
    simp only [if_pos rfl, hread]
    rfl
  | x :: t, hb =>
    have hx34 : x ≠ 34 := Body_head_ne hb x t rfl
    have hne : (p.peek).1 ≠ 34 := by
      apply peek_ne (by omega) (by omega)
      intro c hc
      rw [hrem] at hc
      simp at hc
      omega
    have hlen : (x :: t).length < p.s.length - p.off + 1 := by
      have := rem_length p
      rw [hrem] at this
      simp at this ⊢
      omega
    obtain ⟨l, c, hloop⟩ := rawStrLoopF_run (p.s.length - p.off + 1) hb hlen hrem
    refine ⟨l, c, ?_⟩
    unfold parseRawString
    rw [if_neg hne, hloop]
    simp only
    have hoffne : ¬ p.off = p.off + ((x :: t).length + 1) := by simp
    rw [if_neg hoffne]
    have hsub : sub p.s p.off (p.off + ((x :: t).length + 1) - 1) = x :: t := by
      have : p.off + ((x :: t).length + 1) - 1 = p.off + (x :: t).length := by omega
      rw [this]
      exact sub_rem hrem
    rw [hsub]

/-! ## Completeness of the number parser on grammar number text -/

theorem parseInteger_run_neg {i rest : List Nat} {p : Rdr} {acc : List Nat}
    (hi : IntPartP i) (hstop : DigStop rest) (hrem : p.rem = i ++ rest) :
    ∃ l c, parseInteger 45 acc p = .ok (acc ++ i, ⟨p.s, l, c, p.off + i.length⟩) := by
  rcases hi with rfl | ⟨d, ds, rfl, hnat, hds⟩
  · have hrem2 : p.rem = 48 :: rest := by simpa using hrem
    obtain ⟨hv, l, c, hread⟩ := read_lo hrem2 (by omega)
    refine ⟨l, c, ?_⟩
    simp only [parseInteger, if_pos rfl, hv, hread]
    simp
  · have hdlt : d < 128 := by
      simp [isNaturalB] at hnat
      omega
    have hd48 : d ≠ 48 := by
      simp [isNaturalB] at hnat
      omega
    have hrem2 : p.rem = d :: (ds ++ rest) := by simpa using hrem
    obtain ⟨hv, l1, c1, hread⟩ := read_lo hrem2 hdlt
    have hrem3 : ((p.read).2).rem = ds ++ rest := by
      rw [hread]
      exact rem_advance (w := [d]) (by simpa using hrem2) l1 c1
    obtain ⟨l2, c2, hdig⟩ := @digitLoop_run ds rest ((p.read).2) [] hds hstop hrem3
    rw [hread] at hdig
    simp only [List.nil_append] at hdig
    refine ⟨l2, c2, ?_⟩
    simp only [parseInteger, if_pos rfl, hv, if_neg hd48, hnat, if_pos rfl, hread]
    rw [hdig]
    simp only
    have h1 : p.off + 1 + ds.length = p.off + (d :: ds).length := by simp; omega
    rw [h1]
    simp

theorem parseInteger_run_dig {d : Nat} {ds rest : List Nat} {p : Rdr}
    {acc : List Nat} (hi : IntPartP (d :: ds)) (hstop : DigStop rest)
    (hrem : p.rem = ds ++ rest) :
    ∃ l c, parseInteger d acc p = .ok (acc ++ ds, ⟨p.s, l, c, p.off + ds.length⟩) := by
  rcases hi with he | ⟨d2, ds2, he, hnat, hds⟩
  · have hd : d = 48 ∧ ds = [] := by simpa using he
    obtain ⟨rfl, rfl⟩ := hd
    refine ⟨p.line, p.col, ?_⟩
    simp only [parseInteger, if_neg (by omega : ¬ (48 : Nat) = 45),
      if_neg (by simp : ¬ (48 : Nat) ≠ 48)]
    cases p
    simp
  · have hdd : d = d2 ∧ ds = ds2 := by simpa using he
    obtain ⟨rfl, rfl⟩ := hdd
    have hd45 : ¬ d = 45 := by simp [isNaturalB] at hnat; omega
    have hd48 : d ≠ 48 := by simp [isNaturalB] at hnat; omega
    obtain ⟨l, c, hdig⟩ := @digitLoop_run ds rest p [] hds hstop hrem
    simp only [List.nil_append] at hdig
    refine ⟨l, c, ?_⟩
    simp only [parseInteger, if_neg hd45, if_pos hd48]
    rw [hdig]

theorem parseFraction_run {f rest : List Nat} {p : Rdr} {acc : List Nat}
    (hf : FracPartP f) (hstop : ∀ b, rest.head? = some b → isDigitB b = false ∧ b ≠ 46)
    (hrem : p.rem = f ++ rest) :
    ∃ l c, parseFraction acc p = .ok (acc ++ f, ⟨p.s, l, c, p.off + f.length⟩) := by
  rcases hf with rfl | ⟨ds, rfl, hne, hds⟩
  · have hrem2 : p.rem = rest := by simpa using hrem
    have hnpk : (p.peek).1 ≠ 46 := by
      apply peek_ne (by omega) (by omega)
      intro c hc
      rw [hrem2] at hc
      exact (hstop c hc).2
    refine ⟨p.line, p.col, ?_⟩
    simp only [parseFraction, if_neg hnpk]
    cases p
    simp
  · have hrem2 : p.rem = 46 :: (ds ++ rest) := by simpa using hrem
    obtain ⟨hv, l1, c1, hread⟩ := read_lo hrem2 (by omega)
    have hrem3 : ((p.read).2).rem = ds ++ rest := by
      rw [hread]
      exact rem_advance (w := [46]) (by simpa using hrem2) l1 c1
    obtain ⟨l2, c2, hdig⟩ := @digitLoop_run ds rest ((p.read).2) []
      hds (fun b hb => (hstop b hb).1) hrem3
    rw [hread] at hdig
    simp only [List.nil_append] at hdig
    refine ⟨l2, c2, ?_⟩
    simp only [parseFraction, peek_lo hrem2 (by omega : (46:Nat) < 128),
      if_pos rfl, hread]
    rw [hdig]
    simp only
    rw [if_neg hne]
    have h1 : p.off + 1 + ds.length = p.off + (46 :: ds).length := by simp; omega
    rw [h1]
    simp

theorem parseExponent_run {g rest : List Nat} {p : Rdr} {acc : List Nat}
    (hg : ExpPartP g)
    (hstop : ∀ b, rest.head? = some b → isDigitB b = false ∧ b ≠ 101 ∧ b ≠ 69)
    (hrem : p.rem = g ++ rest) :
    ∃ l c, parseExponent acc p = .ok (acc ++ g, ⟨p.s, l, c, p.off + g.length⟩) := by
  rcases hg with rfl | ⟨ec, sg, ds, hec, hsg, hdsne, hds, rfl⟩
  · have hrem2 : p.rem = rest := by simpa using hrem
    have hnpk1 : (p.peek).1 ≠ 101 := by
      apply peek_ne (by omega) (by omega)
      intro c hc
      rw [hrem2] at hc
      exact (hstop c hc).2.1
    have hnpk2 : (p.peek).1 ≠ 69 := by
      apply peek_ne (by omega) (by omega)
      intro c hc
      rw [hrem2] at hc
      exact (hstop c hc).2.2
    refine ⟨p.line, p.col, ?_⟩
    simp only [parseExponent, if_neg (by simp [hnpk1, hnpk2] :
      ¬ ((p.peek).1 = 101 ∨ (p.peek).1 = 69))]
    cases p
    simp
  · have heclt : ec < 128 := by omega
    have hrem2 : p.rem = ec :: (sg ++ ds ++ rest) := by
      rw [hrem]
      simp
    obtain ⟨hv, l1, c1, hread⟩ := read_lo hrem2 heclt
    have hrem3 : ((p.read).2).rem = sg ++ ds ++ rest := by
      rw [hread]
      exact rem_advance (w := [ec]) (by simpa using hrem2) l1 c1
    have hcond : (p.peek).1 = 101 ∨ (p.peek).1 = 69 := by
      rw [peek_lo hrem2 heclt]
      exact hec
    rcases hsg with rfl | rfl | rfl
    · -- no sign: the next byte is a digit, not + or -
      obtain ⟨dd, dt, rfl⟩ : ∃ dd dt, ds = dd :: dt := by
        cases ds with
        | nil => exact absurd rfl hdsne
        | cons dd dt => exact ⟨dd, dt, rfl⟩
      have hddd : isDigitB dd = true := hds dd (by simp)
      have hddlt : dd < 128 := isDigitB_lt hddd
      have hrem4 : ((p.read).2).rem = dd :: (dt ++ rest) := by
        rw [hrem3]
        simp
      have hpk2 : ((p.read).2).peek = (dd, 1) := peek_lo hrem4 hddlt
      have hnsign : ¬ (((p.read).2.peek).1 = 43 ∨ ((p.read).2.peek).1 = 45) := by
        rw [hpk2]
        simp [isDigitB] at hddd
        omega
      obtain ⟨l2, c2, hdig⟩ := @digitLoop_run (dd :: dt) rest ((p.read).2) []
        hds (fun b hb => (hstop b hb).1) (by simpa using hrem3)
      simp only [List.nil_append] at hdig
      refine ⟨l2, c2, ?_⟩
      simp only [parseExponent, if_pos hcond]
      rw [if_neg hnsign]
      rw [hdig]
      rw [if_neg (by simp : ¬ (dd :: dt) = [])]
      simp only [peek_lo hrem2 heclt, hread]
      simp [Rdr.mk.injEq]
      omega
    · -- sign +
      have hrem4 : ((p.read).2).rem = 43 :: (ds ++ rest) := by
        rw [hrem3]
        simp
      obtain ⟨hv2, l2, c2, hread2⟩ := read_lo hrem4 (by omega)
      have hrem5 : (((p.read).2).read).2.rem = ds ++ rest := by
        rw [hread2]
        exact rem_advance (p := (p.read).2) (w := [43]) (by simpa using hrem4) l2 c2
      have hsign : (((p.read).2).peek).1 = 43 ∨ (((p.read).2).peek).1 = 45 := by
        rw [peek_lo hrem4 (by omega)]
        simp
      obtain ⟨l3, c3, hdig⟩ := @digitLoop_run ds rest ((((p.read).2).read).2) []
        hds (fun b hb => (hstop b hb).1) hrem5
      simp only [List.nil_append] at hdig
      refine ⟨l3, c3, ?_⟩
      simp only [parseExponent, if_pos hcond]
      rw [if_pos hsign]
      rw [hdig]
      rw [if_neg hdsne]
      have hrem4x := hrem4
      rw [hread] at hrem4x
      have hpk4 := peek_lo hrem4x (by omega : (43:Nat) < 128)
      have hread2x := hread2
      rw [hread] at hread2x
      simp only at hread2x
      simp only [peek_lo hrem2 heclt, hread, hpk4, hread2x]
      simp [Rdr.mk.injEq]
      omega
    · -- sign -
      have hrem4 : ((p.read).2).rem = 45 :: (ds ++ rest) := by
        rw [hrem3]
        simp
      obtain ⟨hv2, l2, c2, hread2⟩ := read_lo hrem4 (by omega)
      have hrem5 : (((p.read).2).read).2.rem = ds ++ rest := by
        rw [hread2]
        exact rem_advance (p := (p.read).2) (w := [45]) (by simpa using hrem4) l2 c2
      have hsign : (((p.read).2).peek).1 = 43 ∨ (((p.read).2).peek).1 = 45 := by
        rw [peek_lo hrem4 (by omega)]
        simp
      obtain ⟨l3, c3, hdig⟩ := @digitLoop_run ds rest ((((p.read).2).read).2) []
        hds (fun b hb => (hstop b hb).1) hrem5
      simp only [List.nil_append] at hdig
      refine ⟨l3, c3, ?_⟩
      simp only [parseExponent, if_pos hcond]
      rw [if_pos hsign]
      rw [hdig]
      rw [if_neg hdsne]
      have hrem4x := hrem4
      rw [hread] at hrem4x
      have hpk4 := peek_lo hrem4x (by omega : (45:Nat) < 128)
      have hread2x := hread2
      rw [hread] at hread2x
      simp only at hread2x
      simp only [peek_lo hrem2 heclt, hread, hpk4, hread2x]
      simp [Rdr.mk.injEq]
      omega

theorem stops_exp {rest : List Nat} (hstop : NumStop rest) :
    ∀ b, rest.head? = some b → isDigitB b = false ∧ b ≠ 101 ∧ b ≠ 69 :=
  fun b hb => ⟨(hstop b hb).1, (hstop b hb).2.2.1, (hstop b hb).2.2.2⟩

theorem stops_frac {g rest : List Nat} (hg : ExpPartP g) (hstop : NumStop rest) :
    ∀ b, (g ++ rest).head? = some b → isDigitB b = false ∧ b ≠ 46 := by
  intro b hb
  rcases hg with rfl | ⟨ec, sg, ds, hec, _, _, _, rfl⟩
  · simp at hb
    exact ⟨(hstop b hb).1, (hstop b hb).2.1⟩
  · simp at hb
    subst hb
    simp [isDigitB]
    omega

theorem stops_int {f g rest : List Nat} (hf : FracPartP f) (hg : ExpPartP g)
    (hstop : NumStop rest) : DigStop (f ++ (g ++ rest)) := by
  intro b hb
  rcases hf with rfl | ⟨ds, rfl, _, _⟩
  · simp at hb
    exact (stops_frac hg hstop b (by simpa using hb)).1
  · simp at hb
    subst hb
    simp [isDigitB]

/-- A number text starts with a minus sign or a digit. -/
theorem NumTxt_head {w : List Nat} (hw : NumTxt w) :
    ∃ d w2, w = d :: w2 ∧ (d = 45 ∨ (48 ≤ d ∧ d ≤ 57)) := by
  obtain ⟨sgn, i, f, g, hsgn, hi, hf, hg, rfl⟩ := hw
  obtain ⟨di, dsi, rfl, hdig⟩ : ∃ di dsi, i = di :: dsi ∧ (48 ≤ di ∧ di ≤ 57) := by
    rcases hi with rfl | ⟨d2, ds2, rfl, hnat, _⟩
    · exact ⟨48, [], rfl, by omega⟩
    · refine ⟨d2, ds2, rfl, ?_⟩
      simp [isNaturalB] at hnat
      omega
  rcases hsgn with rfl | rfl
  · exact ⟨di, dsi ++ f ++ g, by simp, Or.inr hdig⟩
  · exact ⟨45, di :: dsi ++ f ++ g, by simp, Or.inl rfl⟩

/-- Completeness of `parseNumber` on grammar number text (the leading
byte `d` of the text was already consumed by `parseValue`). -/
theorem parseNumber_run {w rest : List Nat} {p : Rdr} {d : Nat} {w2 : List Nat}
    (hw : NumTxt w) (he : w = d :: w2) (hstop : NumStop rest)
    (hrem : p.rem = w2 ++ rest) :
    ∃ l c, parseNumber d p = .ok (.number w, ⟨p.s, l, c, p.off + w2.length⟩) := by
  obtain ⟨sgn, i, f, g, hsgn, hi, hf, hg, heq⟩ := hw
  obtain ⟨di, dsi, rfl⟩ : ∃ di dsi, i = di :: dsi := by
    rcases hi with rfl | ⟨d2, ds2, rfl, _, _⟩
    · exact ⟨48, [], rfl⟩
    · exact ⟨d2, ds2, rfl⟩
  rcases hsgn with rfl | rfl
  · -- unsigned number
    have hde : d = di ∧ w2 = dsi ++ f ++ g := by
      rw [heq] at he
      simp at he
      refine ⟨he.1.symm, ?_⟩
      rw [← he.2]
      simp
    obtain ⟨rfl, rfl⟩ := hde
    have hremI : p.rem = dsi ++ (f ++ (g ++ rest)) := by rw [hrem]; simp
    obtain ⟨l1, c1, hI⟩ := @parseInteger_run_dig d dsi (f ++ (g ++ rest)) p [d]
      hi (stops_int hf hg hstop) hremI
    have hremF : (Rdr.mk p.s l1 c1 (p.off + dsi.length)).rem = f ++ (g ++ rest) :=
      rem_advance hremI l1 c1
    obtain ⟨l2, c2, hF⟩ := @parseFraction_run f (g ++ rest)
      (Rdr.mk p.s l1 c1 (p.off + dsi.length)) ([d] ++ dsi) hf
      (stops_frac hg hstop) hremF
    have hremG : (Rdr.mk p.s l2 c2 (p.off + dsi.length + f.length)).rem =
        g ++ rest := rem_advance hremF l2 c2
    obtain ⟨l3, c3, hG⟩ := @parseExponent_run g rest
      (Rdr.mk p.s l2 c2 (p.off + dsi.length + f.length)) (([d] ++ dsi) ++ f) hg
      (stops_exp hstop) hremG
    refine ⟨l3, c3, ?_⟩
    simp only [parseNumber, hI, hF, hG, heq]
    simp only [List.append_assoc, List.cons_append, List.nil_append]
    simp [Rdr.mk.injEq]
    omega
  · -- leading minus
    have hde : d = 45 ∧ w2 = (di :: dsi) ++ f ++ g := by
      rw [heq] at he
      simp at he
      refine ⟨he.1.symm, ?_⟩
      rw [← he.2]
      simp
    obtain ⟨rfl, rfl⟩ := hde
    have hremI : p.rem = (di :: dsi) ++ (f ++ (g ++ rest)) := by rw [hrem]; simp
    obtain ⟨l1, c1, hI⟩ := @parseInteger_run_neg (di :: dsi) (f ++ (g ++ rest)) p [45]
      hi (stops_int hf hg hstop) hremI
    have hremF : (Rdr.mk p.s l1 c1 (p.off + (di :: dsi).length)).rem =
        f ++ (g ++ rest) := rem_advance hremI l1 c1
    obtain ⟨l2, c2, hF⟩ := @parseFraction_run f (g ++ rest)
      (Rdr.mk p.s l1 c1 (p.off + (di :: dsi).length)) ([45] ++ (di :: dsi)) hf
      (stops_frac hg hstop) hremF
    have hremG : (Rdr.mk p.s l2 c2 (p.off + (di :: dsi).length + f.length)).rem =
        g ++ rest := rem_advance hremF l2 c2
    obtain ⟨l3, c3, hG⟩ := @parseExponent_run g rest
      (Rdr.mk p.s l2 c2 (p.off + (di :: dsi).length + f.length))
      (([45] ++ (di :: dsi)) ++ f) hg (stops_exp hstop) hremG
    refine ⟨l3, c3, ?_⟩
    simp only [parseNumber, hI, hF, hG, heq]
    simp only [List.append_assoc, List.cons_append, List.nil_append]
    simp [Rdr.mk.injEq]
    omega

/-! ## Literals, value head bytes, and stop-predicate helpers -/

theorem parseNull_run {p : Rdr} {rest : List Nat}
    (hrem : p.rem = [117, 108, 108] ++ rest) :
    ∃ l c, parseNull p = .ok (.null, ⟨p.s, l, c, p.off + 3⟩) := by
  obtain ⟨l, c, hm⟩ := matchLit_run [117, 108, 108] (by intro b hb; simp at hb; omega) hrem
  refine ⟨l, c, ?_⟩
  simp only [parseNull, hm]
  simp

theorem parseBool_run_true {p : Rdr} {rest : List Nat}
    (hrem : p.rem = [114, 117, 101] ++ rest) :
    ∃ l c, parseBool 116 p = .ok (.boolean true, ⟨p.s, l, c, p.off + 3⟩) := by
  obtain ⟨l, c, hm⟩ := matchLit_run [114, 117, 101] (by intro b hb; simp at hb; omega) hrem
  refine ⟨l, c, ?_⟩
  simp only [parseBool, if_pos rfl, hm]
  simp

theorem parseBool_run_false {p : Rdr} {rest : List Nat}
    (hrem : p.rem = [97, 108, 115, 101] ++ rest) :
    ∃ l c, parseBool 102 p = .ok (.boolean false, ⟨p.s, l, c, p.off + 4⟩) := by
  obtain ⟨l, c, hm⟩ := matchLit_run [97, 108, 115, 101] (by intro b hb; simp at hb; omega) hrem
  refine ⟨l, c, ?_⟩
  simp only [parseBool, if_neg (by omega : ¬ (102 : Nat) = 116), hm]
  simp

/-- A grammar value text starts with one of the dispatch bytes of
`parseValue`. -/
theorem JVal_head {e : Elem} {w : List Nat} (hv : JVal e w) :
    ∃ d w2, w = d :: w2 ∧ (d = 123 ∨ d = 91 ∨ d = 34 ∨ d = 45 ∨
      (48 ≤ d ∧ d ≤ 57) ∨ d = 116 ∨ d = 102 ∨ d = 110) := by
  cases hv with
  | jnull => exact ⟨110, _, rfl, by omega⟩
  | jtrue => exact ⟨116, _, rfl, by omega⟩
  | jfalse => exact ⟨102, _, rfl, by omega⟩
  | jnum hn =>
    obtain ⟨d, w2, rfl, hd⟩ := NumTxt_head hn
    exact ⟨d, w2, rfl, by omega⟩
  | jstr hb => exact ⟨34, _, rfl, by omega⟩
  | jarrNil hw => exact ⟨91, _, rfl, by omega⟩
  | jarr hw0 he hw1 => exact ⟨91, _, rfl, by omega⟩
  | jobjNil hw => exact ⟨123, _, rfl, by omega⟩
  | jobj hw0 hm hw1 => exact ⟨123, _, rfl, by omega⟩

theorem WsStop_cons {b : Nat} {r : List Nat} (h : isWsB b = false) :
    WsStop (b :: r) := by
  intro c hc
  simp at hc
  subst hc
  exact h

theorem NumStop_cons {b : Nat} {r : List Nat} (h1 : isDigitB b = false)
    (h2 : b ≠ 46) (h3 : b ≠ 101) (h4 : b ≠ 69) : NumStop (b :: r) := by
  intro c hc
  simp at hc
  subst hc
  exact ⟨h1, h2, h3, h4⟩

theorem NumStop_ws {ws r : List Nat} (hws : WsL ws) (h : NumStop r) :
    NumStop (ws ++ r) := by
  match ws with
  | [] => simpa using h
  | b :: t =>
    have hb := hws b (by simp)
    apply NumStop_cons
    · simp [isWsB] at hb
      simp [isDigitB]
      omega
    all_goals simp [isWsB] at hb <;> omega

theorem WsStop_of_head {w rest : List Nat} {e : Elem} (hv : JVal e w) :
    WsStop (w ++ rest) := by
  obtain ⟨d, w2, rfl, hd⟩ := JVal_head hv
  apply WsStop_cons
  simp [isWsB]
  omega

theorem NumStop_of_head44 {r : List Nat} : NumStop (44 :: r) :=
  NumStop_cons (by simp [isDigitB]) (by omega) (by omega) (by omega)

theorem NumStop_of_head93 {r : List Nat} : NumStop (93 :: r) :=
  NumStop_cons (by simp [isDigitB]) (by omega) (by omega) (by omega)

theorem NumStop_of_head125 {r : List Nat} : NumStop (125 :: r) :=
  NumStop_cons (by simp [isDigitB]) (by omega) (by omega) (by omega)

/-- Completeness of `parseMember` on one grammar member followed by
trailing whitespace that the member's final `eatWhitespace` consumes.
The behaviour of `parseValue` on the member's value text is supplied as a
hypothesis (`parseMember` sits inside the mutual recursion). -/
theorem parseMember_run {k ws1 ws2 w wsE rest : List Nat} {v : Elem} {p : Rdr} {fuel : Nat}
    (hk : Body k) (hws1 : WsL ws1) (hws2 : WsL ws2) (hwsE : WsL wsE)
    (hv : JVal v w) (hstopr : WsStop rest) (hnum : NumStop (wsE ++ rest))
    (hval : ∀ (f2 : Nat) (q : Rdr) (r2 : List Nat), q.rem = w ++ r2 → NumStop r2 →
      3 * w.length < f2 →
      ∃ l c, parseValue f2 q = .ok (v, ⟨q.s, l, c, q.off + w.length⟩))
    (hrem : p.rem = (34 :: (k ++ [34] ++ ws1 ++ [58] ++ ws2 ++ w)) ++ wsE ++ rest)
    (hfuel : 3 * w.length + 1 < fuel) :
    ∃ l c, parseMember fuel p = .ok (some (k, v),
      ⟨p.s, l, c, p.off +
        ((34 :: (k ++ [34] ++ ws1 ++ [58] ++ ws2 ++ w)).length + wsE.length)⟩) := by
  obtain ⟨f, rfl⟩ : ∃ f, fuel = f + 1 := ⟨fuel - 1, by omega⟩
  have hrem0 : p.rem = 34 :: ((k ++ [34]) ++ (ws1 ++ 58 :: (ws2 ++ (w ++ (wsE ++ rest))))) := by
    rw [hrem]
    simp
  obtain ⟨hv34, l1, c1, hread⟩ := read_lo hrem0 (by omega)
  have hrem1 : ((p.read).2).rem =
      (k ++ [34]) ++ (ws1 ++ 58 :: (ws2 ++ (w ++ (wsE ++ rest)))) := by
    rw [hread]
    exact rem_advance (w := [34]) (by simpa using hrem0) l1 c1
  have hrem1k : ((p.read).2).rem =
      k ++ 34 :: (ws1 ++ 58 :: (ws2 ++ (w ++ (wsE ++ rest)))) := by
    rw [hrem1]
    simp
  obtain ⟨l2, c2, hraw⟩ := parseRawString_run hk hrem1k
  rw [hread] at hraw
  simp only at hraw
  have hrem2 : (Rdr.mk p.s l2 c2 (p.off + 1 + (k.length + 1))).rem =
      ws1 ++ 58 :: (ws2 ++ (w ++ (wsE ++ rest))) := by
    have h2 : ((p.read).2).rem = (k ++ [34]) ++ (ws1 ++ 58 :: (ws2 ++ (w ++ (wsE ++ rest)))) := hrem1
    have h3 := rem_advance (p := (p.read).2) (w := k ++ [34]) h2 l2 c2
    rw [hread] at h3
    simp only at h3
    have h4 : p.off + 1 + (k ++ [34]).length = p.off + 1 + (k.length + 1) := by simp
    rw [← h4]
    exact h3
  obtain ⟨l3, c3, hws⟩ := eatWs_run hws1 (WsStop_cons (by simp [isWsB]))
    hrem2
  simp only at hws
  have hrem3 : (Rdr.mk p.s l3 c3 (p.off + 1 + (k.length + 1) + ws1.length)).rem =
      58 :: (ws2 ++ (w ++ (wsE ++ rest))) :=
    rem_advance (p := Rdr.mk p.s l2 c2 (p.off + 1 + (k.length + 1))) hrem2 l3 c3
  obtain ⟨hv58, l4, c4, hread58⟩ := read_lo hrem3 (by omega)
  have hrem4 : (Rdr.mk p.s l4 c4 (p.off + 1 + (k.length + 1) + ws1.length + 1)).rem =
      ws2 ++ (w ++ (wsE ++ rest)) := by
    have := rem_advance (p := Rdr.mk p.s l3 c3 (p.off + 1 + (k.length + 1) + ws1.length))
      (w := [58]) (by simpa using hrem3) l4 c4
    simpa using this
  obtain ⟨l5, c5, hws2r⟩ := eatWs_run hws2 (WsStop_of_head hv) hrem4
  simp only at hws2r
  have hrem5 : (Rdr.mk p.s l5 c5
      (p.off + 1 + (k.length + 1) + ws1.length + 1 + ws2.length)).rem =
      w ++ (wsE ++ rest) :=
    rem_advance (p := Rdr.mk p.s l4 c4 (p.off + 1 + (k.length + 1) + ws1.length + 1))
      hrem4 l5 c5
  obtain ⟨l6, c6, hvalr⟩ := hval f
    (Rdr.mk p.s l5 c5 (p.off + 1 + (k.length + 1) + ws1.length + 1 + ws2.length))
    (wsE ++ rest) hrem5 hnum (by omega)
  try simp only at hvalr
  have hrem6 : (Rdr.mk p.s l6 c6
      (p.off + 1 + (k.length + 1) + ws1.length + 1 + ws2.length + w.length)).rem =
      wsE ++ rest :=
    rem_advance
      (p := Rdr.mk p.s l5 c5 (p.off + 1 + (k.length + 1) + ws1.length + 1 + ws2.length))
      hrem5 l6 c6
  obtain ⟨l7, c7, hwsEr⟩ := eatWs_run hwsE hstopr hrem6
  simp only at hwsEr
  refine ⟨l7, c7, ?_⟩
  have hpk : p.peek = (34, 1) := peek_lo hrem0 (by omega)
  simp only [parseMember, hpk]
  rw [if_neg (by simp)]
  rw [hread]
  try simp only
  rw [hraw]
  try simp only
  rw [hws]
  try simp only
  rw [hv58, hread58]
  try simp only
  rw [if_neg (by omega : ¬ ¬ (58 : Nat) = 58)]
  try simp only
  rw [hws2r]
  try simp only
  rw [hvalr]
  try simp only
  rw [hwsEr]
  try simp only
  congr 3
  simp
  omega

theorem JEls_head {es : List Elem} {t : List Nat} (h : JEls es t) :
    ∃ d t2, t = d :: t2 ∧ (d = 123 ∨ d = 91 ∨ d = 34 ∨ d = 45 ∨
      (48 ≤ d ∧ d ≤ 57) ∨ d = 116 ∨ d = 102 ∨ d = 110) := by
  cases h with
  | one hv => exact JVal_head hv
  | @cons e w ws1 ws2 es2 t2 hv hw1 hw2 ht =>
    obtain ⟨d, w2, he, hd⟩ := JVal_head hv
    subst he
    exact ⟨d, w2 ++ (ws1 ++ 44 :: (ws2 ++ t2)), by simp, hd⟩

theorem JMems_head {ms : List (List Nat × Elem)} {t : List Nat} (h : JMems ms t) :
    ∃ t2, t = 34 :: t2 := by
  cases h with
  | one hk hw1 hw2 hv => exact ⟨_, rfl⟩
  | cons hk hw1 hw2 hv hw3 hw4 ht => exact ⟨_, rfl⟩

theorem isEmpty_false_of_ne {α : Type} {l : List α} (h : l ≠ []) :
    l.isEmpty = false := by
  cases l with
  | nil => exact absurd rfl h
  | cons a t => rfl

theorem runV_null : RunV .null [110, 117, 108, 108] := by
  intro fuel p rest hrem hnum hfuel
  obtain ⟨f, rfl⟩ : ∃ f, fuel = f + 1 := ⟨fuel - 1, by omega⟩
  have hrem2 : p.rem = 110 :: ([117, 108, 108] ++ rest) := by simpa using hrem
  obtain ⟨hv, l1, c1, hread⟩ := read_lo hrem2 (by omega)
  have hrem3 : ((p.read).2).rem = [117, 108, 108] ++ rest := by
    rw [hread]
    exact rem_advance (w := [110]) (by simpa using hrem2) l1 c1
  obtain ⟨l2, c2, hn⟩ := parseNull_run hrem3
  rw [hread] at hn
  try simp only at hn
  refine ⟨l2, c2, ?_⟩
  simp only [parseValue]
  rw [if_neg (by omega : ¬ (p.read).1 = 123), if_neg (by omega : ¬ (p.read).1 = 91),
    if_neg (by omega : ¬ (p.read).1 = 34),
    if_neg (by omega : ¬ ((p.read).1 = 45 ∨ (48 ≤ (p.read).1 ∧ (p.read).1 ≤ 57))),
    if_neg (by omega : ¬ ((p.read).1 = 116 ∨ (p.read).1 = 102)),
    if_pos hv]
  rw [hread, hn]
  rfl

theorem runV_true : RunV (.boolean true) [116, 114, 117, 101] := by
  intro fuel p rest hrem hnum hfuel
  obtain ⟨f, rfl⟩ : ∃ f, fuel = f + 1 := ⟨fuel - 1, by omega⟩
  have hrem2 : p.rem = 116 :: ([114, 117, 101] ++ rest) := by simpa using hrem
  obtain ⟨hv, l1, c1, hread⟩ := read_lo hrem2 (by omega)
  have hrem3 : ((p.read).2).rem = [114, 117, 101] ++ rest := by
    rw [hread]
    exact rem_advance (w := [116]) (by simpa using hrem2) l1 c1
  obtain ⟨l2, c2, hn⟩ := parseBool_run_true hrem3
  rw [hread] at hn
  try simp only at hn
  refine ⟨l2, c2, ?_⟩
  simp only [parseValue]
  rw [if_neg (by omega : ¬ (p.read).1 = 123), if_neg (by omega : ¬ (p.read).1 = 91),
    if_neg (by omega : ¬ (p.read).1 = 34),
    if_neg (by omega : ¬ ((p.read).1 = 45 ∨ (48 ≤ (p.read).1 ∧ (p.read).1 ≤ 57))),
    if_pos (Or.inl hv : ((p.read).1 = 116 ∨ (p.read).1 = 102))]
  rw [hv, hread, hn]
  rfl

theorem runV_false : RunV (.boolean false) [102, 97, 108, 115, 101] := by
  intro fuel p rest hrem hnum hfuel
  obtain ⟨f, rfl⟩ : ∃ f, fuel = f + 1 := ⟨fuel - 1, by omega⟩
  have hrem2 : p.rem = 102 :: ([97, 108, 115, 101] ++ rest) := by simpa using hrem
  obtain ⟨hv, l1, c1, hread⟩ := read_lo hrem2 (by omega)
  have hrem3 : ((p.read).2).rem = [97, 108, 115, 101] ++ rest := by
    rw [hread]
    exact rem_advance (w := [102]) (by simpa using hrem2) l1 c1
  obtain ⟨l2, c2, hn⟩ := parseBool_run_false hrem3
  rw [hread] at hn
  try simp only at hn
  refine ⟨l2, c2, ?_⟩
  simp only [parseValue]
  rw [if_neg (by omega : ¬ (p.read).1 = 123), if_neg (by omega : ¬ (p.read).1 = 91),
    if_neg (by omega : ¬ (p.read).1 = 34),
    if_neg (by omega : ¬ ((p.read).1 = 45 ∨ (48 ≤ (p.read).1 ∧ (p.read).1 ≤ 57))),
    if_pos (Or.inr hv : ((p.read).1 = 116 ∨ (p.read).1 = 102))]
  rw [hv, hread, hn]
  rfl

theorem runV_num {w : List Nat} (hn : NumTxt w) : RunV (.number w) w := by
  intro fuel p rest hrem hnum hfuel
  obtain ⟨d, w2, he, hd⟩ := NumTxt_head hn
  subst he
  obtain ⟨f, rfl⟩ : ∃ f, fuel = f + 1 := ⟨fuel - 1, by omega⟩
  have hrem2 : p.rem = d :: (w2 ++ rest) := by simpa using hrem
  obtain ⟨hv, l1, c1, hread⟩ := read_lo hrem2 (by omega)
  have hrem3 : ((p.read).2).rem = w2 ++ rest := by
    rw [hread]
    exact rem_advance (w := [d]) (by simpa using hrem2) l1 c1
  obtain ⟨l2, c2, hnr⟩ := parseNumber_run hn rfl hnum hrem3
  rw [hread] at hnr
  try simp only at hnr
  refine ⟨l2, c2, ?_⟩
  simp only [parseValue]
  rw [if_neg (by omega : ¬ (p.read).1 = 123), if_neg (by omega : ¬ (p.read).1 = 91),
    if_neg (by omega : ¬ (p.read).1 = 34),
    if_pos (by omega : ((p.read).1 = 45 ∨ (48 ≤ (p.read).1 ∧ (p.read).1 ≤ 57)))]
  rw [hv, hread, hnr]
  have h1 : p.off + 1 + w2.length = p.off + (d :: w2).length := by simp; omega
  rw [h1]

theorem runV_str {b : List Nat} (hb : Body b) : RunV (.string b) (34 :: (b ++ [34])) := by
  intro fuel p rest hrem hnum hfuel
  obtain ⟨f, rfl⟩ : ∃ f, fuel = f + 1 := ⟨fuel - 1, by omega⟩
  have hrem2 : p.rem = 34 :: (b ++ 34 :: rest) := by simpa using hrem
  obtain ⟨hv, l1, c1, hread⟩ := read_lo hrem2 (by omega)
  have hrem3 : ((p.read).2).rem = b ++ 34 :: rest := by
    rw [hread]
    exact rem_advance (w := [34]) (by simpa using hrem2) l1 c1
  obtain ⟨l2, c2, hraw⟩ := parseRawString_run hb hrem3
  rw [hread] at hraw
  try simp only at hraw
  refine ⟨l2, c2, ?_⟩
  simp only [parseValue]
  rw [if_neg (by omega : ¬ (p.read).1 = 123), if_neg (by omega : ¬ (p.read).1 = 91),
    if_pos hv]
  rw [hread]
  simp only [parseString, hraw]
  have h1 : p.off + 1 + (b.length + 1) = p.off + (34 :: (b ++ [34])).length := by
    simp
    omega
  rw [h1]

theorem rem_at {p : Rdr} {w rest : List Nat} (h : p.rem = w ++ rest)
    (l c n : Nat) (hn : n = w.length) :
    (Rdr.mk p.s l c (p.off + n)).rem = rest := by
  subst hn
  exact rem_advance h l c

theorem runV_arrNil {ws : List Nat} (hw : WsL ws) :
    RunV (.array []) (91 :: (ws ++ [93])) := by
  intro fuel p rest hrem hnum hfuel
  simp only [List.length_cons, List.length_append] at hfuel
  obtain ⟨f, rfl⟩ : ∃ f, fuel = f + 1 := ⟨fuel - 1, by omega⟩
  obtain ⟨f2, hf2⟩ : ∃ f2, f = f2 + 1 := ⟨f - 1, by omega⟩
  obtain ⟨f3, hf3⟩ : ∃ f3, f2 = f3 + 1 := ⟨f2 - 1, by omega⟩
  have hrem2 : p.rem = 91 :: (ws ++ 93 :: rest) := by simpa using hrem
  obtain ⟨hv91, l1, c1, hread⟩ := read_lo hrem2 (by omega)
  have hrem3 : (Rdr.mk p.s l1 c1 (p.off + 1)).rem = ws ++ 93 :: rest :=
    rem_at (w := [91]) (by simpa using hrem2) l1 c1 1 (by simp)
  obtain ⟨l2, c2, hws⟩ := eatWs_run hw (WsStop_cons (by simp [isWsB])) hrem3
  simp only at hws
  have hrem4 : (Rdr.mk p.s l2 c2 (p.off + 1 + ws.length)).rem = 93 :: rest :=
    rem_advance (p := Rdr.mk p.s l1 c1 (p.off + 1)) hrem3 l2 c2
  have hE4 := not_eof_of_rem_cons hrem4
  have hpk4 : ((Rdr.mk p.s l2 c2 (p.off + 1 + ws.length)).peek).1 = 93 := by
    rw [peek_lo hrem4 (by omega)]
  obtain ⟨l3, c3, hws0⟩ := eatWs_run ((by intro b hb; cases hb) : WsL [])
    (WsStop_cons (b := 93) (by simp [isWsB])) (by simpa using hrem4)
  simp only at hws0
  have hrem5 : (Rdr.mk p.s l3 c3 (p.off + 1 + ws.length + List.length ([] : List Nat))).rem =
      93 :: rest :=
    rem_at (p := Rdr.mk p.s l2 c2 (p.off + 1 + ws.length)) (w := [])
      (by simpa using hrem4) l3 c3 _ rfl
  obtain ⟨hv93, l4, c4, hread93⟩ := read_lo hrem5 (by omega)
  refine ⟨l4, c4, ?_⟩
  simp only [parseValue]
  rw [if_neg (by omega : ¬ (p.read).1 = 123), if_pos hv91, hread, hf2]
  simp only [parseArray]
  rw [hws]
  try simp only
  rw [hf3]
  simp only [parseArrLoop]
  rw [if_neg (by simp [hE4]), if_pos hpk4]
  try simp only
  rw [hws0]
  try simp only
  rw [if_pos hv93, hread93]
  congr 3
  simp
  omega

theorem runV_objNil {ws : List Nat} (hw : WsL ws) :
    RunV (.object []) (123 :: (ws ++ [125])) := by
  intro fuel p rest hrem hnum hfuel
  simp only [List.length_cons, List.length_append] at hfuel
  obtain ⟨f, rfl⟩ : ∃ f, fuel = f + 1 := ⟨fuel - 1, by omega⟩
  obtain ⟨f2, hf2⟩ : ∃ f2, f = f2 + 1 := ⟨f - 1, by omega⟩
  obtain ⟨f3, hf3⟩ : ∃ f3, f2 = f3 + 1 := ⟨f2 - 1, by omega⟩
  have hrem2 : p.rem = 123 :: (ws ++ 125 :: rest) := by simpa using hrem
  obtain ⟨hv123, l1, c1, hread⟩ := read_lo hrem2 (by omega)
  have hrem3 : (Rdr.mk p.s l1 c1 (p.off + 1)).rem = ws ++ 125 :: rest :=
    rem_at (w := [123]) (by simpa using hrem2) l1 c1 1 (by simp)
  obtain ⟨l2, c2, hws⟩ := eatWs_run hw (WsStop_cons (by simp [isWsB])) hrem3
  simp only at hws
  have hrem4 : (Rdr.mk p.s l2 c2 (p.off + 1 + ws.length)).rem = 125 :: rest :=
    rem_advance (p := Rdr.mk p.s l1 c1 (p.off + 1)) hrem3 l2 c2
  have hE4 := not_eof_of_rem_cons hrem4
  have hpk4 : ((Rdr.mk p.s l2 c2 (p.off + 1 + ws.length)).peek).1 = 125 := by
    rw [peek_lo hrem4 (by omega)]
  obtain ⟨hv125, l4, c4, hread125⟩ := read_lo hrem4 (by omega)
  refine ⟨l4, c4, ?_⟩
  simp only [parseValue]
  rw [if_pos hv123, hread, hf2]
  simp only [parseObject]
  rw [hws]
  try simp only
  rw [hf3]
  simp only [parseObjLoop]
  rw [if_neg (by simp [hE4]), if_pos hpk4]
  try simp only
  rw [if_pos hv125, hread125]
  congr 3
  simp
  omega

theorem JEls_WsStop {es : List Elem} {t rest : List Nat} (h : JEls es t) :
    WsStop (t ++ rest) := by
  obtain ⟨d, t2, rfl, hd⟩ := JEls_head h
  apply WsStop_cons
  simp [isWsB]
  omega

theorem JMems_WsStop {ms : List (List Nat × Elem)} {t rest : List Nat} (h : JMems ms t) :
    WsStop (t ++ rest) := by
  obtain ⟨t2, rfl⟩ := JMems_head h
  apply WsStop_cons
  simp [isWsB]

theorem runV_arr {es : List Elem} {t ws0 ws1 : List Nat}
    (hw0 : WsL ws0) (hels : JEls es t) (hw1 : WsL ws1) (hEa : RunEa es t) :
    RunV (.array es) (91 :: (ws0 ++ t ++ ws1 ++ [93])) := by
  intro fuel p rest hrem hnum hfuel
  simp only [List.length_cons, List.length_append] at hfuel
  obtain ⟨f, rfl⟩ : ∃ f, fuel = f + 1 := ⟨fuel - 1, by omega⟩
  obtain ⟨f2, hf2⟩ : ∃ f2, f = f2 + 1 := ⟨f - 1, by omega⟩
  have hrem2 : p.rem = 91 :: (ws0 ++ (t ++ (ws1 ++ 93 :: rest))) := by
    rw [hrem]
    simp
  obtain ⟨hv91, l1, c1, hread⟩ := read_lo hrem2 (by omega)
  have hrem3 : (Rdr.mk p.s l1 c1 (p.off + 1)).rem = ws0 ++ (t ++ (ws1 ++ 93 :: rest)) :=
    rem_at (w := [91]) (by simpa using hrem2) l1 c1 1 (by simp)
  obtain ⟨l2, c2, hws⟩ := eatWs_run hw0 (JEls_WsStop hels) hrem3
  simp only at hws
  have hrem4 : (Rdr.mk p.s l2 c2 (p.off + 1 + ws0.length)).rem =
      t ++ (ws1 ++ 93 :: rest) :=
    rem_advance (p := Rdr.mk p.s l1 c1 (p.off + 1)) hrem3 l2 c2
  obtain ⟨l3, c3, hloop, hlen1, hlen2⟩ := hEa f2
    (Rdr.mk p.s l2 c2 (p.off + 1 + ws0.length)) ws1 (93 :: rest) hw1
    (WsStop_cons (by simp [isWsB])) (NumStop_ws hw1 NumStop_of_head93) hrem4 (by omega)
  simp only at hloop
  have hrem5 : (Rdr.mk p.s l3 c3
      (p.off + 1 + ws0.length + (t.length + ws1.length))).rem = 93 :: rest := by
    have h6 := rem_at (p := Rdr.mk p.s l2 c2 (p.off + 1 + ws0.length)) (w := t ++ ws1)
      ((by rw [hrem4]; simp) :
        (Rdr.mk p.s l2 c2 (p.off + 1 + ws0.length)).rem = (t ++ ws1) ++ (93 :: rest))
      l3 c3 (t.length + ws1.length) (by simp)
    simpa using h6
  obtain ⟨f3, hf3⟩ : ∃ f3, f2 - es.length = f3 + 1 :=
    ⟨f2 - es.length - 1, by omega⟩
  have hE5 := not_eof_of_rem_cons hrem5
  have hpk5 : ((Rdr.mk p.s l3 c3
      (p.off + 1 + ws0.length + (t.length + ws1.length))).peek).1 = 93 := by
    rw [peek_lo hrem5 (by omega)]
  obtain ⟨l4, c4, hws0r⟩ := eatWs_run ((by intro b hb; cases hb) : WsL [])
    (WsStop_cons (b := 93) (by simp [isWsB])) (by simpa using hrem5)
  simp only at hws0r
  have hrem6 : (Rdr.mk p.s l4 c4 (p.off + 1 + ws0.length + (t.length + ws1.length) +
      List.length ([] : List Nat))).rem = 93 :: rest :=
    rem_at (p := Rdr.mk p.s l3 c3 (p.off + 1 + ws0.length + (t.length + ws1.length)))
      (w := []) (by simpa using hrem5) l4 c4 _ rfl
  obtain ⟨hv93, l5, c5, hread93⟩ := read_lo hrem6 (by omega)
  refine ⟨l5, c5, ?_⟩
  simp only [parseValue]
  rw [if_neg (by omega : ¬ (p.read).1 = 123), if_pos hv91, hread, hf2]
  simp only [parseArray]
  rw [hws]
  try simp only
  rw [hloop]
  try simp only
  rw [hf3]
  simp only [parseArrLoop]
  rw [if_neg (by simp [hE5]), if_pos hpk5]
  try simp only
  rw [hws0r]
  try simp only
  rw [if_pos hv93, hread93]
  congr 3
  simp
  omega

theorem runV_obj {ms : List (List Nat × Elem)} {t ws0 ws1 : List Nat}
    (hw0 : WsL ws0) (hms : JMems ms t) (hw1 : WsL ws1) (hMa : RunMa ms t) :
    RunV (.object ms) (123 :: (ws0 ++ t ++ ws1 ++ [125])) := by
  intro fuel p rest hrem hnum hfuel
  simp only [List.length_cons, List.length_append] at hfuel
  obtain ⟨f, rfl⟩ : ∃ f, fuel = f + 1 := ⟨fuel - 1, by omega⟩
  obtain ⟨f2, hf2⟩ : ∃ f2, f = f2 + 1 := ⟨f - 1, by omega⟩
  have hrem2 : p.rem = 123 :: (ws0 ++ (t ++ (ws1 ++ 125 :: rest))) := by
    rw [hrem]
    simp
  obtain ⟨hv123, l1, c1, hread⟩ := read_lo hrem2 (by omega)
  have hrem3 : (Rdr.mk p.s l1 c1 (p.off + 1)).rem = ws0 ++ (t ++ (ws1 ++ 125 :: rest)) :=
    rem_at (w := [123]) (by simpa using hrem2) l1 c1 1 (by simp)
  obtain ⟨l2, c2, hws⟩ := eatWs_run hw0 (JMems_WsStop hms) hrem3
  simp only at hws
  have hrem4 : (Rdr.mk p.s l2 c2 (p.off + 1 + ws0.length)).rem =
      t ++ (ws1 ++ 125 :: rest) :=
    rem_advance (p := Rdr.mk p.s l1 c1 (p.off + 1)) hrem3 l2 c2
  obtain ⟨l3, c3, hloop, hlen1, hlen2⟩ := hMa f2
    (Rdr.mk p.s l2 c2 (p.off + 1 + ws0.length)) ws1 (125 :: rest) hw1
    (WsStop_cons (by simp [isWsB])) (NumStop_ws hw1 NumStop_of_head125) hrem4 (by omega)
  simp only at hloop
  have hrem5 : (Rdr.mk p.s l3 c3
      (p.off + 1 + ws0.length + (t.length + ws1.length))).rem = 125 :: rest := by
    have h6 := rem_at (p := Rdr.mk p.s l2 c2 (p.off + 1 + ws0.length)) (w := t ++ ws1)
      ((by rw [hrem4]; simp) :
        (Rdr.mk p.s l2 c2 (p.off + 1 + ws0.length)).rem = (t ++ ws1) ++ (125 :: rest))
      l3 c3 (t.length + ws1.length) (by simp)
    simpa using h6
  obtain ⟨f3, hf3⟩ : ∃ f3, f2 - ms.length = f3 + 1 :=
    ⟨f2 - ms.length - 1, by omega⟩
  have hE5 := not_eof_of_rem_cons hrem5
  have hpk5 : ((Rdr.mk p.s l3 c3
      (p.off + 1 + ws0.length + (t.length + ws1.length))).peek).1 = 125 := by
    rw [peek_lo hrem5 (by omega)]
  obtain ⟨hv125, l5, c5, hread125⟩ := read_lo hrem5 (by omega)
  refine ⟨l5, c5, ?_⟩
  simp only [parseValue]
  rw [if_pos hv123, hread, hf2]
  simp only [parseObject]
  rw [hws]
  try simp only
  rw [hloop]
  try simp only
  rw [hf3]
  simp only [parseObjLoop]
  rw [if_neg (by simp [hE5]), if_pos hpk5]
  try simp only
  rw [if_pos hv125, hread125]
  congr 3
  simp
  omega

theorem runEa_one {e : Elem} {w : List Nat} (hv : JVal e w) (hrv : RunV e w) :
    RunEa [e] w := by
  intro fuel p wsE rest hwsE hstop hnum hrem hfuel
  obtain ⟨f, rfl⟩ : ∃ f, fuel = f + 1 := ⟨fuel - 1, by omega⟩
  obtain ⟨d, w2, he, hd⟩ := JVal_head hv
  have hrem2 : p.rem = d :: (w2 ++ (wsE ++ rest)) := by
    rw [hrem, he]
    simp
  have hE := not_eof_of_rem_cons hrem2
  have hpk : p.peek = (d, 1) := peek_lo hrem2 (by omega)
  have hpk93 : ¬ (p.peek).1 = 93 := by
    rw [hpk]
    simp
    omega
  obtain ⟨l1, c1, hval⟩ := hrv f p (wsE ++ rest) hrem hnum (by omega)
  have hrem3 : (Rdr.mk p.s l1 c1 (p.off + w.length)).rem = wsE ++ rest :=
    rem_advance hrem l1 c1
  obtain ⟨l2, c2, hws⟩ := eatWs_run hwsE hstop hrem3
  simp only at hws
  have hw1 : 1 ≤ w.length := by rw [he]; simp
  refine ⟨l2, c2, ?_, by simpa using hw1, by simp⟩
  simp only [parseArrLoop]
  rw [if_neg (by simp [hE]), if_neg hpk93, if_pos List.isEmpty_nil]
  try simp only
  rw [hval]
  try simp only
  rw [hws]
  try simp only
  have hoff : p.off + (w.length + wsE.length) = p.off + w.length + wsE.length := by omega
  rw [hoff]
  simp

theorem runEa_cons {e : Elem} {w ws1 ws2 t : List Nat} {es : List Elem}
    (hv : JVal e w) (hrv : RunV e w) (hws1 : WsL ws1) (hws2 : WsL ws2)
    (ht : JEls es t) (hEb : RunEb es t) :
    RunEa (e :: es) (w ++ ws1 ++ [44] ++ ws2 ++ t) := by
  intro fuel p wsE rest hwsE hstop hnum hrem hfuel
  simp only [List.length_append] at hfuel
  obtain ⟨f, rfl⟩ : ∃ f, fuel = f + 1 := ⟨fuel - 1, by omega⟩
  obtain ⟨d, w2, he, hd⟩ := JVal_head hv
  have hw1l : 1 ≤ w.length := by rw [he]; simp
  have hrem2 : p.rem = d :: (w2 ++ (ws1 ++ 44 :: (ws2 ++ (t ++ (wsE ++ rest))))) := by
    rw [hrem, he]
    simp
  have hE := not_eof_of_rem_cons hrem2
  have hpk : p.peek = (d, 1) := peek_lo hrem2 (by omega)
  have hpk93 : ¬ (p.peek).1 = 93 := by
    rw [hpk]
    simp
    omega
  have hremw : p.rem = w ++ (ws1 ++ 44 :: (ws2 ++ (t ++ (wsE ++ rest)))) := by
    rw [hrem]
    simp
  obtain ⟨l1, c1, hval⟩ := hrv f p (ws1 ++ 44 :: (ws2 ++ (t ++ (wsE ++ rest)))) hremw
    (NumStop_ws hws1 NumStop_of_head44) (by omega)
  have hrem3 : (Rdr.mk p.s l1 c1 (p.off + w.length)).rem =
      ws1 ++ 44 :: (ws2 ++ (t ++ (wsE ++ rest))) :=
    rem_advance hremw l1 c1
  obtain ⟨l2, c2, hwsa⟩ := eatWs_run hws1 (WsStop_cons (by simp [isWsB])) hrem3
  simp only at hwsa
  have hrem4 : (Rdr.mk p.s l2 c2 (p.off + w.length + ws1.length)).rem =
      44 :: (ws2 ++ (t ++ (wsE ++ rest))) :=
    rem_advance (p := Rdr.mk p.s l1 c1 (p.off + w.length)) hrem3 l2 c2
  obtain ⟨l3, c3, hloop, hlen1, hlen2⟩ := hEb f
    (Rdr.mk p.s l2 c2 (p.off + w.length + ws1.length)) ws2 wsE rest [e]
    hws2 hwsE hstop hnum (by simp) hrem4 (by omega)
  simp only at hloop
  refine ⟨l3, c3, ?_, by simp; omega, by simp⟩
  simp only [parseArrLoop]
  rw [if_neg (by simp [hE]), if_neg hpk93, if_pos List.isEmpty_nil]
  try simp only
  rw [hval]
  try simp only
  rw [hwsa]
  try simp only
  simp only [List.nil_append]
  rw [hloop]
  have hfe : f - es.length = f + 1 - (e :: es).length := by simp
  have hoff : p.off + w.length + ws1.length + (1 + ws2.length + (t.length + wsE.length))
      = p.off + ((w ++ ws1 ++ [44] ++ ws2 ++ t).length + wsE.length) := by
    simp
    omega
  rw [hfe, hoff]
  simp

theorem runEb_one {e : Elem} {w : List Nat} (hv : JVal e w) (hrv : RunV e w) :
    RunEb [e] w := by
  intro fuel p ws2 wsE rest prev hws2 hwsE hstop hnum hprev hrem hfuel
  obtain ⟨f, rfl⟩ : ∃ f, fuel = f + 1 := ⟨fuel - 1, by omega⟩
  have hE := not_eof_of_rem_cons hrem
  have hpk : p.peek = (44, 1) := peek_lo hrem (by omega)
  have hpk93 : ¬ (p.peek).1 = 93 := by
    rw [hpk]
    simp
  obtain ⟨hr44, l1, c1, hread⟩ := read_lo hrem (by omega)
  have hrem1 : (Rdr.mk p.s l1 c1 (p.off + 1)).rem = ws2 ++ (w ++ (wsE ++ rest)) :=
    rem_at (w := [44]) (by simpa using hrem) l1 c1 1 (by simp)
  obtain ⟨l2, c2, hwsa⟩ := eatWs_run hws2 (WsStop_of_head hv) hrem1
  simp only at hwsa
  have hrem2 : (Rdr.mk p.s l2 c2 (p.off + 1 + ws2.length)).rem = w ++ (wsE ++ rest) :=
    rem_advance (p := Rdr.mk p.s l1 c1 (p.off + 1)) hrem1 l2 c2
  obtain ⟨l3, c3, hval⟩ := hrv f (Rdr.mk p.s l2 c2 (p.off + 1 + ws2.length))
    (wsE ++ rest) hrem2 hnum (by omega)
  simp only at hval
  have hrem3 : (Rdr.mk p.s l3 c3 (p.off + 1 + ws2.length + w.length)).rem = wsE ++ rest :=
    rem_advance (p := Rdr.mk p.s l2 c2 (p.off + 1 + ws2.length)) hrem2 l3 c3
  obtain ⟨l4, c4, hwse⟩ := eatWs_run hwsE hstop hrem3
  simp only at hwse
  obtain ⟨d, w2, he, hd⟩ := JVal_head hv
  have hw1 : 1 ≤ w.length := by rw [he]; simp
  refine ⟨l4, c4, ?_, by simpa using hw1, by simp⟩
  simp only [parseArrLoop]
  rw [if_neg (by simp [hE]), if_neg hpk93,
    if_neg (by simp [isEmpty_false_of_ne hprev]), if_pos hr44, hread]
  try simp only
  rw [hwsa]
  try simp only
  rw [hval]
  try simp only
  rw [hwse]
  try simp only
  have hoff : p.off + (1 + ws2.length + (w.length + wsE.length))
      = p.off + 1 + ws2.length + w.length + wsE.length := by omega
  rw [hoff]
  simp

theorem runEb_cons {e : Elem} {w ws3 ws4 t : List Nat} {es : List Elem}
    (hv : JVal e w) (hrv : RunV e w) (hws3 : WsL ws3) (hws4 : WsL ws4)
    (ht : JEls es t) (hEb : RunEb es t) :
    RunEb (e :: es) (w ++ ws3 ++ [44] ++ ws4 ++ t) := by
  intro fuel p ws2 wsE rest prev hws2 hwsE hstop hnum hprev hrem hfuel
  simp only [List.length_append] at hfuel
  obtain ⟨f, rfl⟩ : ∃ f, fuel = f + 1 := ⟨fuel - 1, by omega⟩
  obtain ⟨d, w2, he, hd⟩ := JVal_head hv
  have hw1l : 1 ≤ w.length := by rw [he]; simp
  have hE := not_eof_of_rem_cons hrem
  have hpk : p.peek = (44, 1) := peek_lo hrem (by omega)
  have hpk93 : ¬ (p.peek).1 = 93 := by
    rw [hpk]
    simp
  obtain ⟨hr44, l1, c1, hread⟩ := read_lo hrem (by omega)
  have hrem1 : (Rdr.mk p.s l1 c1 (p.off + 1)).rem =
      ws2 ++ (w ++ (ws3 ++ 44 :: (ws4 ++ (t ++ (wsE ++ rest))))) :=
    rem_at (w := [44]) (by rw [hrem]; simp) l1 c1 1 (by simp)
  obtain ⟨l2, c2, hwsa⟩ := eatWs_run hws2 (WsStop_of_head hv) hrem1
  simp only at hwsa
  have hrem2 : (Rdr.mk p.s l2 c2 (p.off + 1 + ws2.length)).rem =
      w ++ (ws3 ++ 44 :: (ws4 ++ (t ++ (wsE ++ rest)))) :=
    rem_advance (p := Rdr.mk p.s l1 c1 (p.off + 1)) hrem1 l2 c2
  obtain ⟨l3, c3, hval⟩ := hrv f (Rdr.mk p.s l2 c2 (p.off + 1 + ws2.length))
    (ws3 ++ 44 :: (ws4 ++ (t ++ (wsE ++ rest)))) hrem2
    (NumStop_ws hws3 NumStop_of_head44) (by omega)
  simp only at hval
  have hrem3 : (Rdr.mk p.s l3 c3 (p.off + 1 + ws2.length + w.length)).rem =
      ws3 ++ 44 :: (ws4 ++ (t ++ (wsE ++ rest))) :=
    rem_advance (p := Rdr.mk p.s l2 c2 (p.off + 1 + ws2.length)) hrem2 l3 c3
  obtain ⟨l4, c4, hwsb⟩ := eatWs_run hws3 (WsStop_cons (by simp [isWsB])) hrem3
  simp only at hwsb
  have hrem4 : (Rdr.mk p.s l4 c4 (p.off + 1 + ws2.length + w.length + ws3.length)).rem =
      44 :: (ws4 ++ (t ++ (wsE ++ rest))) :=
    rem_advance (p := Rdr.mk p.s l3 c3 (p.off + 1 + ws2.length + w.length)) hrem3 l4 c4
  obtain ⟨l5, c5, hloop, hlen1, hlen2⟩ := hEb f
    (Rdr.mk p.s l4 c4 (p.off + 1 + ws2.length + w.length + ws3.length)) ws4 wsE rest
    (prev ++ [e]) hws4 hwsE hstop hnum (by simp) hrem4 (by omega)
  simp only at hloop
  refine ⟨l5, c5, ?_, by simp; omega, by simp⟩
  simp only [parseArrLoop]
  rw [if_neg (by simp [hE]), if_neg hpk93,
    if_neg (by simp [isEmpty_false_of_ne hprev]), if_pos hr44, hread]
  try simp only
  rw [hwsa]
  try simp only
  rw [hval]
  try simp only
  rw [hwsb]
  try simp only
  rw [hloop]
  have hfe : f - es.length = f + 1 - (e :: es).length := by simp
  have hoff : p.off + 1 + ws2.length + w.length + ws3.length +
      (1 + ws4.length + (t.length + wsE.length))
      = p.off + (1 + ws2.length + ((w ++ ws3 ++ [44] ++ ws4 ++ t).length + wsE.length)) := by
    simp
    omega
  rw [hfe, hoff]
  simp

theorem runMa_one {k ws1 ws2 w : List Nat} {v : Elem}
    (hk : Body k) (hws1 : WsL ws1) (hws2 : WsL ws2) (hv : JVal v w) (hrv : RunV v w) :
    RunMa [(k, v)] (34 :: (k ++ [34] ++ ws1 ++ [58] ++ ws2 ++ w)) := by
  intro fuel p wsE rest hwsE hstop hnum hrem hfuel
  simp only [List.length_cons, List.length_append] at hfuel
  obtain ⟨f, rfl⟩ : ∃ f, fuel = f + 1 := ⟨fuel - 1, by omega⟩
  have hrem2 : p.rem =
      34 :: ((k ++ [34] ++ ws1 ++ [58] ++ ws2 ++ w) ++ (wsE ++ rest)) := by
    rw [hrem]
    simp
  have hE := not_eof_of_rem_cons hrem2
  have hpk : p.peek = (34, 1) := peek_lo hrem2 (by omega)
  have hpk125 : ¬ (p.peek).1 = 125 := by
    rw [hpk]
    simp
  obtain ⟨l1, c1, hmem⟩ := (parseMember_run hk hws1 hws2 hwsE hv hstop hnum
      (fun f2 q r2 hq hn hf => hrv f2 q r2 hq hn hf) (by rw [hrem]; simp) (by omega) :
    ∃ l c, parseMember f p = .ok (some (k, v), ⟨p.s, l, c,
      p.off + ((34 :: (k ++ [34] ++ ws1 ++ [58] ++ ws2 ++ w)).length + wsE.length)⟩))
  refine ⟨l1, c1, ?_, by simp, by simp⟩
  simp only [parseObjLoop]
  rw [if_neg (by simp [hE]), if_neg hpk125, if_pos List.isEmpty_nil]
  try simp only
  rw [hmem]
  try simp only
  simp

theorem runMb_one {k ws1 ws2 w : List Nat} {v : Elem}
    (hk : Body k) (hws1 : WsL ws1) (hws2 : WsL ws2) (hv : JVal v w) (hrv : RunV v w) :
    RunMb [(k, v)] (34 :: (k ++ [34] ++ ws1 ++ [58] ++ ws2 ++ w)) := by
  intro fuel p wsc wsE rest prev hwsc hwsE hstop hnum hprev hrem hfuel
  simp only [List.length_cons, List.length_append] at hfuel
  obtain ⟨f, rfl⟩ : ∃ f, fuel = f + 1 := ⟨fuel - 1, by omega⟩
  have hE := not_eof_of_rem_cons hrem
  have hpk : p.peek = (44, 1) := peek_lo hrem (by omega)
  have hpk125 : ¬ (p.peek).1 = 125 := by
    rw [hpk]
    simp
  obtain ⟨hr44, l1, c1, hread⟩ := read_lo hrem (by omega)
  have hrem1 : (Rdr.mk p.s l1 c1 (p.off + 1)).rem =
      wsc ++ ((34 :: (k ++ [34] ++ ws1 ++ [58] ++ ws2 ++ w)) ++ (wsE ++ rest)) :=
    rem_at (w := [44]) (by rw [hrem]; simp) l1 c1 1 (by simp)
  obtain ⟨l2, c2, hwsa⟩ := eatWs_run hwsc (WsStop_cons (by simp [isWsB])) hrem1
  simp only at hwsa
  have hrem2 : (Rdr.mk p.s l2 c2 (p.off + 1 + wsc.length)).rem =
      (34 :: (k ++ [34] ++ ws1 ++ [58] ++ ws2 ++ w)) ++ (wsE ++ rest) :=
    rem_advance (p := Rdr.mk p.s l1 c1 (p.off + 1)) hrem1 l2 c2
  obtain ⟨l3, c3, hmem⟩ := (parseMember_run hk hws1 hws2 hwsE hv hstop hnum
      (fun f2 q r2 hq hn hf => hrv f2 q r2 hq hn hf)
      (by rw [hrem2]; simp) (by omega) :
    ∃ l c, parseMember f (Rdr.mk p.s l2 c2 (p.off + 1 + wsc.length)) =
      .ok (some (k, v), ⟨p.s, l, c, p.off + 1 + wsc.length +
        ((34 :: (k ++ [34] ++ ws1 ++ [58] ++ ws2 ++ w)).length + wsE.length)⟩))
  refine ⟨l3, c3, ?_, by simp, by simp⟩
  simp only [parseObjLoop]
  rw [if_neg (by simp [hE]), if_neg hpk125,
    if_neg (by simp [isEmpty_false_of_ne hprev]), if_pos hr44, hread]
  try simp only
  rw [hwsa]
  try simp only
  rw [hmem]
  try simp only
  have hoff : p.off + (1 + wsc.length +
      ((34 :: (k ++ [34] ++ ws1 ++ [58] ++ ws2 ++ w)).length + wsE.length))
      = p.off + 1 + wsc.length +
      ((34 :: (k ++ [34] ++ ws1 ++ [58] ++ ws2 ++ w)).length + wsE.length) := by omega
  rw [hoff]
  simp

theorem runMa_cons {k ws1 ws2 w ws3 ws4 t : List Nat} {v : Elem}
    {ms : List (List Nat × Elem)}
    (hk : Body k) (hws1 : WsL ws1) (hws2 : WsL ws2) (hv : JVal v w) (hrv : RunV v w)
    (hws3 : WsL ws3) (hws4 : WsL ws4) (ht : JMems ms t) (hMb : RunMb ms t) :
    RunMa ((k, v) :: ms)
      (34 :: (k ++ [34] ++ ws1 ++ [58] ++ ws2 ++ w ++ ws3 ++ [44] ++ ws4 ++ t)) := by
  intro fuel p wsE rest hwsE hstop hnum hrem hfuel
  simp only [List.length_cons, List.length_append] at hfuel
  obtain ⟨f, rfl⟩ : ∃ f, fuel = f + 1 := ⟨fuel - 1, by omega⟩
  have hrem2 : p.rem =
      34 :: ((k ++ [34] ++ ws1 ++ [58] ++ ws2 ++ w ++ ws3 ++ [44] ++ ws4 ++ t) ++
        (wsE ++ rest)) := by
    rw [hrem]
    simp
  have hE := not_eof_of_rem_cons hrem2
  have hpk : p.peek = (34, 1) := peek_lo hrem2 (by omega)
  have hpk125 : ¬ (p.peek).1 = 125 := by
    rw [hpk]
    simp
  obtain ⟨l1, c1, hmem⟩ := (parseMember_run hk hws1 hws2 hws3 hv
      (WsStop_cons (by simp [isWsB])) (NumStop_ws hws3 NumStop_of_head44)
      (fun f2 q r2 hq hn hf => hrv f2 q r2 hq hn hf)
      ((by rw [hrem]; simp) : p.rem =
        (34 :: (k ++ [34] ++ ws1 ++ [58] ++ ws2 ++ w)) ++ ws3 ++
          (44 :: (ws4 ++ (t ++ (wsE ++ rest))))) (by omega) :
    ∃ l c, parseMember f p = .ok (some (k, v), ⟨p.s, l, c,
      p.off + ((34 :: (k ++ [34] ++ ws1 ++ [58] ++ ws2 ++ w)).length + ws3.length)⟩))
  have hrem3 : (Rdr.mk p.s l1 c1
      (p.off + ((34 :: (k ++ [34] ++ ws1 ++ [58] ++ ws2 ++ w)).length + ws3.length))).rem =
      44 :: (ws4 ++ (t ++ (wsE ++ rest))) :=
    rem_at (w := (34 :: (k ++ [34] ++ ws1 ++ [58] ++ ws2 ++ w)) ++ ws3)
      ((by rw [hrem]; simp) : p.rem =
        ((34 :: (k ++ [34] ++ ws1 ++ [58] ++ ws2 ++ w)) ++ ws3) ++
          (44 :: (ws4 ++ (t ++ (wsE ++ rest)))))
      l1 c1 _ (by simp; omega)
  obtain ⟨l2, c2, hloop, hlen1, hlen2⟩ := hMb f
    (Rdr.mk p.s l1 c1
      (p.off + ((34 :: (k ++ [34] ++ ws1 ++ [58] ++ ws2 ++ w)).length + ws3.length)))
    ws4 wsE rest [(k, v)] hws4 hwsE hstop hnum (by simp) hrem3 (by omega)
  simp only at hloop
  refine ⟨l2, c2, ?_, by simp; omega, by simp⟩
  simp only [parseObjLoop]
  rw [if_neg (by simp [hE]), if_neg hpk125, if_pos List.isEmpty_nil]
  try simp only
  rw [hmem]
  try simp only
  simp only [List.nil_append]
  rw [hloop]
  have hfe : f - ms.length = f + 1 - ((k, v) :: ms).length := by simp
  have hoff : p.off + ((34 :: (k ++ [34] ++ ws1 ++ [58] ++ ws2 ++ w)).length + ws3.length) +
      (1 + ws4.length + (t.length + wsE.length))
      = p.off + ((34 :: (k ++ [34] ++ ws1 ++ [58] ++ ws2 ++ w ++ ws3 ++ [44] ++ ws4 ++
        t)).length + wsE.length) := by
    simp
    omega
  rw [hfe, hoff]
  simp

theorem runMb_cons {k ws1 ws2 w ws3 ws4 t : List Nat} {v : Elem}
    {ms : List (List Nat × Elem)}
    (hk : Body k) (hws1 : WsL ws1) (hws2 : WsL ws2) (hv : JVal v w) (hrv : RunV v w)
    (hws3 : WsL ws3) (hws4 : WsL ws4) (ht : JMems ms t) (hMb : RunMb ms t) :
    RunMb ((k, v) :: ms)
      (34 :: (k ++ [34] ++ ws1 ++ [58] ++ ws2 ++ w ++ ws3 ++ [44] ++ ws4 ++ t)) := by
  intro fuel p wsc wsE rest prev hwsc hwsE hstop hnum hprev hrem hfuel
  simp only [List.length_cons, List.length_append] at hfuel
  obtain ⟨f, rfl⟩ : ∃ f, fuel = f + 1 := ⟨fuel - 1, by omega⟩
  have hE := not_eof_of_rem_cons hrem
  have hpk : p.peek = (44, 1) := peek_lo hrem (by omega)
  have hpk125 : ¬ (p.peek).1 = 125 := by
    rw [hpk]
    simp
  obtain ⟨hr44, l1, c1, hread⟩ := read_lo hrem (by omega)
  have hrem1 : (Rdr.mk p.s l1 c1 (p.off + 1)).rem =
      wsc ++ ((34 :: (k ++ [34] ++ ws1 ++ [58] ++ ws2 ++ w ++ ws3 ++ [44] ++ ws4 ++ t)) ++
        (wsE ++ rest)) :=
    rem_at (w := [44]) (by rw [hrem]; simp) l1 c1 1 (by simp)
  obtain ⟨l2, c2, hwsa⟩ := eatWs_run hwsc (WsStop_cons (by simp [isWsB])) hrem1
  simp only at hwsa
  have hrem2 : (Rdr.mk p.s l2 c2 (p.off + 1 + wsc.length)).rem =
      (34 :: (k ++ [34] ++ ws1 ++ [58] ++ ws2 ++ w ++ ws3 ++ [44] ++ ws4 ++ t)) ++
        (wsE ++ rest) :=
    rem_advance (p := Rdr.mk p.s l1 c1 (p.off + 1)) hrem1 l2 c2
  obtain ⟨l3, c3, hmem⟩ := (parseMember_run hk hws1 hws2 hws3 hv
      (WsStop_cons (by simp [isWsB])) (NumStop_ws hws3 NumStop_of_head44)
      (fun f2 q r2 hq hn hf => hrv f2 q r2 hq hn hf)
      ((by rw [hrem2]; simp) : (Rdr.mk p.s l2 c2 (p.off + 1 + wsc.length)).rem =
        (34 :: (k ++ [34] ++ ws1 ++ [58] ++ ws2 ++ w)) ++ ws3 ++
          (44 :: (ws4 ++ (t ++ (wsE ++ rest))))) (by omega) :
    ∃ l c, parseMember f (Rdr.mk p.s l2 c2 (p.off + 1 + wsc.length)) =
      .ok (some (k, v), ⟨p.s, l, c, p.off + 1 + wsc.length +
        ((34 :: (k ++ [34] ++ ws1 ++ [58] ++ ws2 ++ w)).length + ws3.length)⟩))
  have hrem3 : (Rdr.mk p.s l3 c3 (p.off + 1 + wsc.length +
      ((34 :: (k ++ [34] ++ ws1 ++ [58] ++ ws2 ++ w)).length + ws3.length))).rem =
      44 :: (ws4 ++ (t ++ (wsE ++ rest))) :=
    rem_at (p := Rdr.mk p.s l2 c2 (p.off + 1 + wsc.length))
      (w := (34 :: (k ++ [34] ++ ws1 ++ [58] ++ ws2 ++ w)) ++ ws3)
      ((by rw [hrem2]; simp) : (Rdr.mk p.s l2 c2 (p.off + 1 + wsc.length)).rem =
        ((34 :: (k ++ [34] ++ ws1 ++ [58] ++ ws2 ++ w)) ++ ws3) ++
          (44 :: (ws4 ++ (t ++ (wsE ++ rest)))))
      l3 c3 _ (by simp; omega)
  obtain ⟨l4, c4, hloop, hlen1, hlen2⟩ := hMb f
    (Rdr.mk p.s l3 c3 (p.off + 1 + wsc.length +
      ((34 :: (k ++ [34] ++ ws1 ++ [58] ++ ws2 ++ w)).length + ws3.length)))
    ws4 wsE rest (prev ++ [(k, v)]) hws4 hwsE hstop hnum (by simp) hrem3 (by omega)
  simp only at hloop
  refine ⟨l4, c4, ?_, by simp; omega, by simp⟩
  simp only [parseObjLoop]
  rw [if_neg (by simp [hE]), if_neg hpk125,
    if_neg (by simp [isEmpty_false_of_ne hprev]), if_pos hr44, hread]
  try simp only
  rw [hwsa]
  try simp only
  rw [hmem]
  try simp only
  rw [hloop]
  have hfe : f - ms.length = f + 1 - ((k, v) :: ms).length := by simp
  have hoff : p.off + 1 + wsc.length +
      ((34 :: (k ++ [34] ++ ws1 ++ [58] ++ ws2 ++ w)).length + ws3.length) +
      (1 + ws4.length + (t.length + wsE.length))
      = p.off + (1 + wsc.length +
        ((34 :: (k ++ [34] ++ ws1 ++ [58] ++ ws2 ++ w ++ ws3 ++ [44] ++ ws4 ++
          t)).length + wsE.length)) := by
    simp
    omega
  rw [hfe, hoff]
  simp

/-- Mutual completeness package, by strong induction on the length of the
grammar text: `parseValue` accepts every value text, and both container
loops traverse every comma-separated list text. -/
theorem complete_all : ∀ n : Nat,
    (∀ e w, JVal e w → w.length ≤ n → RunV e w) ∧
    (∀ es t, JEls es t → t.length ≤ n → RunEb es t) ∧
    (∀ es t, JEls es t → t.length ≤ n → RunEa es t) ∧
    (∀ ms t, JMems ms t → t.length ≤ n → RunMb ms t) ∧
    (∀ ms t, JMems ms t → t.length ≤ n → RunMa ms t) := by
  intro n
  induction n using Nat.strong_induction_on with
  | _ n ih =>
  have hV : ∀ e w, JVal e w → w.length ≤ n → RunV e w := by
    intro e w hv hlen
    cases hv with
    | jnull => exact runV_null
    | jtrue => exact runV_true
    | jfalse => exact runV_false
    | jnum hn => exact runV_num hn
    | jstr hb => exact runV_str hb
    | jarrNil hw => exact runV_arrNil hw
    | @jarr es t ws0 ws1 hw0 hels hw1 =>
      have htl : t.length < n := by
        simp only [List.length_cons, List.length_append, List.length_nil] at hlen
        omega
      exact runV_arr hw0 hels hw1 ((ih t.length htl).2.2.1 es t hels (le_refl _))
    | jobjNil hw => exact runV_objNil hw
    | @jobj ms t ws0 ws1 hw0 hms hw1 =>
      have htl : t.length < n := by
        simp only [List.length_cons, List.length_append, List.length_nil] at hlen
        omega
      exact runV_obj hw0 hms hw1 ((ih t.length htl).2.2.2.2 ms t hms (le_refl _))
  have hEb : ∀ es t, JEls es t → t.length ≤ n → RunEb es t := by
    intro es t hels hlen
    cases hels with
    | one hv => exact runEb_one hv (hV _ _ hv hlen)
    | @cons e w ws1 ws2 es2 t2 hv hw1 hw2 ht2 =>
      have h1 : w.length ≤ n := by
        simp only [List.length_append, List.length_cons, List.length_nil] at hlen
        omega
      have h2 : t2.length < n := by
        simp only [List.length_append, List.length_cons, List.length_nil] at hlen
        omega
      exact runEb_cons hv (hV _ _ hv h1) hw1 hw2 ht2
        ((ih t2.length h2).2.1 es2 t2 ht2 (le_refl _))
  have hEa : ∀ es t, JEls es t → t.length ≤ n → RunEa es t := by
    intro es t hels hlen
    cases hels with
    | one hv => exact runEa_one hv (hV _ _ hv hlen)
    | @cons e w ws1 ws2 es2 t2 hv hw1 hw2 ht2 =>
      have h1 : w.length ≤ n := by
        simp only [List.length_append, List.length_cons, List.length_nil] at hlen
        omega
      have h2 : t2.length < n := by
        simp only [List.length_append, List.length_cons, List.length_nil] at hlen
        omega
      exact runEa_cons hv (hV _ _ hv h1) hw1 hw2 ht2
        ((ih t2.length h2).2.1 es2 t2 ht2 (le_refl _))
  have hMb : ∀ ms t, JMems ms t → t.length ≤ n → RunMb ms t := by
    intro ms t hmems hlen
    cases hmems with
    | @one k ws1 ws2 v w hk hw1 hw2 hv =>
      have h1 : w.length ≤ n := by
        simp only [List.length_cons, List.length_append, List.length_nil] at hlen
        omega
      exact runMb_one hk hw1 hw2 hv (hV _ _ hv h1)
    | @cons k ws1 ws2 v w ws3 ws4 ms2 t2 hk hw1 hw2 hv hw3 hw4 ht2 =>
      have h1 : w.length ≤ n := by
        simp only [List.length_cons, List.length_append, List.length_nil] at hlen
        omega
      have h2 : t2.length < n := by
        simp only [List.length_cons, List.length_append, List.length_nil] at hlen
        omega
      exact runMb_cons hk hw1 hw2 hv (hV _ _ hv h1) hw3 hw4 ht2
        ((ih t2.length h2).2.2.2.1 ms2 t2 ht2 (le_refl _))
  have hMa : ∀ ms t, JMems ms t → t.length ≤ n → RunMa ms t := by
    intro ms t hmems hlen
    cases hmems with
    | @one k ws1 ws2 v w hk hw1 hw2 hv =>
      have h1 : w.length ≤ n := by
        simp only [List.length_cons, List.length_append, List.length_nil] at hlen
        omega
      exact runMa_one hk hw1 hw2 hv (hV _ _ hv h1)
    | @cons k ws1 ws2 v w ws3 ws4 ms2 t2 hk hw1 hw2 hv hw3 hw4 ht2 =>
      have h1 : w.length ≤ n := by
        simp only [List.length_cons, List.length_append, List.length_nil] at hlen
        omega
      have h2 : t2.length < n := by
        simp only [List.length_cons, List.length_append, List.length_nil] at hlen
        omega
      exact runMa_cons hk hw1 hw2 hv (hV _ _ hv h1) hw3 hw4 ht2
        ((ih t2.length h2).2.2.2.1 ms2 t2 ht2 (le_refl _))
  exact ⟨hV, hEb, hEa, hMb, hMa⟩

/-- Every grammar value text is accepted by `parseValue` (packaged form of
the induction). -/
theorem jval_runV {e : Elem} {w : List Nat} (hv : JVal e w) : RunV e w :=
  (complete_all w.length).1 e w hv (le_refl _)

/-- `parser.parse` on `ws value ws` builds exactly the derivation's element
and leaves the scanner's cursor at end of input. -/
theorem parseFull_run {x ws1 w ws2 : List Nat} {e : Elem}
    (hws1 : WsL ws1) (hws2 : WsL ws2) (hv : JVal e w) (hx : x = ws1 ++ w ++ ws2) :
    ∃ l c, parseFull x = .ok (e, ⟨x, l, c, x.length⟩) := by
  have hxlen : x.length = ws1.length + w.length + ws2.length := by
    rw [hx]
    simp
    omega
  have hrem0 : (mkRdr x).rem = ws1 ++ (w ++ ws2) := by
    simp [mkRdr, Rdr.rem, hx]
  obtain ⟨l1, c1, hws⟩ := eatWs_run hws1 (WsStop_of_head hv) hrem0
  simp only [mkRdr] at hws
  have hrem1 : (Rdr.mk x l1 c1 (0 + ws1.length)).rem = w ++ ws2 :=
    rem_at (p := mkRdr x) hrem0 l1 c1 ws1.length rfl
  have hns : NumStop ws2 := by
    have h9 := NumStop_ws (r := []) hws2 (fun b hb => by simp at hb)
    simpa using h9
  obtain ⟨l2, c2, hval⟩ := jval_runV hv (initFuel x.length)
    (Rdr.mk x l1 c1 (0 + ws1.length)) ws2 hrem1 hns
    (by simp only [initFuel]; omega)
  simp only at hval
  have hr2 : (Rdr.mk x l2 c2 (0 + ws1.length + w.length)).rem = ws2 :=
    rem_advance (p := Rdr.mk x l1 c1 (0 + ws1.length)) hrem1 l2 c2
  obtain ⟨l3, c3, hwsE⟩ := eatWs_run hws2 (fun b hb => by simp at hb)
    ((by rw [List.append_nil]; exact hr2) :
      (Rdr.mk x l2 c2 (0 + ws1.length + w.length)).rem = ws2 ++ [])
  simp only at hwsE
  have hEOF : (Rdr.mk x l3 c3 (0 + ws1.length + w.length + ws2.length)).isEOF = true := by
    simp [Rdr.isEOF]
    omega
  refine ⟨l3, c3, ?_⟩
  simp only [parseFull, parseRoot, mkRdr]
  rw [hws]
  try simp only
  rw [hval]
  try simp only
  rw [hwsE]
  try simp only
  rw [if_pos hEOF]
  congr 3
  omega

/-- `parser.parse` accepts every RFC 8259 valid JSON text and leaves the
scanner's cursor exactly at end of input. -/
theorem parseFull_complete {x : List Nat} (h : ValidJson x) :
    ∃ e l c, parseFull x = .ok (e, ⟨x, l, c, x.length⟩) := by
  obtain ⟨ws1, w, ws2, e, hws1, hws2, hv, hx⟩ := h
  obtain ⟨l, c, hr⟩ := parseFull_run hws1 hws2 hv hx
  exact ⟨e, l, c, hr⟩

/-- Any grammar member list (member order and duplicate keys entirely
unconstrained) parses to exactly that member sequence, in source order. -/
theorem parse_obj_members {ws0 t ws1 : List Nat} {ms : List (List Nat × Elem)}
    (hw0 : WsL ws0) (hms : JMems ms t) (hw1 : WsL ws1) :
    ∃ l c, parseFull (123 :: (ws0 ++ t ++ ws1 ++ [125])) =
      .ok (.object ms, ⟨123 :: (ws0 ++ t ++ ws1 ++ [125]), l, c,
        (123 :: (ws0 ++ t ++ ws1 ++ [125])).length⟩) :=
  @parseFull_run (123 :: (ws0 ++ t ++ ws1 ++ [125])) [] (123 :: (ws0 ++ t ++ ws1 ++ [125]))
    [] (.object ms) (fun b hb => by cases hb)
    (fun b hb => by cases hb) (JVal.jobj hw0 hms hw1) (by simp)

/-! ## Soundness of the number phase: the stored text is exactly the
consumed substring -/

theorem peek_of_read_ne {p : Rdr} {v : Nat} (hv : (p.read).1 = v) (h0 : v ≠ 0) :
    (p.peek).1 = v := by
  by_cases hE : p.isEOF = true
  · rw [read_eof hE] at hv
    simp at hv
    exfalso
    omega
  · have hE2 : p.isEOF = false := by revert hE; cases p.isEOF <;> simp
    rw [← (read_step hE2).1]
    exact hv

/-- Reading a nonzero ASCII scalar consumes exactly the one byte under the
cursor, which is that scalar. -/
theorem peek_sound_lo {p : Rdr} {v : Nat} (hv : (p.peek).1 = v) (h0 : v ≠ 0)
    (hlt : v < 128) :
    (p.read).1 = v ∧ ((p.read).2).s = p.s ∧ ((p.read).2).off = p.off + 1 ∧
      sub p.s p.off (p.off + 1) = [v] := by
  by_cases hE : p.isEOF = true
  · rw [peek_eof hE] at hv
    simp at hv
    exfalso
    omega
  · have hE2 : p.isEOF = false := by revert hE; cases p.isEOF <;> simp
    have hne : p.rem ≠ [] := by
      intro hc
      rw [isEOF_of_rem_nil hc] at hE2
      cases hE2
    obtain ⟨b, t, hbt⟩ : ∃ b t, p.rem = b :: t := by
      cases hcs : p.rem with
      | nil => exact absurd hcs hne
      | cons b t => exact ⟨b, t, rfl⟩
    have hblt : b < 128 := by
      by_contra hge
      have := (peek_hi hbt (by omega)).1
      omega
    have hpk : p.peek = (b, 1) := peek_lo hbt hblt
    have hbv : b = v := by
      rw [hpk] at hv
      exact hv
    subst hbv
    obtain ⟨h1, l, c, h2⟩ := read_step hE2
    rw [hpk] at h1 h2
    refine ⟨h1, by rw [h2], by rw [h2], ?_⟩
    have h3 := sub_rem (w := [b]) (by simpa using hbt)
    simpa using h3

theorem digitLoopF_sound : ∀ (n : Nat) (p : Rdr) (acc : List Nat),
    ((digitLoopF n p acc).2).s = p.s ∧ p.off ≤ ((digitLoopF n p acc).2).off ∧
      (digitLoopF n p acc).1 = acc ++ sub p.s p.off ((digitLoopF n p acc).2).off := by
  intro n
  induction n with
  | zero =>
    intro p acc
    refine ⟨rfl, le_refl _, ?_⟩
    simp [digitLoopF, sub]
  | succ n ih =>
    intro p acc
    by_cases hc : p.isEOF = false ∧ isDigitB (p.peek).1 = true
    · have hdig := hc.2
      have hlt : (p.peek).1 < 128 := isDigitB_lt hdig
      have h0 : (p.peek).1 ≠ 0 := by
        simp [isDigitB] at hdig
        omega
      obtain ⟨hr1, hs2, ho2, hsub⟩ := peek_sound_lo rfl h0 hlt
      have hsub2 : sub p.s p.off (p.off + 1) = [(p.read).1] := by
        rw [hr1]
        exact hsub
      simp only [digitLoopF, if_pos hc]
      obtain ⟨ih1, ih2, ih3⟩ := ih ((p.read).2) (acc ++ [(p.read).1])
      refine ⟨by rw [ih1, hs2], by omega, ?_⟩
      rw [ih3, hs2, ho2, List.append_assoc]
      congr 1
      obtain ⟨o, hl2⟩ : ∃ o, ((digitLoopF n ((p.read).2) (acc ++ [(p.read).1])).2).off = o :=
        ⟨_, rfl⟩
      rw [hl2] at ih2 ⊢
      rw [← hsub2]
      exact sub_append (by omega) (by omega)
    · have hout : digitLoopF (n + 1) p acc = (acc, p) := by
        simp only [digitLoopF, if_neg hc]
      rw [hout]
      refine ⟨rfl, le_refl _, ?_⟩
      simp [sub]

theorem digitLoop_sound (p : Rdr) (acc : List Nat) :
    ((digitLoop p acc).2).s = p.s ∧ p.off ≤ ((digitLoop p acc).2).off ∧
      (digitLoop p acc).1 = acc ++ sub p.s p.off ((digitLoop p acc).2).off :=
  digitLoopF_sound (p.s.length - p.off + 1) p acc

theorem parseInteger_sound {start : Nat} {acc a1 : List Nat} {p p1 : Rdr}
    (h : parseInteger start acc p = .ok (a1, p1)) :
    p1.s = p.s ∧ p.off ≤ p1.off ∧ a1 = acc ++ sub p.s p.off p1.off := by
  simp only [parseInteger] at h
  by_cases h45 : start = 45
  · rw [if_pos h45] at h
    by_cases h48 : (p.read).1 = 48
    · rw [if_pos h48] at h
      simp only [Except.ok.injEq, Prod.mk.injEq] at h
      obtain ⟨ha, hp⟩ := h
      obtain ⟨hr1, hs2, ho2, hsub⟩ := peek_sound_lo (peek_of_read_ne h48 (by omega))
        (by omega) (by omega)
      subst hp
      refine ⟨hs2, by omega, ?_⟩
      rw [← ha, ho2, hsub, h48]
    · rw [if_neg h48] at h
      by_cases hnat : isNaturalB (p.read).1 = true
      · rw [if_pos hnat] at h
        simp only [Except.ok.injEq, Prod.mk.injEq] at h
        obtain ⟨ha, hp⟩ := h
        have hne0 : (p.read).1 ≠ 0 := by
          simp [isNaturalB] at hnat
          omega
        have hlt : (p.read).1 < 128 := by
          simp [isNaturalB] at hnat
          omega
        obtain ⟨hr1, hs2, ho2, hsub⟩ := peek_sound_lo (peek_of_read_ne rfl hne0) hne0 hlt
        obtain ⟨ds1, ds2, ds3⟩ := digitLoop_sound ((p.read).2) []
        subst hp
        refine ⟨by rw [ds1, hs2], by omega, ?_⟩
        rw [← ha, ds3, List.nil_append, hs2, ho2, List.append_assoc]
        congr 1
        rw [← hsub]
        exact sub_append (by omega) (by omega)
      · rw [if_neg hnat] at h
        cases h
  · rw [if_neg h45] at h
    by_cases h48 : start ≠ 48
    · rw [if_pos h48] at h
      simp only [Except.ok.injEq, Prod.mk.injEq] at h
      obtain ⟨ha, hp⟩ := h
      obtain ⟨ds1, ds2, ds3⟩ := digitLoop_sound p []
      subst hp
      refine ⟨ds1, ds2, ?_⟩
      rw [← ha, ds3]
      simp
    · rw [if_neg h48] at h
      simp only [Except.ok.injEq, Prod.mk.injEq] at h
      obtain ⟨ha, hp⟩ := h
      subst hp
      refine ⟨rfl, le_refl _, ?_⟩
      rw [← ha]
      simp [sub]

theorem parseFraction_sound {acc a2 : List Nat} {p p2 : Rdr}
    (h : parseFraction acc p = .ok (a2, p2)) :
    p2.s = p.s ∧ p.off ≤ p2.off ∧ a2 = acc ++ sub p.s p.off p2.off := by
  simp only [parseFraction] at h
  by_cases h46 : (p.peek).1 = 46
  · rw [if_pos h46] at h
    by_cases hnil : (digitLoop ((p.read).2) []).1 = []
    · rw [if_pos hnil] at h
      cases h
    · rw [if_neg hnil] at h
      simp only [Except.ok.injEq, Prod.mk.injEq] at h
      obtain ⟨ha, hp⟩ := h
      obtain ⟨hr1, hs2, ho2, hsub⟩ := peek_sound_lo h46 (by omega) (by omega)
      obtain ⟨ds1, ds2, ds3⟩ := digitLoop_sound ((p.read).2) []
      subst hp
      refine ⟨by rw [ds1, hs2], by omega, ?_⟩
      rw [← ha, ds3, List.nil_append, hs2, ho2, List.append_assoc]
      congr 1
      rw [← hsub]
      exact sub_append (by omega) (by omega)
  · rw [if_neg h46] at h
    simp only [Except.ok.injEq, Prod.mk.injEq] at h
    obtain ⟨ha, hp⟩ := h
    subst hp
    refine ⟨rfl, le_refl _, ?_⟩
    rw [← ha]
    simp [sub]

theorem parseExponent_sound {acc a3 : List Nat} {p p3 : Rdr}
    (h : parseExponent acc p = .ok (a3, p3)) :
    p3.s = p.s ∧ p.off ≤ p3.off ∧ a3 = acc ++ sub p.s p.off p3.off := by
  simp only [parseExponent] at h
  by_cases hEx : (p.peek).1 = 101 ∨ (p.peek).1 = 69
  · rw [if_pos hEx] at h
    have h0 : (p.peek).1 ≠ 0 := by omega
    have hlt : (p.peek).1 < 128 := by omega
    obtain ⟨hr1, hs2, ho2, hsub⟩ := peek_sound_lo rfl h0 hlt
    by_cases hSgn : (((p.read).2).peek).1 = 43 ∨ (((p.read).2).peek).1 = 45
    · rw [if_pos hSgn] at h
      have h0b : (((p.read).2).peek).1 ≠ 0 := by omega
      have hltb : (((p.read).2).peek).1 < 128 := by omega
      obtain ⟨hr1b, hs2b, ho2b, hsubb⟩ := peek_sound_lo (p := (p.read).2) rfl h0b hltb
      by_cases hnil : (digitLoop ((((p.read).2).read).2) []).1 = []
      · rw [if_pos hnil] at h
        cases h
      · rw [if_neg hnil] at h
        simp only [Except.ok.injEq, Prod.mk.injEq] at h
        obtain ⟨ha, hp⟩ := h
        obtain ⟨ds1, ds2, ds3⟩ := digitLoop_sound ((((p.read).2).read).2) []
        subst hp
        rw [hs2, ho2] at hsubb
        refine ⟨by rw [ds1, hs2b, hs2], by omega, ?_⟩
        rw [← ha, ds3, List.nil_append, hs2b, hs2, ho2b, ho2, List.append_assoc,
          List.append_assoc]
        congr 1
        have e1 : [(((p.read).2).peek).1] ++
            sub p.s (p.off + 1 + 1) ((digitLoop ((((p.read).2).read).2) []).2).off =
            sub p.s (p.off + 1) ((digitLoop ((((p.read).2).read).2) []).2).off := by
          rw [← hsubb]
          exact sub_append (by omega) (by omega)
        rw [e1, ← hsub]
        exact sub_append (by omega) (by omega)
    · rw [if_neg hSgn] at h
      by_cases hnil : (digitLoop ((p.read).2) []).1 = []
      · rw [if_pos hnil] at h
        cases h
      · rw [if_neg hnil] at h
        simp only [Except.ok.injEq, Prod.mk.injEq] at h
        obtain ⟨ha, hp⟩ := h
        obtain ⟨ds1, ds2, ds3⟩ := digitLoop_sound ((p.read).2) []
        subst hp
        refine ⟨by rw [ds1, hs2], by omega, ?_⟩
        rw [← ha, ds3, List.nil_append, hs2, ho2, List.append_assoc]
        congr 1
        rw [← hsub]
        exact sub_append (by omega) (by omega)
  · rw [if_neg hEx] at h
    simp only [Except.ok.injEq, Prod.mk.injEq] at h
    obtain ⟨ha, hp⟩ := h
    subst hp
    refine ⟨rfl, le_refl _, ?_⟩
    rw [← ha]
    simp [sub]

/-- The element built by `parseNumber` stores the already-consumed start
byte followed by exactly the substring the number phases consumed. -/
theorem parseNumber_sound {start : Nat} {p p3 : Rdr} {el : Elem}
    (h : parseNumber start p = .ok (el, p3)) :
    p3.s = p.s ∧ p.off ≤ p3.off ∧ el = .number ([start] ++ sub p.s p.off p3.off) := by
  simp only [parseNumber] at h
  split at h
  · cases h
  · rename_i a1 p1 h1
    obtain ⟨hi1, hi2, hi3⟩ := parseInteger_sound h1
    split at h
    · cases h
    · rename_i a2 p2 h2
      obtain ⟨hf1, hf2, hf3⟩ := parseFraction_sound h2
      split at h
      · cases h
      · rename_i a3x p3x h3
        obtain ⟨he1, he2, he3⟩ := parseExponent_sound h3
        simp only [Except.ok.injEq, Prod.mk.injEq] at h
        obtain ⟨hel, hp⟩ := h
        subst hp
        refine ⟨by rw [he1, hf1, hi1], by omega, ?_⟩
        rw [← hel, he3, hf3, hi3, hf1, hi1]
        have hs12 : sub p.s p.off p1.off ++ sub p.s p1.off p2.off =
            sub p.s p.off p2.off := sub_append hi2 hf2
        have hs23 : sub p.s p.off p2.off ++ sub p.s p2.off p3x.off =
            sub p.s p.off p3x.off := sub_append (le_trans hi2 hf2) he2
        congr 1
        rw [List.append_assoc, List.append_assoc,
          ← List.append_assoc (sub p.s p.off p1.off), hs12, hs23]

theorem parseObject_kind {fuel : Nat} {p q : Rdr} {e : Elem}
    (h : parseObject fuel p = .ok (e, q)) : ∃ ms, e = .object ms := by
  match fuel with
  | 0 => simp [parseObject] at h
  | f + 1 =>
    simp only [parseObject] at h
    split at h
    · cases h
    · split at h
      · simp only [Except.ok.injEq, Prod.mk.injEq] at h
        exact ⟨_, h.1.symm⟩
      · cases h

theorem parseArray_kind {fuel : Nat} {p q : Rdr} {e : Elem}
    (h : parseArray fuel p = .ok (e, q)) : ∃ es, e = .array es := by
  match fuel with
  | 0 => simp [parseArray] at h
  | f + 1 =>
    simp only [parseArray] at h
    split at h
    · cases h
    · split at h
      · simp only [Except.ok.injEq, Prod.mk.injEq] at h
        exact ⟨_, h.1.symm⟩
      · cases h

theorem parseString_kind {p q : Rdr} {e : Elem}
    (h : parseString p = .ok (e, q)) : ∃ b, e = .string b := by
  simp only [parseString] at h
  split at h
  · cases h
  · simp only [Except.ok.injEq, Prod.mk.injEq] at h
    exact ⟨_, h.1.symm⟩

theorem parseBool_kind {start : Nat} {p q : Rdr} {e : Elem}
    (h : parseBool start p = .ok (e, q)) : ∃ b, e = .boolean b := by
  simp only [parseBool] at h
  split at h
  · split at h
    · simp only [Except.ok.injEq, Prod.mk.injEq] at h
      exact ⟨_, h.1.symm⟩
    · cases h
  · split at h
    · simp only [Except.ok.injEq, Prod.mk.injEq] at h
      exact ⟨_, h.1.symm⟩
    · cases h

theorem parseNull_kind {p q : Rdr} {e : Elem}
    (h : parseNull p = .ok (e, q)) : e = .null := by
  simp only [parseNull] at h
  split at h
  · simp only [Except.ok.injEq, Prod.mk.injEq] at h
    exact h.1.symm
  · cases h

/-- Whenever `parseValue` succeeds with a number element, the stored text
is exactly the substring of the buffer between the cursor positions before
and after the call: the consumed number-grammar text, never re-derived. -/
theorem parseValue_number_sound {fuel : Nat} {p q : Rdr} {w : List Nat}
    (h : parseValue fuel p = .ok (.number w, q)) :
    w = sub p.s p.off q.off ∧ p.off < q.off ∧ q.s = p.s := by
  match fuel with
  | 0 => simp [parseValue] at h
  | f + 1 =>
    simp only [parseValue] at h
    split at h
    · obtain ⟨ms, hms⟩ := parseObject_kind h
      cases hms
    · split at h
      · obtain ⟨es, hes⟩ := parseArray_kind h
        cases hes
      · split at h
        · obtain ⟨b, hb⟩ := parseString_kind h
          cases hb
        · split at h
          · rename_i hc
            obtain ⟨hn1, hn2, hn3⟩ := parseNumber_sound h
            have h0 : (p.read).1 ≠ 0 := by omega
            have hlt : (p.read).1 < 128 := by omega
            obtain ⟨hr1, hs2, ho2, hsub⟩ := peek_sound_lo (peek_of_read_ne rfl h0) h0 hlt
            simp only [Elem.number.injEq] at hn3
            refine ⟨?_, by omega, by rw [hn1, hs2]⟩
            rw [hn3, hs2, ho2, ← hsub]
            exact sub_append (by omega) (by omega)
          · split at h
            · obtain ⟨b, hb⟩ := parseBool_kind h
              cases hb
            · split at h
              · have hnul := parseNull_kind h
                cases hnul
              · cases h

/-! ## The loop-level comma errors (trailing comma, missing comma) -/

theorem parseObjLoop_trailing {p : Rdr} {ws4 rest : List Nat}
    {prev : List (List Nat × Elem)} {fuel : Nat} (hws4 : WsL ws4) (hprev : prev ≠ [])
    (hrem : p.rem = 44 :: (ws4 ++ (125 :: rest))) (hfuel : 2 ≤ fuel) :
    ∃ l c, parseObjLoop fuel p prev = .error ⟨l, c, .plain "expected object member"⟩ := by
  obtain ⟨f, rfl⟩ : ∃ f, fuel = f + 1 := ⟨fuel - 1, by omega⟩
  obtain ⟨f2, hf2⟩ : ∃ f2, f = f2 + 1 := ⟨f - 1, by omega⟩
  have hE := not_eof_of_rem_cons hrem
  have hpk : p.peek = (44, 1) := peek_lo hrem (by omega)
  have hpk125 : ¬ (p.peek).1 = 125 := by
    rw [hpk]
    simp
  obtain ⟨hr44, l1, c1, hread⟩ := read_lo hrem (by omega)
  have hrem1 : (Rdr.mk p.s l1 c1 (p.off + 1)).rem = ws4 ++ (125 :: rest) :=
    rem_at (w := [44]) (by simpa using hrem) l1 c1 1 (by simp)
  obtain ⟨l2, c2, hwsa⟩ := eatWs_run hws4 (WsStop_cons (by simp [isWsB])) hrem1
  simp only at hwsa
  have hrem2 : (Rdr.mk p.s l2 c2 (p.off + 1 + ws4.length)).rem = 125 :: rest :=
    rem_advance (p := Rdr.mk p.s l1 c1 (p.off + 1)) hrem1 l2 c2
  have hpk2 : ((Rdr.mk p.s l2 c2 (p.off + 1 + ws4.length)).peek).1 = 125 := by
    rw [peek_lo hrem2 (by omega)]
  refine ⟨l2, c2, ?_⟩
  simp only [parseObjLoop]
  rw [if_neg (by simp [hE]), if_neg hpk125,
    if_neg (by simp [isEmpty_false_of_ne hprev]), if_pos hr44, hread]
  try simp only
  rw [hwsa]
  try simp only
  rw [hf2]
  simp only [parseMember]
  rw [if_pos (by rw [hpk2]; omega)]
  try simp only
  rw [if_neg (by simp [isEmpty_false_of_ne hprev])]
  simp [perr]

theorem parseArrLoop_trailing {p : Rdr} {ws4 rest : List Nat} {prev : List Elem}
    {fuel : Nat} (hws4 : WsL ws4) (hprev : prev ≠ [])
    (hrem : p.rem = 44 :: (ws4 ++ (93 :: rest))) (hfuel : 2 ≤ fuel) :
    ∃ l c, parseArrLoop fuel p prev = .error ⟨l, c, .unexpectedToken 93⟩ := by
  obtain ⟨f, rfl⟩ : ∃ f, fuel = f + 1 := ⟨fuel - 1, by omega⟩
  obtain ⟨f2, hf2⟩ : ∃ f2, f = f2 + 1 := ⟨f - 1, by omega⟩
  have hE := not_eof_of_rem_cons hrem
  have hpk : p.peek = (44, 1) := peek_lo hrem (by omega)
  have hpk93 : ¬ (p.peek).1 = 93 := by
    rw [hpk]
    simp
  obtain ⟨hr44, l1, c1, hread⟩ := read_lo hrem (by omega)
  have hrem1 : (Rdr.mk p.s l1 c1 (p.off + 1)).rem = ws4 ++ (93 :: rest) :=
    rem_at (w := [44]) (by simpa using hrem) l1 c1 1 (by simp)
  obtain ⟨l2, c2, hwsa⟩ := eatWs_run hws4 (WsStop_cons (by simp [isWsB])) hrem1
  simp only at hwsa
  have hrem2 : (Rdr.mk p.s l2 c2 (p.off + 1 + ws4.length)).rem = 93 :: rest :=
    rem_advance (p := Rdr.mk p.s l1 c1 (p.off + 1)) hrem1 l2 c2
  obtain ⟨hr93, l3, c3, hread93⟩ := read_lo hrem2 (by omega)
  refine ⟨l3, c3, ?_⟩
  simp only [parseArrLoop]
  rw [if_neg (by simp [hE]), if_neg hpk93,
    if_neg (by simp [isEmpty_false_of_ne hprev]), if_pos hr44, hread]
  try simp only
  rw [hwsa]
  try simp only
  rw [hf2]
  simp only [parseValue]
  rw [hr93]
  rw [if_neg (by omega : ¬ (93 : Nat) = 123), if_neg (by omega : ¬ (93 : Nat) = 91),
    if_neg (by omega : ¬ (93 : Nat) = 34),
    if_neg (by omega : ¬ ((93 : Nat) = 45 ∨ (48 ≤ (93 : Nat) ∧ (93 : Nat) ≤ 57))),
    if_neg (by omega : ¬ ((93 : Nat) = 116 ∨ (93 : Nat) = 102)),
    if_neg (by omega : ¬ (93 : Nat) = 110)]
  rw [hread93]
  simp [perr]

theorem parseObjLoop_missing {p : Rdr} {b : Nat} {r2 : List Nat}
    {prev : List (List Nat × Elem)} {fuel : Nat}
    (hprev : prev ≠ []) (hb44 : b ≠ 44) (hb125 : b ≠ 125) (hblt : b < 128)
    (hrem : p.rem = b :: r2) (hfuel : 1 ≤ fuel) :
    ∃ l c, parseObjLoop fuel p prev = .error ⟨l, c, .expected "," b⟩ := by
  obtain ⟨f, rfl⟩ : ∃ f, fuel = f + 1 := ⟨fuel - 1, by omega⟩
  have hE := not_eof_of_rem_cons hrem
  have hpk : p.peek = (b, 1) := peek_lo hrem hblt
  have hpk125 : ¬ (p.peek).1 = 125 := by
    rw [hpk]
    simpa using hb125
  obtain ⟨hrb, l1, c1, hread⟩ := read_lo hrem hblt
  refine ⟨l1, c1, ?_⟩
  simp only [parseObjLoop]
  rw [if_neg (by simp [hE]), if_neg hpk125,
    if_neg (by simp [isEmpty_false_of_ne hprev]),
    if_neg (by rw [hrb]; exact hb44)]
  try simp only
  rw [hrb, hread]
  simp [perr]

theorem parseArrLoop_missing {p : Rdr} {b : Nat} {r2 : List Nat}
    {prev : List Elem} {fuel : Nat}
    (hprev : prev ≠ []) (hb44 : b ≠ 44) (hb93 : b ≠ 93) (hblt : b < 128)
    (hrem : p.rem = b :: r2) (hfuel : 1 ≤ fuel) :
    ∃ l c, parseArrLoop fuel p prev = .error ⟨l, c, .expected "," b⟩ := by
  obtain ⟨f, rfl⟩ : ∃ f, fuel = f + 1 := ⟨fuel - 1, by omega⟩
  have hE := not_eof_of_rem_cons hrem
  have hpk : p.peek = (b, 1) := peek_lo hrem hblt
  have hpk93 : ¬ (p.peek).1 = 93 := by
    rw [hpk]
    simpa using hb93
  obtain ⟨hrb, l1, c1, hread⟩ := read_lo hrem hblt
  refine ⟨l1, c1, ?_⟩
  simp only [parseArrLoop]
  rw [if_neg (by simp [hE]), if_neg hpk93,
    if_neg (by simp [isEmpty_false_of_ne hprev]),
    if_neg (by rw [hrb]; exact hb44)]
  try simp only
  rw [hrb, hread]
  simp [perr]

/-! ## Value-level comma errors: a container list that ends in a comma or
omits one makes `parseValue` fail -/

theorem parseValue_obj_trailing {ws0 t ws3 ws4 rest : List Nat}
    {ms : List (List Nat × Elem)} {p : Rdr} {fuel : Nat}
    (hw0 : WsL ws0) (hms : JMems ms t) (hw3 : WsL ws3) (hw4 : WsL ws4) (hMa : RunMa ms t)
    (hrem : p.rem = (123 :: (ws0 ++ t ++ ws3 ++ [44] ++ ws4 ++ [125])) ++ rest)
    (hfuel : 3 * t.length + 8 < fuel) :
    ∃ l c, parseValue fuel p = .error ⟨l, c, .plain "expected object member"⟩ := by
  obtain ⟨f, rfl⟩ : ∃ f, fuel = f + 1 := ⟨fuel - 1, by omega⟩
  obtain ⟨f2, hf2⟩ : ∃ f2, f = f2 + 1 := ⟨f - 1, by omega⟩
  have hrem2 : p.rem =
      123 :: (ws0 ++ (t ++ (ws3 ++ 44 :: (ws4 ++ 125 :: rest)))) := by
    rw [hrem]
    simp
  obtain ⟨hv123, l1, c1, hread⟩ := read_lo hrem2 (by omega)
  have hrem3 : (Rdr.mk p.s l1 c1 (p.off + 1)).rem =
      ws0 ++ (t ++ (ws3 ++ 44 :: (ws4 ++ 125 :: rest))) :=
    rem_at (w := [123]) (by simpa using hrem2) l1 c1 1 (by simp)
  obtain ⟨l2, c2, hws⟩ := eatWs_run hw0 (JMems_WsStop hms) hrem3
  simp only at hws
  have hrem4 : (Rdr.mk p.s l2 c2 (p.off + 1 + ws0.length)).rem =
      t ++ (ws3 ++ 44 :: (ws4 ++ 125 :: rest)) :=
    rem_advance (p := Rdr.mk p.s l1 c1 (p.off + 1)) hrem3 l2 c2
  obtain ⟨l3, c3, hloop, hlen1, hlen2⟩ := hMa f2
    (Rdr.mk p.s l2 c2 (p.off + 1 + ws0.length)) ws3 (44 :: (ws4 ++ 125 :: rest)) hw3
    (WsStop_cons (by simp [isWsB])) (NumStop_ws hw3 NumStop_of_head44) hrem4 (by omega)
  simp only at hloop
  have hrem5 : (Rdr.mk p.s l3 c3
      (p.off + 1 + ws0.length + (t.length + ws3.length))).rem =
      44 :: (ws4 ++ 125 :: rest) := by
    have h6 := rem_at (p := Rdr.mk p.s l2 c2 (p.off + 1 + ws0.length)) (w := t ++ ws3)
      ((by rw [hrem4]; simp) :
        (Rdr.mk p.s l2 c2 (p.off + 1 + ws0.length)).rem =
          (t ++ ws3) ++ (44 :: (ws4 ++ 125 :: rest)))
      l3 c3 (t.length + ws3.length) (by simp)
    simpa using h6
  have hne : ms ≠ [] := by
    intro hc
    rw [hc] at hlen2
    simp at hlen2
  obtain ⟨l4, c4, htrail⟩ := @parseObjLoop_trailing (Rdr.mk p.s l3 c3
      (p.off + 1 + ws0.length + (t.length + ws3.length))) ws4 rest ms
    (f2 - ms.length) hw4 hne hrem5 (by omega)
  refine ⟨l4, c4, ?_⟩
  simp only [parseValue]
  rw [if_pos hv123, hread, hf2]
  simp only [parseObject]
  rw [hws]
  try simp only
  rw [hloop]
  try simp only
  rw [htrail]

theorem parseValue_arr_trailing {ws0 t ws3 ws4 rest : List Nat}
    {es : List Elem} {p : Rdr} {fuel : Nat}
    (hw0 : WsL ws0) (hels : JEls es t) (hw3 : WsL ws3) (hw4 : WsL ws4) (hEa : RunEa es t)
    (hrem : p.rem = (91 :: (ws0 ++ t ++ ws3 ++ [44] ++ ws4 ++ [93])) ++ rest)
    (hfuel : 3 * t.length + 8 < fuel) :
    ∃ l c, parseValue fuel p = .error ⟨l, c, .unexpectedToken 93⟩ := by
  obtain ⟨f, rfl⟩ : ∃ f, fuel = f + 1 := ⟨fuel - 1, by omega⟩
  obtain ⟨f2, hf2⟩ : ∃ f2, f = f2 + 1 := ⟨f - 1, by omega⟩
  have hrem2 : p.rem =
      91 :: (ws0 ++ (t ++ (ws3 ++ 44 :: (ws4 ++ 93 :: rest)))) := by
    rw [hrem]
    simp
  obtain ⟨hv91, l1, c1, hread⟩ := read_lo hrem2 (by omega)
  have hrem3 : (Rdr.mk p.s l1 c1 (p.off + 1)).rem =
      ws0 ++ (t ++ (ws3 ++ 44 :: (ws4 ++ 93 :: rest))) :=
    rem_at (w := [91]) (by simpa using hrem2) l1 c1 1 (by simp)
  obtain ⟨l2, c2, hws⟩ := eatWs_run hw0 (JEls_WsStop hels) hrem3
  simp only at hws
  have hrem4 : (Rdr.mk p.s l2 c2 (p.off + 1 + ws0.length)).rem =
      t ++ (ws3 ++ 44 :: (ws4 ++ 93 :: rest)) :=
    rem_advance (p := Rdr.mk p.s l1 c1 (p.off + 1)) hrem3 l2 c2
  obtain ⟨l3, c3, hloop, hlen1, hlen2⟩ := hEa f2
    (Rdr.mk p.s l2 c2 (p.off + 1 + ws0.length)) ws3 (44 :: (ws4 ++ 93 :: rest)) hw3
    (WsStop_cons (by simp [isWsB])) (NumStop_ws hw3 NumStop_of_head44) hrem4 (by omega)
  simp only at hloop
  have hrem5 : (Rdr.mk p.s l3 c3
      (p.off + 1 + ws0.length + (t.length + ws3.length))).rem =
      44 :: (ws4 ++ 93 :: rest) := by
    have h6 := rem_at (p := Rdr.mk p.s l2 c2 (p.off + 1 + ws0.length)) (w := t ++ ws3)
      ((by rw [hrem4]; simp) :
        (Rdr.mk p.s l2 c2 (p.off + 1 + ws0.length)).rem =
          (t ++ ws3) ++ (44 :: (ws4 ++ 93 :: rest)))
      l3 c3 (t.length + ws3.length) (by simp)
    simpa using h6
  have hne : es ≠ [] := by
    intro hc
    rw [hc] at hlen2
    simp at hlen2
  obtain ⟨l4, c4, htrail⟩ := @parseArrLoop_trailing (Rdr.mk p.s l3 c3
      (p.off + 1 + ws0.length + (t.length + ws3.length))) ws4 rest es
    (f2 - es.length) hw4 hne hrem5 (by omega)
  refine ⟨l4, c4, ?_⟩
  simp only [parseValue]
  rw [if_neg (by omega : ¬ (p.read).1 = 123), if_pos hv91, hread, hf2]
  simp only [parseArray]
  rw [hws]
  try simp only
  rw [hloop]
  try simp only
  rw [htrail]

theorem parseValue_obj_missing {ws0 t ws3 more rest : List Nat}
    {ms : List (List Nat × Elem)} {p : Rdr} {fuel : Nat}
    (hw0 : WsL ws0) (hms : JMems ms t) (hw3 : WsL ws3) (hMa : RunMa ms t)
    (hrem : p.rem = (123 :: (ws0 ++ t ++ ws3 ++ (34 :: more))) ++ rest)
    (hfuel : 3 * t.length + 8 < fuel) :
    ∃ l c, parseValue fuel p = .error ⟨l, c, .expected "," 34⟩ := by
  obtain ⟨f, rfl⟩ : ∃ f, fuel = f + 1 := ⟨fuel - 1, by omega⟩
  obtain ⟨f2, hf2⟩ : ∃ f2, f = f2 + 1 := ⟨f - 1, by omega⟩
  have hrem2 : p.rem =
      123 :: (ws0 ++ (t ++ (ws3 ++ 34 :: (more ++ rest)))) := by
    rw [hrem]
    simp
  obtain ⟨hv123, l1, c1, hread⟩ := read_lo hrem2 (by omega)
  have hrem3 : (Rdr.mk p.s l1 c1 (p.off + 1)).rem =
      ws0 ++ (t ++ (ws3 ++ 34 :: (more ++ rest))) :=
    rem_at (w := [123]) (by simpa using hrem2) l1 c1 1 (by simp)
  obtain ⟨l2, c2, hws⟩ := eatWs_run hw0 (JMems_WsStop hms) hrem3
  simp only at hws
  have hrem4 : (Rdr.mk p.s l2 c2 (p.off + 1 + ws0.length)).rem =
      t ++ (ws3 ++ 34 :: (more ++ rest)) :=
    rem_advance (p := Rdr.mk p.s l1 c1 (p.off + 1)) hrem3 l2 c2
  obtain ⟨l3, c3, hloop, hlen1, hlen2⟩ := hMa f2
    (Rdr.mk p.s l2 c2 (p.off + 1 + ws0.length)) ws3 (34 :: (more ++ rest)) hw3
    (WsStop_cons (by simp [isWsB]))
    (NumStop_ws hw3 (NumStop_cons (by simp [isDigitB]) (by omega) (by omega) (by omega)))
    hrem4 (by omega)
  simp only at hloop
  have hrem5 : (Rdr.mk p.s l3 c3
      (p.off + 1 + ws0.length + (t.length + ws3.length))).rem =
      34 :: (more ++ rest) := by
    have h6 := rem_at (p := Rdr.mk p.s l2 c2 (p.off + 1 + ws0.length)) (w := t ++ ws3)
      ((by rw [hrem4]; simp) :
        (Rdr.mk p.s l2 c2 (p.off + 1 + ws0.length)).rem =
          (t ++ ws3) ++ (34 :: (more ++ rest)))
      l3 c3 (t.length + ws3.length) (by simp)
    simpa using h6
  have hne : ms ≠ [] := by
    intro hc
    rw [hc] at hlen2
    simp at hlen2
  obtain ⟨l4, c4, hmiss⟩ := @parseObjLoop_missing (Rdr.mk p.s l3 c3
      (p.off + 1 + ws0.length + (t.length + ws3.length))) 34 (more ++ rest) ms
    (f2 - ms.length) hne (by omega) (by omega) (by omega) hrem5 (by omega)
  refine ⟨l4, c4, ?_⟩
  simp only [parseValue]
  rw [if_pos hv123, hread, hf2]
  simp only [parseObject]
  rw [hws]
  try simp only
  rw [hloop]
  try simp only
  rw [hmiss]

theorem parseValue_arr_missing {ws0 t ws3 more rest : List Nat} {b : Nat}
    {es : List Elem} {p : Rdr} {fuel : Nat}
    (hw0 : WsL ws0) (hels : JEls es t) (hw3 : WsL ws3) (hEa : RunEa es t)
    (hb44 : b ≠ 44) (hb93 : b ≠ 93) (hblt : b < 128) (hbw : isWsB b = false)
    (hbd : isDigitB b = false) (hb46 : b ≠ 46) (hb101 : b ≠ 101) (hb69 : b ≠ 69)
    (hrem : p.rem = (91 :: (ws0 ++ t ++ ws3 ++ (b :: more))) ++ rest)
    (hfuel : 3 * t.length + 8 < fuel) :
    ∃ l c, parseValue fuel p = .error ⟨l, c, .expected "," b⟩ := by
  obtain ⟨f, rfl⟩ : ∃ f, fuel = f + 1 := ⟨fuel - 1, by omega⟩
  obtain ⟨f2, hf2⟩ : ∃ f2, f = f2 + 1 := ⟨f - 1, by omega⟩
  have hrem2 : p.rem =
      91 :: (ws0 ++ (t ++ (ws3 ++ b :: (more ++ rest)))) := by
    rw [hrem]
    simp
  obtain ⟨hv91, l1, c1, hread⟩ := read_lo hrem2 (by omega)
  have hrem3 : (Rdr.mk p.s l1 c1 (p.off + 1)).rem =
      ws0 ++ (t ++ (ws3 ++ b :: (more ++ rest))) :=
    rem_at (w := [91]) (by simpa using hrem2) l1 c1 1 (by simp)
  obtain ⟨l2, c2, hws⟩ := eatWs_run hw0 (JEls_WsStop hels) hrem3
  simp only at hws
  have hrem4 : (Rdr.mk p.s l2 c2 (p.off + 1 + ws0.length)).rem =
      t ++ (ws3 ++ b :: (more ++ rest)) :=
    rem_advance (p := Rdr.mk p.s l1 c1 (p.off + 1)) hrem3 l2 c2
  obtain ⟨l3, c3, hloop, hlen1, hlen2⟩ := hEa f2
    (Rdr.mk p.s l2 c2 (p.off + 1 + ws0.length)) ws3 (b :: (more ++ rest)) hw3
    (WsStop_cons hbw)
    (NumStop_ws hw3 (NumStop_cons hbd hb46 hb101 hb69))
    hrem4 (by omega)
  simp only at hloop
  have hrem5 : (Rdr.mk p.s l3 c3
      (p.off + 1 + ws0.length + (t.length + ws3.length))).rem =
      b :: (more ++ rest) := by
    have h6 := rem_at (p := Rdr.mk p.s l2 c2 (p.off + 1 + ws0.length)) (w := t ++ ws3)
      ((by rw [hrem4]; simp) :
        (Rdr.mk p.s l2 c2 (p.off + 1 + ws0.length)).rem =
          (t ++ ws3) ++ (b :: (more ++ rest)))
      l3 c3 (t.length + ws3.length) (by simp)
    simpa using h6
  have hne : es ≠ [] := by
    intro hc
    rw [hc] at hlen2
    simp at hlen2
  obtain ⟨l4, c4, hmiss⟩ := @parseArrLoop_missing (Rdr.mk p.s l3 c3
      (p.off + 1 + ws0.length + (t.length + ws3.length))) b (more ++ rest) es
    (f2 - es.length) hne hb44 hb93 hblt hrem5 (by omega)
  refine ⟨l4, c4, ?_⟩
  simp only [parseValue]
  rw [if_neg (by omega : ¬ (p.read).1 = 123), if_pos hv91, hread, hf2]
  simp only [parseArray]
  rw [hws]
  try simp only
  rw [hloop]
  try simp only
  rw [hmiss]

/-! ## Whole-input comma errors through `parse` -/

theorem eatWs_id_of_head {x : List Nat} {b : Nat} {t2 : List Nat}
    (hx : x = b :: t2) (hblt : b < 128) (hbw : isWsB b = false) :
    eatWs (mkRdr x) = mkRdr x := by
  have hpk : (mkRdr x).peek = (b, 1) :=
    peek_lo (p := mkRdr x)
      ((by simp [mkRdr, Rdr.rem, hx]) : (mkRdr x).rem = b :: t2) hblt
  simp only [eatWs, eatWsF]
  rw [if_neg (by simp [hpk, hbw])]

/-- Trailing comma in an object member list: `parse` fails with the
"expected object member" syntax error. -/
theorem parse_obj_trailing {ws0 t ws3 ws4 : List Nat} {ms : List (List Nat × Elem)}
    (hw0 : WsL ws0) (hms : JMems ms t) (hw3 : WsL ws3) (hw4 : WsL ws4) :
    ∃ l c, parseFull (123 :: (ws0 ++ t ++ ws3 ++ [44] ++ ws4 ++ [125])) =
      .error ⟨l, c, .plain "expected object member"⟩ := by
  have hMa : RunMa ms t := (complete_all t.length).2.2.2.2 ms t hms (le_refl _)
  have hws0r := eatWs_id_of_head (x := 123 :: (ws0 ++ t ++ ws3 ++ [44] ++ ws4 ++ [125]))
    rfl (by omega) (by simp [isWsB])
  obtain ⟨l, c, herr⟩ := @parseValue_obj_trailing ws0 t ws3 ws4 [] ms
    (mkRdr (123 :: (ws0 ++ t ++ ws3 ++ [44] ++ ws4 ++ [125])))
    (initFuel (123 :: (ws0 ++ t ++ ws3 ++ [44] ++ ws4 ++ [125])).length)
    hw0 hms hw3 hw4 hMa (by simp [mkRdr, Rdr.rem]) (by simp [initFuel]; omega)
  refine ⟨l, c, ?_⟩
  simp only [parseFull, parseRoot]
  rw [hws0r]
  try simp only
  rw [herr]

/-- Trailing comma in an array element list: `parse` fails with the
"unexpected token ]" syntax error. -/
theorem parse_arr_trailing {ws0 t ws3 ws4 : List Nat} {es : List Elem}
    (hw0 : WsL ws0) (hels : JEls es t) (hw3 : WsL ws3) (hw4 : WsL ws4) :
    ∃ l c, parseFull (91 :: (ws0 ++ t ++ ws3 ++ [44] ++ ws4 ++ [93])) =
      .error ⟨l, c, .unexpectedToken 93⟩ := by
  have hEa : RunEa es t := (complete_all t.length).2.2.1 es t hels (le_refl _)
  have hws0r := eatWs_id_of_head (x := 91 :: (ws0 ++ t ++ ws3 ++ [44] ++ ws4 ++ [93]))
    rfl (by omega) (by simp [isWsB])
  obtain ⟨l, c, herr⟩ := @parseValue_arr_trailing ws0 t ws3 ws4 [] es
    (mkRdr (91 :: (ws0 ++ t ++ ws3 ++ [44] ++ ws4 ++ [93])))
    (initFuel (91 :: (ws0 ++ t ++ ws3 ++ [44] ++ ws4 ++ [93])).length)
    hw0 hels hw3 hw4 hEa (by simp [mkRdr, Rdr.rem]) (by simp [initFuel]; omega)
  refine ⟨l, c, ?_⟩
  simp only [parseFull, parseRoot]
  rw [hws0r]
  try simp only
  rw [herr]

/-- Missing comma between two object members (the next member's opening
quote follows the previous member directly): `parse` fails expecting a
comma. -/
theorem parse_obj_missing {ws0 t ws3 more : List Nat} {ms : List (List Nat × Elem)}
    (hw0 : WsL ws0) (hms : JMems ms t) (hw3 : WsL ws3) :
    ∃ l c, parseFull (123 :: (ws0 ++ t ++ ws3 ++ (34 :: more))) =
      .error ⟨l, c, .expected "," 34⟩ := by
  have hMa : RunMa ms t := (complete_all t.length).2.2.2.2 ms t hms (le_refl _)
  have hws0r := eatWs_id_of_head (x := 123 :: (ws0 ++ t ++ ws3 ++ (34 :: more)))
    rfl (by omega) (by simp [isWsB])
  obtain ⟨l, c, herr⟩ := @parseValue_obj_missing ws0 t ws3 more [] ms
    (mkRdr (123 :: (ws0 ++ t ++ ws3 ++ (34 :: more))))
    (initFuel (123 :: (ws0 ++ t ++ ws3 ++ (34 :: more))).length)
    hw0 hms hw3 hMa (by simp [mkRdr, Rdr.rem]) (by simp [initFuel]; omega)
  refine ⟨l, c, ?_⟩
  simp only [parseFull, parseRoot]
  rw [hws0r]
  try simp only
  rw [herr]

/-- Missing comma between two array elements (the next element's head byte
follows the previous element directly): `parse` fails expecting a comma. -/
theorem parse_arr_missing {ws0 t ws3 more : List Nat} {b : Nat} {es : List Elem}
    (hw0 : WsL ws0) (hels : JEls es t) (hw3 : WsL ws3)
    (hb44 : b ≠ 44) (hb93 : b ≠ 93) (hblt : b < 128) (hbw : isWsB b = false)
    (hbd : isDigitB b = false) (hb46 : b ≠ 46) (hb101 : b ≠ 101) (hb69 : b ≠ 69) :
    ∃ l c, parseFull (91 :: (ws0 ++ t ++ ws3 ++ (b :: more))) =
      .error ⟨l, c, .expected "," b⟩ := by
  have hEa : RunEa es t := (complete_all t.length).2.2.1 es t hels (le_refl _)
  have hws0r := eatWs_id_of_head (x := 91 :: (ws0 ++ t ++ ws3 ++ (b :: more)))
    rfl (by omega) (by simp [isWsB])
  obtain ⟨l, c, herr⟩ := @parseValue_arr_missing ws0 t ws3 more [] b es
    (mkRdr (91 :: (ws0 ++ t ++ ws3 ++ (b :: more))))
    (initFuel (91 :: (ws0 ++ t ++ ws3 ++ (b :: more))).length)
    hw0 hels hw3 hEa hb44 hb93 hblt hbw hbd hb46 hb101 hb69
    (by simp [mkRdr, Rdr.rem]) (by simp [initFuel]; omega)
  refine ⟨l, c, ?_⟩
  simp only [parseFull, parseRoot]
  rw [hws0r]
  try simp only
  rw [herr]

/-! ## The claims -/

/-- C1: for every input byte sequence `x` that is syntactically valid JSON
under the RFC 8259 grammar, `parse x` returns an element tree without
error, and afterwards the scanner's cursor is exactly at end of input: its
byte offset equals the buffer length. -/
theorem claim_C1 {x : List Nat} (h : ValidJson x) :
    ∃ e l c, parseFull x = .ok (e, ⟨x, l, c, x.length⟩) ∧ parse x = .ok e := by
  obtain ⟨e, l, c, hr⟩ := parseFull_complete h
  refine ⟨e, l, c, hr, ?_⟩
  simp only [parse]
  rw [hr]
  rfl

/-- C1 witness: the concrete valid input `[null]`. -/
theorem claim_C1_witness :
    ∃ e l c, parseFull (asciiL "[null]") =
      .ok (e, ⟨asciiL "[null]", l, c, (asciiL "[null]").length⟩) ∧
      parse (asciiL "[null]") = .ok e := by
  apply claim_C1
  have hwnil : WsL [] := by
    intro b hb
    cases hb
  refine ⟨[], 91 :: ([] ++ [110, 117, 108, 108] ++ [] ++ [93]), [], .array [.null],
    hwnil, hwnil, JVal.jarr hwnil (JEls.one JVal.jnull) hwnil, ?_⟩
  rfl

/-- C2 is refuted by the code: on the 7-byte input `"A` (a string
literal cut off inside its `\u` escape, never closed) `parse` succeeds and
stores the truncated escape `\u004`; `minify` re-quotes those bytes, and
parsing that minified output fails with a hexadecimal-digit syntax error,
so `minify (parse (minify (parse x)))` is not even defined and
idempotence fails — `parse` does fail on the output of `minify` applied to
a parsed tree. -/
theorem claim_C2 :
    parse [34, 92, 117, 48, 48, 52, 49] = .ok (.string [92, 117, 48, 48, 52]) ∧
    minify (.string [92, 117, 48, 48, 52]) = [34, 92, 117, 48, 48, 52, 34] ∧
    parse (minify (.string [92, 117, 48, 48, 52])) =
      .error ⟨1, 7, .expected "hexadecimal digit" 117⟩ :=
  ⟨rfl, rfl, rfl⟩

/-- C3 is refuted by the code: the 2-byte input `"a` ends before any
unescaped closing quote, yet `parse` succeeds (returning an empty string
payload: `parseRawString` only errors at EOF when it consumed nothing,
and otherwise silently drops the last consumed byte), instead of failing
with a syntax error as claimed. -/
theorem claim_C3 :
    parse [34, 97] = .ok (.string []) ∧
    parse [34, 97, 98, 99] = .ok (.string [97, 98]) :=
  ⟨rfl, rfl⟩

/-- C4 is refuted by the code: in `astToString` the indentation does not
return to the container's level after an array's subtree (`indent` is
incremented for arrays but only objects decrement it), so of the two
sibling children of the outer array below, the first (`array:`) is
emitted behind one space and its sibling (`number:1`) behind two. -/
theorem claim_C4 :
    astToString (.array [.array [], .number [49]]) =
      asciiL "array:\n array:\n\n  number:1\n\n" :=
  rfl

/-- C5: on whole inputs `parse` rejects `01`, `1.` and `1e` with syntax
errors and accepts `-0` and `1.2e+3` as number elements; and in every
successful `parseValue` run that yields a number element, the stored text
is exactly the substring of the buffer consumed by the number grammar
(between the cursor offsets before and after the call), never re-derived
or reformatted. -/
theorem claim_C5 :
    parse (asciiL "01") = .error ⟨1, 2, .expected "eof" 49⟩ ∧
    parse (asciiL "1.") = .error ⟨1, 2, .plain "expected digit after fraction"⟩ ∧
    parse (asciiL "1e") = .error ⟨1, 2, .plain "expected digit after exponent"⟩ ∧
    parse (asciiL "-0") = .ok (.number (asciiL "-0")) ∧
    parse (asciiL "1.2e+3") = .ok (.number (asciiL "1.2e+3")) ∧
    (∀ (fuel : Nat) (p q : Rdr) (w : List Nat),
      parseValue fuel p = .ok (.number w, q) → w = sub p.s p.off q.off) :=
  ⟨rfl, rfl, rfl, rfl, rfl, fun fuel p q w h => (parseValue_number_sound h).1⟩

/-- C6: parsing the object text `{"a": "b\"c"}` (bytes below) succeeds,
the string element's stored payload is the literal source bytes `b\"c`
with the escape left undecoded, and `minify` of the tree reproduces the
literal text `{"a":"b\"c"}` with the raw bytes re-quoted unchanged. -/
theorem claim_C6 :
    parse [123, 34, 97, 34, 58, 32, 34, 98, 92, 34, 99, 34, 125] =
      .ok (.object [([97], .string [98, 92, 34, 99])]) ∧
    minify (.object [([97], .string [98, 92, 34, 99])]) =
      [123, 34, 97, 34, 58, 34, 98, 92, 34, 99, 34, 125] :=
  ⟨rfl, rfl⟩

/-- C7: `pretty (parse "[1,2,3]") 2` is exactly the five-line text with
each element on its own line indented two spaces, commas on all but the
last, and the closing bracket at the original indent; and both
`minify (parse "{}")` and `pretty (parse "{}") 2` are exactly the two
bytes of an empty object with no newline. -/
theorem claim_C7 :
    parse (asciiL "[1,2,3]") =
      .ok (.array [.number [49], .number [50], .number [51]]) ∧
    pretty (.array [.number [49], .number [50], .number [51]]) 2 =
      asciiL "[\n  1,\n  2,\n  3\n]" ∧
    parse [123, 125] = .ok (.object []) ∧
    minify (.object []) = [123, 125] ∧
    pretty (.object []) 2 = [123, 125] :=
  ⟨rfl, rfl, rfl, rfl, rfl⟩

/-- C8: a trailing comma after an object's member list or an array's
element list (comma, optional whitespace, then the closing brace or
bracket) is a syntax error, for every member or element list the grammar
can produce; a missing comma between two members (the next quote directly
after a member) or between two elements (any non-comma non-bracket
element byte directly after an element) is likewise a syntax error; and
concretely the objects and arrays with trailing commas below fail. -/
theorem claim_C8 :
    (∀ (ws0 t ws3 ws4 : List Nat) (ms : List (List Nat × Elem)),
      WsL ws0 → JMems ms t → WsL ws3 → WsL ws4 →
      ∃ l c, parseFull (123 :: (ws0 ++ t ++ ws3 ++ [44] ++ ws4 ++ [125])) =
        .error ⟨l, c, .plain "expected object member"⟩) ∧
    (∀ (ws0 t ws3 ws4 : List Nat) (es : List Elem),
      WsL ws0 → JEls es t → WsL ws3 → WsL ws4 →
      ∃ l c, parseFull (91 :: (ws0 ++ t ++ ws3 ++ [44] ++ ws4 ++ [93])) =
        .error ⟨l, c, .unexpectedToken 93⟩) ∧
    (∀ (ws0 t ws3 more : List Nat) (ms : List (List Nat × Elem)),
      WsL ws0 → JMems ms t → WsL ws3 →
      ∃ l c, parseFull (123 :: (ws0 ++ t ++ ws3 ++ (34 :: more))) =
        .error ⟨l, c, .expected "," 34⟩) ∧
    (∀ (ws0 t ws3 more : List Nat) (b : Nat) (es : List Elem),
      WsL ws0 → JEls es t → WsL ws3 →
      b ≠ 44 → b ≠ 93 → b < 128 → isWsB b = false → isDigitB b = false →
      b ≠ 46 → b ≠ 101 → b ≠ 69 →
      ∃ l c, parseFull (91 :: (ws0 ++ t ++ ws3 ++ (b :: more))) =
        .error ⟨l, c, .expected "," b⟩) ∧
    parse [123, 34, 97, 34, 58, 49, 44, 125] =
      .error ⟨1, 7, .plain "expected object member"⟩ ∧
    parse [91, 49, 44, 93] = .error ⟨1, 4, .unexpectedToken 93⟩ :=
  ⟨fun ws0 t ws3 ws4 ms hw0 hms hw3 hw4 => parse_obj_trailing hw0 hms hw3 hw4,
   fun ws0 t ws3 ws4 es hw0 hels hw3 hw4 => parse_arr_trailing hw0 hels hw3 hw4,
   fun ws0 t ws3 more ms hw0 hms hw3 => parse_obj_missing hw0 hms hw3,
   fun ws0 t ws3 more b es hw0 hels hw3 h1 h2 h3 h4 h5 h6 h7 h8 =>
     parse_arr_missing hw0 hels hw3 h1 h2 h3 h4 h5 h6 h7 h8,
   rfl, rfl⟩

/-- C9: `parse` of the object text `{"a":1,"a":2}` succeeds and keeps both
members under the duplicate key in source order; and in general every
grammar member list — with member order and key duplication entirely
unconstrained — parses to exactly that member sequence in source-text
insertion order, never merged or rejected. -/
theorem claim_C9 :
    parse [123, 34, 97, 34, 58, 49, 44, 34, 97, 34, 58, 50, 125] =
      .ok (.object [([97], .number [49]), ([97], .number [50])]) ∧
    (∀ (ws0 t ws1 : List Nat) (ms : List (List Nat × Elem)),
      WsL ws0 → JMems ms t → WsL ws1 →
      ∃ l c, parseFull (123 :: (ws0 ++ t ++ ws1 ++ [125])) =
        .ok (.object ms, ⟨123 :: (ws0 ++ t ++ ws1 ++ [125]), l, c,
          (123 :: (ws0 ++ t ++ ws1 ++ [125])).length⟩)) :=
  ⟨rfl, fun ws0 t ws1 ms hw0 hms hw1 => parse_obj_members hw0 hms hw1⟩

/-- C10: at end of input `peek` returns the NUL scalar with width 0 and
`read` returns the NUL scalar leaving the reader (offset, line, column)
unchanged, so every end-of-input probe is total; and a syntax error raised
at end of input (here: parsing the empty buffer) reports scalar 0 as the
character found. -/
theorem claim_C10 :
    (∀ p : Rdr, p.isEOF = true → p.peek = (0, 0) ∧ p.read = (0, p)) ∧
    parse [] = .error ⟨1, 0, .unexpectedToken 0⟩ :=
  ⟨fun p h => ⟨peek_eof h, read_eof h⟩, rfl⟩

end GoJson
